import Mathlib

/-!
# HMM: a heap memory manager over a brk-style program break

Shallow embedding of `src/FreeList.c` and `src/heap.c`.

## Memory model

* Addresses and sizes are natural numbers; every arithmetic operation the C
  code performs on `uint64_t`, `size_t` or pointers is reduced modulo `2^64`
  (`u64`, `padd`, `psub`), on `uint32_t` modulo `2^32`, on `uint8_t` modulo
  `2^8`.
* A `FreeListNode` header at address `a` has the three fields `length`,
  `prev`, `next`.  The heap keeps one map per field, keyed by the header
  address.  This agrees with the byte layout as long as the headers that are
  touched do not partially overlap each other.
* Payload bytes (only touched by `memcpy` / `memset`) live in a separate
  byte map.
* The operating system is the triple `osBreak`, `osFloor`, `osLimit`:
  `sbrk` moves `osBreak` and fails when the new break would leave
  `[osFloor, osLimit]`.
* Loops take a `fuel` budget.  A run yields `Except.error` when the budget
  is exhausted, when `NULL` is dereferenced or when a fixed-size local array
  is indexed out of range.
-/

set_option linter.unusedVariables false

namespace HMM

/-- Reasons for which a run of the embedded code yields no result. -/
inductive Fault where
  | outOfFuel
  | nullDeref
  | outOfBounds
  deriving DecidableEq, Repr

/-- Result of running a piece of the embedded code. -/
abbrev Run (α : Type) : Type := Except Fault α

/-- Reduction of a value to 64 bits. -/
def u64 (x : Nat) : Nat := x % 18446744073709551616

/-- 64-bit (pointer or unsigned) addition. -/
def padd (p k : Nat) : Nat := (p + k) % 18446744073709551616

/-- 64-bit (pointer or unsigned) subtraction. -/
def psub (p k : Nat) : Nat :=
  (p + (18446744073709551616 - k % 18446744073709551616)) % 18446744073709551616

/-- Point update of a map. -/
def set (f : Nat → Nat) (a v : Nat) : Nat → Nat := fun x => if x = a then v else f x

/-- `sizeof(FreeListNode)`: three 8-byte fields. -/
def NODE : Nat := 24

/-- `PAGE_SIZE` of heap.c: 200 KB. -/
def PAGE_SIZE : Nat := 200 * 1024

/-- `FREE_SIZE` of heap.c: 128 KB. -/
def FREE_SIZE : Nat := 128 * 1024

/-- `word_size` of heap.c. -/
def word_size : Nat := 8

/-- Capacity of the local pointer arrays (`[10000]`). -/
def ARRAY_CAP : Nat := 10000

/-- Global state of the allocator together with the state of the OS break. -/
structure Heap where
  FreeListHead : Nat
  length : Nat → Nat
  prev : Nat → Nat
  next : Nat → Nat
  payload : Nat → Nat
  programBreak : Nat
  initializationFlag : Nat
  osBreak : Nat
  osFloor : Nat
  osLimit : Nat

/-- State of a process that has not called the allocator yet. -/
def Heap.fresh (brk limit : Nat) : Heap :=
  { FreeListHead := 0, length := fun _ => 0, prev := fun _ => 0, next := fun _ => 0,
    payload := fun _ => 0, programBreak := 0, initializationFlag := 0,
    osBreak := brk, osFloor := brk, osLimit := limit }

/-! ## FreeList.c -/

/-- `insert_node_at_start` (FreeList.c 126-160). -/
def insert_node_at_start (s : Heap) (blockPtr : Nat) : Run Heap :=
  let newNode := psub blockPtr NODE
  if newNode = 0 then throw Fault.nullDeref
  else if s.FreeListHead = 0 then
    let s := { s with FreeListHead := newNode }
    let s := { s with length := set s.length s.FreeListHead (s.length newNode) }
    let s := { s with prev := set s.prev s.FreeListHead 0 }
    pure { s with next := set s.next s.FreeListHead 0 }
  else
    let oldHead := s.FreeListHead
    let s := { s with FreeListHead := newNode }
    let s := { s with length := set s.length s.FreeListHead (s.length newNode) }
    let s := { s with prev := set s.prev s.FreeListHead 0 }
    let s := { s with next := set s.next s.FreeListHead oldHead }
    pure { s with prev := set s.prev oldHead s.FreeListHead }

/-- The loop `while (currentNode->next != NULL) currentNode = currentNode->next`
of `append_to_freelist_end`. -/
def lastNodeFrom : Nat → Heap → Nat → Run Nat
  | 0, _, _ => throw Fault.outOfFuel
  | fuel + 1, s, currentNode =>
    if s.next currentNode ≠ 0 then lastNodeFrom fuel s (s.next currentNode)
    else pure currentNode

/-- `append_to_freelist_end` (FreeList.c 161-196). -/
def append_to_freelist_end (fuel : Nat) (s : Heap) (blockPtr : Nat) : Run Heap :=
  let newNode := psub blockPtr NODE
  if newNode = 0 then throw Fault.nullDeref
  else if s.FreeListHead = 0 then throw Fault.nullDeref
  else if s.next s.FreeListHead = 0 then
    let s := { s with prev := set s.prev newNode s.FreeListHead }
    let s := { s with next := set s.next newNode 0 }
    pure { s with next := set s.next s.FreeListHead newNode }
  else do
    let currentNode ← lastNodeFrom fuel s (s.next s.FreeListHead)
    let s := { s with prev := set s.prev newNode currentNode }
    let s := { s with next := set s.next newNode 0 }
    pure { s with next := set s.next currentNode newNode }

/-- `insert_node_between` (FreeList.c 198-215). -/
def insert_node_between (s : Heap) (currentNodePtr blockPtr : Nat) : Run Heap :=
  let targetNode := currentNodePtr
  let newNode := psub blockPtr NODE
  if newNode = 0 then throw Fault.nullDeref
  else if s.prev targetNode = 0 then throw Fault.nullDeref
  else
    let s := { s with prev := set s.prev newNode (s.prev targetNode) }
    let s := { s with next := set s.next newNode targetNode }
    let s := { s with next := set s.next (s.prev targetNode) newNode }
    pure { s with prev := set s.prev targetNode newNode }

/-- The traversal loop of `insert_block_into_freelist` (FreeList.c 108-122),
including the append that follows it when the walk falls off the list.
`inner` is the budget handed to that append. -/
def insertWalk : Nat → Nat → Heap → Nat → Nat → Run Heap
  | 0, _, _, _, _ => throw Fault.outOfFuel
  | fuel + 1, inner, s, currentNode, blockPtr =>
    if currentNode ≠ 0 then
      if psub blockPtr NODE < currentNode then insert_node_between s currentNode blockPtr
      else insertWalk fuel inner s (s.next currentNode) blockPtr
    else append_to_freelist_end inner s blockPtr

/-- `insert_block_into_freelist` (FreeList.c 91-124). -/
def insert_block_into_freelist (fuel : Nat) (s : Heap) (blockPtr : Nat) : Run Heap :=
  if s.FreeListHead = 0 ∨ psub blockPtr NODE < s.FreeListHead then
    insert_node_at_start s blockPtr
  else if s.next s.FreeListHead = 0 then
    append_to_freelist_end fuel s blockPtr
  else
    insertWalk fuel fuel s (s.next s.FreeListHead) blockPtr

/-- The traversal loop of `remove_freelist_node` (FreeList.c 250-271). -/
def removeWalk : Nat → Heap → Nat → Nat → Run Heap
  | 0, _, _, _ => throw Fault.outOfFuel
  | fuel + 1, s, currentNode, nodePtr =>
    if currentNode ≠ 0 then
      if currentNode = nodePtr then
        if s.next currentNode ≠ 0 then
          let previousNode := s.prev currentNode
          let currentNode := s.next currentNode
          if previousNode = 0 then throw Fault.nullDeref
          else
            let s := { s with next := set s.next previousNode currentNode }
            pure { s with prev := set s.prev currentNode previousNode }
        else
          let currentNode := s.prev currentNode
          if currentNode = 0 then throw Fault.nullDeref
          else pure { s with next := set s.next currentNode 0 }
      else removeWalk fuel s (s.next currentNode) nodePtr
    else pure s

/-- `remove_freelist_node` (FreeList.c 226-273). -/
def remove_freelist_node (fuel : Nat) (s : Heap) (nodePtr : Nat) : Run Heap :=
  let currentNode := s.FreeListHead
  if currentNode = 0 then throw Fault.nullDeref
  else if currentNode = nodePtr then
    if s.next currentNode ≠ 0 then
      let s := { s with FreeListHead := s.next s.FreeListHead }
      pure { s with prev := set s.prev s.FreeListHead 0 }
    else
      pure { s with FreeListHead := 0 }
  else
    removeWalk fuel s (s.next currentNode) nodePtr

/-- The loop `while (blocks[i] != NULL) { remove_freelist_node(blocks[i]); i++; }`
used by `calculate_decreases_in_program_break` and `find_best_fit_block`. -/
def removeBlocks : Nat → Nat → Heap → (Nat → Nat) → Nat → Run Heap
  | 0, _, _, _, _ => throw Fault.outOfFuel
  | fuel + 1, inner, s, blocks, i =>
    if ARRAY_CAP ≤ i then throw Fault.outOfBounds
    else if blocks i ≠ 0 then do
      let s ← remove_freelist_node inner s (blocks i)
      removeBlocks fuel inner s blocks (i + 1)
    else pure s

/-- Scan state of the contiguity loop of `calculate_decreases_in_program_break`. -/
structure RunScan where
  contiguous_block_count : Nat
  total_free_size : Nat
  contiguous_blocks : Nat → Nat

/-- The first loop of `calculate_decreases_in_program_break` (FreeList.c 28-55). -/
def contiguousScan : Nat → Heap → Nat → RunScan → Run RunScan
  | 0, _, _, _ => throw Fault.outOfFuel
  | fuel + 1, s, current_node, st =>
    if current_node ≠ 0 then
      if st.contiguous_block_count = 0 then
        contiguousScan fuel s (s.next current_node)
          { contiguous_block_count := (st.contiguous_block_count + 1) % 4294967296,
            total_free_size := padd st.total_free_size (s.length current_node),
            contiguous_blocks := set st.contiguous_blocks st.contiguous_block_count current_node }
      else if s.prev current_node = 0 then throw Fault.nullDeref
      else if current_node
          = padd (s.prev current_node) (padd (s.length (s.prev current_node)) NODE) then
        if ARRAY_CAP ≤ st.contiguous_block_count then throw Fault.outOfBounds
        else
          contiguousScan fuel s (s.next current_node)
            { contiguous_block_count := (st.contiguous_block_count + 1) % 4294967296,
              total_free_size := padd st.total_free_size (padd (s.length current_node) NODE),
              contiguous_blocks :=
                set st.contiguous_blocks st.contiguous_block_count current_node }
      else
        contiguousScan fuel s (s.next current_node)
          { contiguous_block_count := 1,
            total_free_size := padd 0 (s.length current_node),
            contiguous_blocks := set st.contiguous_blocks 0 current_node }
    else pure st

/-- The loop `while (remaining_size > 128 * 1024)` of
`calculate_decreases_in_program_break` (FreeList.c 73-77); `remaining_size`
is a `uint8_t`. -/
def extraDecreases : Nat → Nat → Nat → Run (Nat × Nat)
  | 0, _, _ => throw Fault.outOfFuel
  | fuel + 1, decrease_count, remaining_size =>
    if remaining_size > 128 * 1024 then
      extraDecreases fuel ((decrease_count + 1) % 4294967296)
        ((remaining_size + (256 - (128 * 1024) % 256)) % 256)
    else pure (decrease_count, remaining_size)

/-- `calculate_decreases_in_program_break` (FreeList.c 19-89).  Returns the
`uint8_t` result and the new state. -/
def calculate_decreases_in_program_break (fuel : Nat) (s : Heap) : Run (Nat × Heap) := do
  let st ← contiguousScan fuel s s.FreeListHead
    { contiguous_block_count := 0, total_free_size := 0, contiguous_blocks := fun _ => 0 }
  if st.total_free_size > 128 * 1024 then
    let decrease_count := 1
    if ARRAY_CAP ≤ st.contiguous_block_count then throw Fault.outOfBounds
    else
      let contiguous_blocks := set st.contiguous_blocks st.contiguous_block_count 0
      let s ← removeBlocks fuel fuel s contiguous_blocks 0
      let remaining_size := (psub st.total_free_size (128 * 1024)) % 256
      let r ← extraDecreases fuel decrease_count remaining_size
      let decrease_count := r.1
      let remaining_size := r.2
      if remaining_size > NODE then
        let new_node := contiguous_blocks 0
        if new_node = 0 then throw Fault.nullDeref
        else
          let s := { s with length := set s.length new_node remaining_size }
          let s ← insert_block_into_freelist fuel s (padd new_node NODE)
          pure (decrease_count % 256, s)
      else pure (decrease_count % 256, s)
  else pure (0, s)

/-- Result of the single-block search of `find_best_fit_block`. -/
structure BestFit where
  foundMinBlock : Nat
  minBlockSize : Nat
  bestFitBlock : Nat

/-- The first loop of `find_best_fit_block` (FreeList.c 305-320). -/
def bestFitScan : Nat → Heap → Nat → Nat → BestFit → Run BestFit
  | 0, _, _, _, _ => throw Fault.outOfFuel
  | fuel + 1, s, requestedSize, currentNode, st =>
    if currentNode ≠ 0 then
      if s.length currentNode ≥ requestedSize ∧ st.foundMinBlock = 0 then
        bestFitScan fuel s requestedSize (s.next currentNode)
          { foundMinBlock := 1, minBlockSize := s.length currentNode,
            bestFitBlock := currentNode }
      else if st.foundMinBlock = 1 ∧ s.length currentNode < st.minBlockSize
          ∧ s.length currentNode ≥ requestedSize then
        bestFitScan fuel s requestedSize (s.next currentNode)
          { st with minBlockSize := s.length currentNode, bestFitBlock := currentNode }
      else bestFitScan fuel s requestedSize (s.next currentNode) st
    else pure st

/-- Scan state of the fragment loop of `find_best_fit_block`. -/
structure FragScan where
  fragmentCount : Nat
  currentFreeSize : Nat
  minFragmentSize : Nat
  fragmentedBlocks : Nat → Nat
  bestFragmentedBlocks : Nat → Nat

/-- The part of one iteration of the fragment loop that extends or restarts
the current run (FreeList.c 329-350); `fragmentCount` is a `uint8_t`. -/
def fragmentExtend (s : Heap) (currentNode : Nat) (st : FragScan) : Run FragScan :=
  if st.fragmentCount = 0 then
    pure { st with
      currentFreeSize := padd st.currentFreeSize (s.length currentNode),
      fragmentedBlocks := set st.fragmentedBlocks st.fragmentCount currentNode,
      fragmentCount := (st.fragmentCount + 1) % 256 }
  else if s.prev currentNode = 0 then throw Fault.nullDeref
  else if currentNode
      = padd (s.prev currentNode) (padd (s.length (s.prev currentNode)) NODE) then
    pure { st with
      currentFreeSize := padd st.currentFreeSize (padd (s.length currentNode) NODE),
      fragmentedBlocks := set st.fragmentedBlocks st.fragmentCount currentNode,
      fragmentCount := (st.fragmentCount + 1) % 256 }
  else
    pure { st with
      currentFreeSize := padd 0 (s.length currentNode),
      fragmentedBlocks := set st.fragmentedBlocks 0 currentNode,
      fragmentCount := 1 }

/-- The second loop of `find_best_fit_block` (FreeList.c 325-374). -/
def fragmentScan : Nat → Heap → Nat → Nat → FragScan → Run FragScan
  | 0, _, _, _, _ => throw Fault.outOfFuel
  | fuel + 1, s, requestedSize, currentNode, st =>
    if currentNode ≠ 0 then do
      let st ← fragmentExtend s currentNode st
      if st.currentFreeSize ≥ requestedSize ∧ st.fragmentCount > 1
          ∧ st.minFragmentSize = 0 then
        fragmentScan fuel s requestedSize currentNode
          { st with minFragmentSize := st.currentFreeSize,
                    bestFragmentedBlocks := st.fragmentedBlocks,
                    fragmentCount := 0, currentFreeSize := 0 }
      else if st.currentFreeSize ≥ requestedSize
          ∧ st.currentFreeSize < st.minFragmentSize ∧ st.fragmentCount > 1 then
        fragmentScan fuel s requestedSize currentNode
          { st with minFragmentSize := st.currentFreeSize,
                    bestFragmentedBlocks := st.fragmentedBlocks,
                    fragmentCount := 0, currentFreeSize := 0 }
      else fragmentScan fuel s requestedSize (s.next currentNode) st
    else pure st

/-- The fragment branches of the selection step of `find_best_fit_block`
(FreeList.c 384-398 and 417-431): take the recorded run. -/
def takeFragments (fuel : Nat) (s : Heap) (requestedSize : Nat) (fs : FragScan) :
    Run (Nat × Heap) :=
  let allocatedBlock := fs.bestFragmentedBlocks 0
  if allocatedBlock = 0 then throw Fault.nullDeref
  else do
    let s := { s with length := set s.length allocatedBlock requestedSize }
    let s ← removeBlocks fuel fuel s fs.bestFragmentedBlocks 0
    let remainingSize := psub fs.minFragmentSize requestedSize
    if remainingSize > NODE then
      let newNode := padd (padd allocatedBlock requestedSize) NODE
      let s := { s with length := set s.length newNode (psub remainingSize NODE) }
      let s ← insert_block_into_freelist fuel s (padd newNode NODE)
      pure (allocatedBlock, s)
    else pure (allocatedBlock, s)

/-- The single-block branches of the selection step of `find_best_fit_block`
(FreeList.c 402-411 and 436-445): take the best-fit block. -/
def takeBestFit (fuel : Nat) (s : Heap) (requestedSize : Nat) (bf : BestFit) :
    Run (Nat × Heap) :=
  let allocatedBlock := bf.bestFitBlock
  do
    let s ← remove_freelist_node fuel s allocatedBlock
    let remainingSize := psub (s.length bf.bestFitBlock) requestedSize
    if remainingSize > NODE then
      let s := { s with length := set s.length allocatedBlock requestedSize }
      let newNode := padd (padd allocatedBlock requestedSize) NODE
      let s := { s with length := set s.length newNode (psub remainingSize NODE) }
      let s ← insert_block_into_freelist fuel s (padd newNode NODE)
      pure (allocatedBlock, s)
    else pure (allocatedBlock, s)

/-- `find_best_fit_block` (FreeList.c 285-449).  Returns the payload pointer
(`allocatedBlock + 24`, i.e. `24` when nothing was found) and the new state. -/
def find_best_fit_block (fuel : Nat) (s : Heap) (requestedSize : Nat) : Run (Nat × Heap) := do
  let bf ← bestFitScan fuel s requestedSize s.FreeListHead
    { foundMinBlock := 0, minBlockSize := 0, bestFitBlock := 0 }
  let fs ← fragmentScan fuel s requestedSize s.FreeListHead
    { fragmentCount := 0, currentFreeSize := 0, minFragmentSize := 0,
      fragmentedBlocks := fun _ => 0, bestFragmentedBlocks := fun _ => 0 }
  let r ←
    if fs.minFragmentSize ≠ 0 ∧ bf.foundMinBlock = 1 then
      if fs.minFragmentSize < bf.minBlockSize then takeFragments fuel s requestedSize fs
      else takeBestFit fuel s requestedSize bf
    else if fs.minFragmentSize ≠ 0 then takeFragments fuel s requestedSize fs
    else if bf.foundMinBlock = 1 then takeBestFit fuel s requestedSize bf
    else pure (0, s)
  pure (padd r.1 NODE, r.2)

/-! ## heap.c -/

/-- Bitwise complement of a 64-bit value (`~x`). -/
def not64 (x : Nat) : Nat := 18446744073709551615 - x % 18446744073709551616

/-- The OS primitive `sbrk`.  The argument is the 64-bit pattern of the
`intptr_t` increment.  Returns the previous break, or `none` for
`(void *) -1`. -/
def sbrk (s : Heap) (increment : Nat) : Option (Nat × Heap) :=
  if increment = 0 then some (s.osBreak, s)
  else if increment < 9223372036854775808 then
    if s.osBreak + increment ≤ s.osLimit then
      some (s.osBreak, { s with osBreak := s.osBreak + increment })
    else none
  else if s.osFloor + (18446744073709551616 - increment) ≤ s.osBreak then
    some (s.osBreak, { s with osBreak := s.osBreak - (18446744073709551616 - increment) })
  else none

/-- `increase_program_break` (heap.c 397-409): the new break, or `0` (NULL). -/
def increase_program_break (s : Heap) (increment : Nat) : Nat × Heap :=
  match sbrk s increment with
  | none => (0, s)
  | some r =>
    match sbrk r.2 0 with
    | none => (18446744073709551615, r.2)
    | some r2 => (r2.1, r2.2)

/-- `decrease_program_break` (heap.c 420-432): the new break, or `0` (NULL). -/
def decrease_program_break (s : Heap) (decrement : Nat) : Nat × Heap :=
  match sbrk s (psub 0 decrement) with
  | none => (0, s)
  | some r =>
    match sbrk r.2 0 with
    | none => (18446744073709551615, r.2)
    | some r2 => (r2.1, r2.2)

/-- `memcpy` on payload bytes. -/
def memcpy (s : Heap) (dest src n : Nat) : Run Heap :=
  if (dest = 0 ∨ src = 0) ∧ n ≠ 0 then throw Fault.nullDeref
  else pure { s with payload := fun x =>
    if dest ≤ x ∧ x < dest + n then s.payload (src + (x - dest)) else s.payload x }

/-- `memset` on payload bytes. -/
def memset (s : Heap) (dest c n : Nat) : Run Heap :=
  if dest = 0 ∧ n ≠ 0 then throw Fault.nullDeref
  else pure { s with payload := fun x =>
    if dest ≤ x ∧ x < dest + n then c % 256 else s.payload x }

/-- The two statements that register a freshly grown region as a free node
(heap.c 125-126, 143-144, 167-168, 287-288, 304-305, 334-335, 348-349). -/
def registerRegion (fuel : Nat) (s : Heap) (previousProgramBreak : Nat) : Run Heap :=
  if previousProgramBreak = 0 then throw Fault.nullDeref
  else
    let grown := psub (psub s.programBreak previousProgramBreak) 24
    let s := { s with length := set s.length previousProgramBreak grown }
    insert_block_into_freelist fuel s (padd previousProgramBreak 24)

/-- The loop `while ((allocatedAddress - 24) == NULL)` that grows the segment
and retries (heap.c 130-147, 154-171, 292-308, 337-352).  `inner` is the
budget handed to the calls made by the loop body. -/
def growAndRetry : Nat → Nat → Heap → Nat → Nat → Run (Nat × Heap)
  | 0, _, _, _, _ => throw Fault.outOfFuel
  | fuel + 1, inner, s, allocatedAddress, requestedSize =>
    if psub allocatedAddress 24 = 0 then
      let previousProgramBreak := s.programBreak
      let r := increase_program_break s PAGE_SIZE
      let s : Heap := { r.2 with programBreak := r.1 }
      if s.programBreak = 0 then
        growAndRetry fuel inner { s with programBreak := previousProgramBreak } 0
          requestedSize
      else do
        let s ← registerRegion inner s previousProgramBreak
        let r ← find_best_fit_block inner s requestedSize
        growAndRetry fuel inner r.2 r.1 requestedSize
    else pure (allocatedAddress, s)

/-- `HmmAlloc` (heap.c 87-175).  `stale` is the indeterminate value of the
uninitialised local `initialProgramBreak` on every call but the first. -/
def HmmAlloc (fuel : Nat) (stale : Nat) (s : Heap) (requestedSize : Nat) : Run (Nat × Heap) :=
  let r0 : Nat × Heap :=
    if s.initializationFlag = 0 then
      let r := increase_program_break s 0
      (r.1, { r.2 with programBreak := r.1,
                       initializationFlag := (s.initializationFlag + 1) % 256 })
    else (stale, s)
  let initialProgramBreak := r0.1
  let s := r0.2
  let requestedSize := if requestedSize < 24 then 24 else requestedSize
  let requestedSize :=
    Nat.land (psub (padd requestedSize word_size) 1) (not64 (psub word_size 1))
  if s.programBreak = initialProgramBreak then
    let previousProgramBreak := s.programBreak
    let r := increase_program_break s PAGE_SIZE
    let s : Heap := { r.2 with programBreak := r.1 }
    if s.programBreak = 0 then
      pure (0, { s with programBreak := previousProgramBreak })
    else do
      let s ← registerRegion fuel s previousProgramBreak
      let r ← find_best_fit_block fuel s requestedSize
      growAndRetry fuel fuel r.2 r.1 requestedSize
  else do
    let r ← find_best_fit_block fuel s requestedSize
    growAndRetry fuel fuel r.2 r.1 requestedSize

/-- `HmmFree` (heap.c 187-209). -/
def HmmFree (fuel : Nat) (s : Heap) (blockPtr : Nat) : Run Heap := do
  let s ← insert_block_into_freelist fuel s blockPtr
  let r ← calculate_decreases_in_program_break fuel s
  let reductionCount := r.1
  let s := r.2
  let d : Nat × Heap :=
    if reductionCount > 0 then
      decrease_program_break s ((reductionCount * FREE_SIZE) % 4294967296)
    else (0, s)
  let newProgramBreak := d.1
  let s := d.2
  if newProgramBreak ≠ 0 then pure { s with programBreak := newProgramBreak }
  else pure s

/-- `malloc` (heap.c 25-28). -/
def malloc (fuel : Nat) (stale : Nat) (s : Heap) (size : Nat) : Run (Nat × Heap) :=
  HmmAlloc fuel stale s size

/-- `free` (heap.c 36-42). -/
def free (fuel : Nat) (s : Heap) (ptr : Nat) : Run Heap :=
  if ptr ≠ 0 then HmmFree fuel s ptr else pure s

/-- `HmmCalloc` (heap.c 221-236). -/
def HmmCalloc (fuel : Nat) (stale : Nat) (s : Heap) (nmemb size : Nat) : Run (Nat × Heap) := do
  let total_size := u64 (nmemb * size)
  let r ← HmmAlloc fuel stale s total_size
  if r.1 ≠ 0 then
    let s ← memset r.2 r.1 0 total_size
    pure (r.1, s)
  else pure (r.1, r.2)

/-- The tail shared by the two relocating branches of `HmmRealloc`
(heap.c 276-312 and 324-355): grow once, retry, copy, free the old block. -/
def relocate (fuel : Nat) (s : Heap) (originalPtr newSize currentBlockSize : Nat) :
    Run (Nat × Heap) :=
  let previousProgramBreak := s.programBreak
  let r := increase_program_break s PAGE_SIZE
  let s : Heap := { r.2 with programBreak := r.1 }
  if s.programBreak = 0 then
    pure (0, { s with programBreak := previousProgramBreak })
  else do
    let s ← registerRegion fuel s previousProgramBreak
    let r ← find_best_fit_block fuel s newSize
    let r ← growAndRetry fuel fuel r.2 r.1 newSize
    let s ← memcpy r.2 r.1 originalPtr currentBlockSize
    let s ← HmmFree fuel s originalPtr
    pure (r.1, s)

/-- `HmmRealloc` (heap.c 249-386). -/
def HmmRealloc (fuel : Nat) (stale : Nat) (s : Heap) (originalPtr newSize : Nat) :
    Run (Nat × Heap) :=
  if newSize = 0 then malloc fuel stale s 24
  else if psub originalPtr 24 = 0 then throw Fault.nullDeref
  else
    let currentBlockSize := s.length (psub originalPtr 24)
    if newSize > currentBlockSize then do
      let r ← find_best_fit_block fuel s (psub newSize currentBlockSize)
      let newBlockPtr := r.1
      let s := r.2
      if psub newBlockPtr 24 = 0 then
        relocate fuel s originalPtr newSize currentBlockSize
      else if padd (padd originalPtr 24) currentBlockSize = newBlockPtr then
        pure (originalPtr,
          { s with length := set s.length (psub originalPtr 24) (padd newSize 24) })
      else do
        let s ← HmmFree fuel s newBlockPtr
        relocate fuel s originalPtr newSize currentBlockSize
    else
      let newSize := if newSize < 24 then 24 else newSize
      let newSize := Nat.land (psub (padd newSize word_size) 1) (not64 (psub word_size 1))
      let freeSpaceSize := psub currentBlockSize newSize
      if freeSpaceSize ≤ 24 then pure (originalPtr, s)
      else do
        let freeSpaceSize :=
          Nat.land (psub (padd freeSpaceSize word_size) 1) (not64 (psub word_size 1))
        let s := { s with length := set s.length (psub originalPtr 24) newSize }
        let tail := padd originalPtr newSize
        let s := { s with length := set s.length tail (psub freeSpaceSize 24) }
        let s ← HmmFree fuel s (padd (padd originalPtr newSize) 24)
        pure (originalPtr, s)

/-- `realloc` (heap.c 65-75). -/
def realloc (fuel : Nat) (stale : Nat) (s : Heap) (ptr size : Nat) : Run (Nat × Heap) :=
  if ptr = 0 then malloc fuel stale s size
  else HmmRealloc fuel stale s ptr size

/-! ## Specification vocabulary -/

/-- Doubly linked segment: starting at address `a`, whose predecessor is `p`,
the `next` pointers visit exactly the nodes `xs` and then reach `b`; every
node is non-null and its `prev` field names the node before it. -/
def Seg (s : Heap) : Nat → Nat → List Nat → Nat → Prop
  | _, a, [], b => a = b
  | p, a, x :: xs, b => a = x ∧ x ≠ 0 ∧ s.prev x = p ∧ Seg s x (s.next x) xs b

/-- The free list of `s` is the well-formed doubly linked list of the header
addresses `ns`, in list order. -/
def DLL (s : Heap) (ns : List Nat) : Prop :=
  Seg s 0 s.FreeListHead ns 0 ∧ ns.Nodup

/-- Strictly ascending header addresses. -/
def Ascending (ns : List Nat) : Prop := ns.Pairwise (fun a b => a < b)

/-- Combined span of a run of free nodes: the sum of the lengths plus 24 for
every node after the first. -/
def span (s : Heap) : List Nat → Nat
  | [] => 0
  | a :: rest => s.length a + (rest.map (fun x => s.length x + 24)).sum

/-- One step of the left-to-right reading of physically contiguous runs: the
node `c` extends the run when it starts exactly where the last node of the
run ends (`c = l + 24 + l.length`), and starts a new run otherwise. -/
def runStep (s : Heap) (run : List Nat) (c : Nat) : List Nat :=
  match run.getLast? with
  | some l => if c = l + 24 + s.length l then run ++ [c] else [c]
  | none => [c]

/-- The last physically contiguous run of the free list `ns`. -/
def lastRun (s : Heap) (ns : List Nat) : List Nat := ns.foldl (runStep s) []

/-- Rounding up to a multiple of 8. -/
def roundUp8 (n : Nat) : Nat := (n + 7) / 8 * 8

/-- What a run returned: the pointer and the length stored in the header 24
bytes before it. -/
def Run.header (r : Run (Nat × Heap)) : Option (Nat × Nat) :=
  match r with
  | Except.ok q => some (q.1, q.2.length (psub q.1 24))
  | Except.error _ => none

/-- The free list of a state, read off by following `next` from the head, as
`(header address, length)` pairs. -/
def freeListOf : Nat → Heap → Nat → List (Nat × Nat)
  | 0, _, _ => []
  | fuel + 1, s, a => if a = 0 then [] else (a, s.length a) :: freeListOf fuel s (s.next a)

/-- Observable summary of a state: program break, OS break and free list. -/
def Heap.view (s : Heap) : Nat × Nat × List (Nat × Nat) :=
  (s.programBreak, s.osBreak, freeListOf 64 s s.FreeListHead)

/-- Observable summary of a run that returns a state. -/
def Run.view (r : Run Heap) : Option (Nat × Nat × List (Nat × Nat)) :=
  match r with
  | Except.ok s => some s.view
  | Except.error _ => none

/-- A small hand-built state: two free nodes, at 4096 (length 100) and at
8192 (length 200), inside a heap whose break is at 208896. -/
def demoHeap : Heap :=
  { FreeListHead := 4096,
    length := fun a => if a = 4096 then 100 else if a = 8192 then 200 else 0,
    prev := fun a => if a = 8192 then 4096 else 0,
    next := fun a => if a = 4096 then 8192 else 0,
    payload := fun _ => 0, programBreak := 208896, initializationFlag := 1,
    osBreak := 208896, osFloor := 4096, osLimit := 100000000 }

/-- The state `t` differs from `s` at most in the head and the link fields of
the free list. -/
def LinksOnly (s t : Heap) : Prop :=
  t.length = s.length ∧ t.payload = s.payload ∧ t.programBreak = s.programBreak ∧
  t.initializationFlag = s.initializationFlag ∧ t.osBreak = s.osBreak ∧
  t.osFloor = s.osFloor ∧ t.osLimit = s.osLimit

/-- A run is physically contiguous: every node starts where the one before
it ends. -/
def Contig (s : Heap) (run : List Nat) : Prop :=
  run.Chain' (fun a b => b = a + 24 + s.length a)

/-- Every block of `ns` ends below `2^64`. -/
def Bounded (s : Heap) (ns : List Nat) : Prop :=
  ∀ x ∈ ns, x + 24 + s.length x < 18446744073709551616

/-- State of the contiguity scan of `calculate_decreases_in_program_break`
after it has read the nodes `vis`: the array holds the current run, the
counter its number of nodes and the accumulator its span. -/
def ScanInv (s : Heap) (vis : List Nat) (st : RunScan) : Prop :=
  (List.range st.contiguous_block_count).map st.contiguous_blocks = lastRun s vis ∧
  st.total_free_size = span s (lastRun s vis)

/-- The state `t` agrees with `s` on everything but the free list and the
block headers. -/
def Frame (s t : Heap) : Prop :=
  t.payload = s.payload ∧ t.programBreak = s.programBreak ∧
  t.initializationFlag = s.initializationFlag ∧ t.osBreak = s.osBreak ∧
  t.osFloor = s.osFloor ∧ t.osLimit = s.osLimit

/-- A fresh process whose break is at 4096 and whose OS limit is far away. -/
def startHeap : Heap := Heap.fresh 4096 100000000

/-- Projection of a run onto a list of observed numbers. -/
def Run.observe {α : Type} (r : Run α) (f : α → List Nat) : Option (List Nat) :=
  match r with
  | Except.ok x => some (f x)
  | Except.error _ => none

/-- A hand-built state with a single free node, at 4096, that covers the
whole first page: length 204776, break at 208896. -/
def pageHeap : Heap :=
  { FreeListHead := 4096,
    length := fun a => if a = 4096 then 204776 else 0,
    prev := fun _ => 0, next := fun _ => 0,
    payload := fun _ => 0, programBreak := 208896, initializationFlag := 1,
    osBreak := 208896, osFloor := 4096, osLimit := 100000000 }

/-- Scenario: `a = HmmAlloc(131072)`, `b = HmmAlloc(73680)` (which consumes the
rest of the page), then the first step of `HmmFree(a)`: `a` is put on the
free list.  Yields the state, the result of the reclaim calculation on it
and the state after that. -/
def exactChunkScenario : Run (Heap × Nat × Heap) := do
  let a ← HmmAlloc 100 0 startHeap 131072
  let b ← HmmAlloc 100 0 a.2 73680
  let s ← insert_block_into_freelist 100 b.2 a.1
  let r ← calculate_decreases_in_program_break 100 s
  pure (s, r.1, r.2)

/-- Scenario: `a = HmmAlloc(24)`, `b = HmmAlloc(48)`, `c = HmmAlloc(24)`,
`HmmFree(b)`, then `HmmAlloc(40)`.  Yields the state before the last call,
the pointer it returns and the state after it. -/
def wholeBlockScenario : Run (Heap × Nat × Heap) := do
  let a ← HmmAlloc 100 0 startHeap 24
  let b ← HmmAlloc 100 0 a.2 48
  let c ← HmmAlloc 100 0 b.2 24
  let s ← HmmFree 100 c.2 b.1
  let r ← HmmAlloc 100 0 s 40
  pure (s, r.1, r.2)

/-- Scenario: `a = HmmAlloc(140000)`, `b = HmmAlloc(64752)` (which consumes
the rest of the page), then `HmmFree(a)`.  Yields `a`, `b`, the state before
the free and the state after it. -/
def reclaimScenario : Run (Nat × Nat × Heap × Heap) := do
  let a ← HmmAlloc 100 0 startHeap 140000
  let b ← HmmAlloc 100 0 a.2 64752
  let t ← HmmFree 100 b.2 a.1
  pure (a.1, b.1, b.2, t)

/-- Scenario: `a = HmmAlloc(140000)`, `b = HmmAlloc(64752)`, `HmmFree(a)`,
`c = HmmAlloc(1000)`.  Yields `b`, `c` and the final state. -/
def overlapScenario : Run (Nat × Nat × Heap) := do
  let a ← HmmAlloc 100 0 startHeap 140000
  let b ← HmmAlloc 100 0 a.2 64752
  let s ← HmmFree 100 b.2 a.1
  let c ← HmmAlloc 100 0 s 1000
  pure (b.1, c.1, c.2)

/-- Scenario S4 of the specification: `p = HmmAlloc(40)`, then what
`find_best_fit_block(80 - 40)` returns in that state, and
`HmmRealloc(p, 80)`. -/
def growInPlaceScenario : Run ((Nat × Heap) × (Nat × Heap) × (Nat × Heap)) := do
  let a ← HmmAlloc 100 0 startHeap 40
  let f ← find_best_fit_block 100 a.2 (80 - 40)
  let r ← HmmRealloc 100 0 a.2 a.1 80
  pure (a, f, r)

/-- A fresh process whose OS limit leaves room for two 200 KiB grows and
not for a third. -/
def limitedHeap : Heap := Heap.fresh 4096 (4096 + 2 * 204800 + 1)

/-- Scenario: in `limitedHeap`, `HmmAlloc(100)` and then `HmmAlloc(500000)`,
which needs three pages.  Yields the state before the second call, the
pointer it returns and the state after it. -/
def partialGrowScenario : Run (Heap × Nat × Heap) := do
  let a ← HmmAlloc 100 0 limitedHeap 100
  let r ← HmmAlloc 100 0 a.2 500000
  pure (a.2, r.1, r.2)

/-- A small hand-built state with a live block whose header is at 4096
(length 1000, payload pointer 4120) and one free node at 8192 (length 200). -/
def liveHeap : Heap :=
  { FreeListHead := 8192,
    length := fun a => if a = 4096 then 1000 else if a = 8192 then 200 else 0,
    prev := fun _ => 0, next := fun _ => 0,
    payload := fun _ => 0, programBreak := 208896, initializationFlag := 1,
    osBreak := 208896, osFloor := 4096, osLimit := 100000000 }

/-- State of the single-block search after it has read the nodes `vis`:
nothing is recorded exactly when no node is large enough; otherwise the
recorded block is the first node of minimal length among the nodes that are
large enough. -/
def BestInv (s : Heap) (req : Nat) (vis : List Nat) (st : BestFit) : Prop :=
  (st.foundMinBlock = 0 ∨ st.foundMinBlock = 1) ∧
  (st.foundMinBlock = 0 → ∀ x ∈ vis, s.length x < req) ∧
  (st.foundMinBlock = 1 → s.length st.bestFitBlock = st.minBlockSize ∧
    req ≤ st.minBlockSize ∧
    ∃ pre post, vis = pre ++ st.bestFitBlock :: post ∧
      (∀ x ∈ pre, req ≤ s.length x → st.minBlockSize < s.length x) ∧
      (∀ x ∈ post, req ≤ s.length x → st.minBlockSize ≤ s.length x))

/-- What the fragment search has recorded: when `m ≠ 0`, the array `best`
starts with a physically contiguous run `R` of at least two consecutive nodes
of the free list `ns`, of span `m ≥ req`; what follows `R` in the array are
nodes of the list (left over from earlier runs) or `NULL`. -/
def Recorded (s : Heap) (req : Nat) (ns : List Nat) (m : Nat) (best : Nat → Nat) : Prop :=
  m ≠ 0 → ∃ pre R post, ns = pre ++ R ++ post ∧ 2 ≤ R.length ∧
    (List.range R.length).map best = R ∧ Contig s R ∧ span s R = m ∧ req ≤ m ∧
    (∀ j, ns.length < j → best j = 0) ∧ (∀ j, best j ≠ 0 → best j ∈ ns) ∧
    (∀ j, 1 ≤ j → ∀ h, ns.head? = some h → best j ≠ h) ∧
    (pre = [] → ∀ j, R.length ≤ j → best j = 0)

/-- State of the fragment search of `find_best_fit_block` after it has read
the nodes `vis` of the list `ns`. -/
def FragInv (s : Heap) (req : Nat) (ns vis : List Nat) (st : FragScan) : Prop :=
  (List.range st.fragmentCount).map st.fragmentedBlocks <:+ vis ∧
  Contig s ((List.range st.fragmentCount).map st.fragmentedBlocks) ∧
  st.currentFreeSize = span s ((List.range st.fragmentCount).map st.fragmentedBlocks) ∧
  (∀ j, vis.length < j → st.fragmentedBlocks j = 0) ∧
  (∀ j, st.fragmentedBlocks j ≠ 0 → st.fragmentedBlocks j ∈ ns) ∧
  (∀ j, 1 ≤ j → ∀ h, ns.head? = some h → st.fragmentedBlocks j ≠ h) ∧
  (st.fragmentCount = vis.length → ∀ j, st.fragmentCount ≤ j → st.fragmentedBlocks j = 0) ∧
  Recorded s req ns st.minFragmentSize st.bestFragmentedBlocks

/-- Context of one step of the fragment search: the list is `vis ++ cur :: rest`. -/
structure FragCtx (s : Heap) (ns vis : List Nat) (cur : Nat) (rest : List Nat) : Prop where
  split : ns = vis ++ cur :: rest
  nodup : ns.Nodup
  bounded : Bounded s ns
  nonzero : ∀ x ∈ ns, x ≠ 0
  short : ns.length ≤ 255
  prev : s.prev cur = vis.getLastD 0

/-- State in which the search goes on after it has recorded the run held by
`st1` and re-read the node `cur` as the start of a new run. -/
def restarted (s : Heap) (cur : Nat) (st1 : FragScan) : FragScan :=
  { fragmentCount := 1, currentFreeSize := padd 0 (s.length cur),
    minFragmentSize := st1.currentFreeSize,
    fragmentedBlocks := set st1.fragmentedBlocks 0 cur,
    bestFragmentedBlocks := st1.fragmentedBlocks }

/-- Well-formedness of the free list as `find_best_fit_block` needs it: a
doubly linked list of pairwise non-overlapping blocks in ascending address
order, all below `2^64`, of at most 255 nodes (the capacity of the 8-bit
fragment counter). -/
structure ListOK (s : Heap) (ns : List Nat) : Prop where
  dll : DLL s ns
  sep : ns.Pairwise (fun a b => a + 24 + s.length a ≤ b)
  bounded : Bounded s ns
  short : ns.length ≤ 255

/-- What the fragment search knows while it has recorded nothing: the array
holds the last physically contiguous run of the nodes read so far, and no run
of at least two consecutive nodes read so far has a span that reaches the
request. -/
def NoRun (s : Heap) (req : Nat) (vis : List Nat) (st : FragScan) : Prop :=
  st.minFragmentSize = 0 →
    (List.range st.fragmentCount).map st.fragmentedBlocks = lastRun s vis ∧
    ∀ pre R post, vis = pre ++ R ++ post → 2 ≤ R.length → Contig s R → span s R < req

/-- Outcome of `find_best_fit_block` when it takes `req` bytes out of the
single free node `b` of the list `ns`: the node leaves the list; when more
than 24 bytes are left over, the header of `b` is set to `req` and a
remainder node is inserted right after the `req` bytes; otherwise no header
is written. -/
def SingleTaken (s t : Heap) (ns : List Nat) (b req : Nat) : Prop :=
  Frame s t ∧ b ∈ ns ∧ req ≤ s.length b ∧
  (24 < s.length b - req →
    b + req + 24 ∉ ns ∧
    DLL t ((ns.erase b).orderedInsert (fun x y => x ≤ y) (b + req + 24)) ∧
    t.length = set (set s.length b req) (b + req + 24) (s.length b - req - 24)) ∧
  (s.length b - req ≤ 24 → DLL t (ns.erase b) ∧ t.length = s.length)

/-- Outcome of `find_best_fit_block` when it takes `req` bytes out of the
recorded run, of span `m` and first node `b`: the nodes of the run leave the
list, `ms` being what stays of `ns`; the header of `b` is set to `req`; when
more than 24 bytes are left over, a remainder node is inserted right after
the `req` bytes. -/
def RunTaken (s t : Heap) (ns : List Nat) (b req m : Nat) : Prop :=
  ∃ ms pre R post, ns = pre ++ R ++ post ∧ 2 ≤ R.length ∧ R.head? = some b ∧
    Contig s R ∧ span s R = m ∧ req ≤ m ∧ ms.Sublist ns ∧ (∀ x ∈ R, x ∉ ms) ∧ Frame s t ∧
    (24 < m - req →
      b + req + 24 ∉ ms ∧
      DLL t (ms.orderedInsert (fun x y => x ≤ y) (b + req + 24)) ∧
      t.length = set (set s.length b req) (b + req + 24) (m - req - 24)) ∧
    (m - req ≤ 24 → DLL t ms ∧ t.length = set s.length b req)

/-- Deciding `Seg` on a given list of nodes. -/
def Seg.decidable (s : Heap) : ∀ (xs : List Nat) (p a b : Nat), Decidable (Seg s p a xs b)
  | [], _, a, b => inferInstanceAs (Decidable (a = b))
  | x :: xs, p, a, b =>
    have := Seg.decidable s xs x (s.next x) b
    inferInstanceAs (Decidable (a = x ∧ x ≠ 0 ∧ s.prev x = p ∧ Seg s x (s.next x) xs b))

instance (s : Heap) (xs : List Nat) (p a b : Nat) : Decidable (Seg s p a xs b) :=
  Seg.decidable s xs p a b

instance (s : Heap) (ns : List Nat) : Decidable (DLL s ns) :=
  inferInstanceAs (Decidable (Seg s 0 s.FreeListHead ns 0 ∧ ns.Nodup))

/-- Deciding `Contig` on a given run. -/
def Contig.decidable (s : Heap) : ∀ (run : List Nat), Decidable (Contig s run)
  | [] => isTrue List.chain'_nil
  | [a] => isTrue (List.chain'_singleton a)
  | a :: b :: rest =>
    match Contig.decidable s (b :: rest) with
    | isTrue h =>
      if e : b = a + 24 + s.length a then isTrue (List.chain'_cons.2 ⟨e, h⟩)
      else isFalse (fun hc => e (List.chain'_cons.1 hc).1)
    | isFalse h => isFalse (fun hc => h (List.chain'_cons.1 hc).2)

instance (s : Heap) (run : List Nat) : Decidable (Contig s run) := Contig.decidable s run

instance (s : Heap) (ns : List Nat) : Decidable (Bounded s ns) :=
  inferInstanceAs (Decidable (∀ x ∈ ns, x + 24 + s.length x < 18446744073709551616))

/-- A hand-built state with three physically contiguous free nodes: 4096
(length 24), 4144 (length 24) and 4192 (length 104). -/
def runHeap : Heap :=
  { FreeListHead := 4096,
    length := fun a => if a = 4096 then 24 else if a = 4144 then 24
      else if a = 4192 then 104 else 0,
    prev := fun a => if a = 4144 then 4096 else if a = 4192 then 4144 else 0,
    next := fun a => if a = 4096 then 4144 else if a = 4144 then 4192 else 0,
    payload := fun _ => 0, programBreak := 208896, initializationFlag := 1,
    osBreak := 208896, osFloor := 4096, osLimit := 100000000 }

/-- A hand-built state whose free list is one physically contiguous run of
256 nodes of length 24: the headers `4096 + 48 * i` for `i < 256`. -/
def longHeap : Heap :=
  { FreeListHead := 4096,
    length := fun a => if 4096 ≤ a ∧ a < 16384 ∧ (a - 4096) % 48 = 0 then 24 else 0,
    prev := fun a => if 4096 < a ∧ a < 16384 ∧ (a - 4096) % 48 = 0 then a - 48 else 0,
    next := fun a => if 4096 ≤ a ∧ a < 16336 ∧ (a - 4096) % 48 = 0 then a + 48 else 0,
    payload := fun _ => 0, programBreak := 208896, initializationFlag := 1,
    osBreak := 208896, osFloor := 4096, osLimit := 100000000 }

/-- The header addresses of the free list of `longHeap`. -/
def longNodes : List Nat := (List.range 256).map (fun i => 4096 + 48 * i)

/-- A hand-built state with five free nodes: the physically contiguous 4096,
4144, 4192 (length 24 each) and, after a gap, the physically contiguous 8192,
8320 (length 104 each). -/
def staleHeap : Heap :=
  { FreeListHead := 4096,
    length := fun a => if a = 4096 then 24 else if a = 4144 then 24
      else if a = 4192 then 24 else if a = 8192 then 104 else if a = 8320 then 104 else 0,
    prev := fun a => if a = 4144 then 4096 else if a = 4192 then 4144
      else if a = 8192 then 4192 else if a = 8320 then 8192 else 0,
    next := fun a => if a = 4096 then 4144 else if a = 4144 then 4192
      else if a = 4192 then 8192 else if a = 8192 then 8320 else 0,
    payload := fun _ => 0, programBreak := 208896, initializationFlag := 1,
    osBreak := 208896, osFloor := 4096, osLimit := 100000000 }

/-- Scenario: `a = HmmAlloc(140000)`, `b = HmmAlloc(64752)`, `HmmFree(a)`,
`HmmFree(b)`.  Yields `b`, the state before the last call and the final
state. -/
def strandedScenario : Run (Nat × Heap × Heap) := do
  let a ← HmmAlloc 100 0 startHeap 140000
  let b ← HmmAlloc 100 0 a.2 64752
  let s ← HmmFree 100 b.2 a.1
  let t ← HmmFree 100 s b.1
  pure (b.1, s, t)

/-- Scenario: `p = HmmAlloc(40)`, then `HmmRealloc(p, 81)`.  Yields `p`, the
state after the allocation, and what the reallocation returns. -/
def unalignedScenario : Run (Nat × Heap × Nat × Heap) := do
  let a ← HmmAlloc 100 0 startHeap 40
  let r ← HmmRealloc 100 0 a.2 a.1 81
  pure (a.1, a.2, r.1, r.2)

/-- Scenario S5 of the specification: `p = HmmAlloc(1000)`, then
`HmmRealloc(p, 100)`.  Yields `p`, the state after the allocation, and what
the reallocation returns. -/
def shrinkScenario : Run (Nat × Heap × Nat × Heap) := do
  let a ← HmmAlloc 100 0 startHeap 1000
  let r ← HmmRealloc 100 0 a.2 a.1 100
  pure (a.1, a.2, r.1, r.2)

/-- Well-formed allocator state: the free list `ns` is well formed, every free
node ends at or below `programBreak`, which is the break of the OS, and the
OS limit is a 64-bit address. -/
structure HeapOK (s : Heap) (ns : List Nat) : Prop where
  list : ListOK s ns
  below : ∀ x ∈ ns, x + 24 + s.length x ≤ s.programBreak
  brk : s.osBreak = s.programBreak
  pos : 0 < s.programBreak
  lim : s.osLimit < 18446744073709551616

/-- The state right after a successful `increase_program_break(PAGE_SIZE)`
and the assignment of its result to `programBreak`. -/
def grown (s : Heap) : Heap :=
  { s with osBreak := s.osBreak + PAGE_SIZE, programBreak := s.osBreak + PAGE_SIZE }

/-- Number of bytes at the top of the heap that a run ending at the break
offers, counting the header of its first node: 0 when the last free node does
not end at `programBreak`. -/
def reach (s : Heap) (ns : List Nat) : Nat :=
  match ns.getLast? with
  | some l => if l + 24 + s.length l = s.programBreak then span s (lastRun s ns) + 24 else 0
  | none => 0

/-- The state of a fresh process right after the first call of `HmmAlloc` has
read the initial break. -/
def started (brk limit : Nat) : Heap :=
  { Heap.fresh brk limit with programBreak := brk, initializationFlag := 1 }

/-- The byte at `a` lies in no node of the free list `ns`. -/
def Outside (s : Heap) (ns : List Nat) (a : Nat) : Prop :=
  ∀ x ∈ ns, a < x ∨ x + 24 + s.length x ≤ a

/-- What `HmmAlloc` guarantees about the pointer `p` and the state `t` it
returns, `req` being the rounded request: the free list is well linked; the
headers outside the former free nodes and below the former break are neither
changed nor put on the list; a non-null result has a header of at least `req`
and at most `req + 24` bytes: with `own` the length the block had as a free
node (its length before the call when it was on the list, 204776 when it is a
page obtained by the call), the header holds `own` when
`req ≤ own ≤ req + 24` (the block is consumed whole and its header is not
written) and `req` otherwise; a null result means that the OS refused a grow, and the state
is the one before the call when it refused the first one. -/
def AllocPost (s : Heap) (ns : List Nat) (req p : Nat) (t : Heap) : Prop :=
  (∃ ms, DLL t ms ∧ ∀ a, a < s.programBreak → Outside s ns a → a ∉ ms) ∧
  (∀ a, a < s.programBreak → Outside s ns a → t.length a = s.length a) ∧
  (p ≠ 0 → 24 < p ∧ req ≤ t.length (p - 24) ∧ t.length (p - 24) ≤ req + 24 ∧
    (t.length (p - 24) ≠ req →
      (p - 24 ∈ ns ∧ t.length (p - 24) = s.length (p - 24)) ∨
      (s.programBreak ≤ p - 24 ∧ t.length (p - 24) = 204776)) ∧
    (p - 24 ∈ ns → t.length (p - 24) =
      if req ≤ s.length (p - 24) ∧ s.length (p - 24) ≤ req + 24 then s.length (p - 24)
      else req) ∧
    (p - 24 ∉ ns → s.programBreak ≤ p - 24 ∧ t.length (p - 24) =
      if req ≤ 204776 ∧ 204776 ≤ req + 24 then 204776 else req)) ∧
  (s.osLimit < s.osBreak + PAGE_SIZE → p = 0 → t = s) ∧
  (p = 0 → t.osLimit < t.osBreak + PAGE_SIZE)

/-- A hand-built state with a live block whose header is at 4096 (length 40,
payload pointer 4120) followed at once by the only free node, at 4160
(length 204712). -/
def followerHeap : Heap :=
  { FreeListHead := 4160,
    length := fun a => if a = 4096 then 40 else if a = 4160 then 204712 else 0,
    prev := fun _ => 0, next := fun _ => 0,
    payload := fun _ => 0, programBreak := 208896, initializationFlag := 1,
    osBreak := 208896, osFloor := 4096, osLimit := 100000000 }

/-- A hand-built state whose OS limit is the break itself, with one free
node, at 8192 (length 200). -/
def tightHeap : Heap :=
  { FreeListHead := 8192,
    length := fun a => if a = 8192 then 200 else 0,
    prev := fun _ => 0, next := fun _ => 0,
    payload := fun _ => 0, programBreak := 208896, initializationFlag := 1,
    osBreak := 208896, osFloor := 4096, osLimit := 208896 }

/-- Well-formed allocator state with free list `ns`: either the state of a
fresh process, whose allocator has not been called yet, or a state of the
initialised allocator that satisfies `HeapOK`. -/
def WellFormed (s : Heap) (ns : List Nat) : Prop :=
  (s.initializationFlag ≠ 0 ∧ HeapOK s ns) ∨
  ∃ brk limit, s = Heap.fresh brk limit ∧ ns = [] ∧ 0 < brk ∧ limit < 18446744073709551616

/-- The fault with which a run stopped, if it did. -/
def Run.fault {α : Type} (r : Run α) : Option Fault :=
  match r with
  | Except.ok _ => none
  | Except.error e => some e

/-- Scenario: in `limitedHeap`, `p = HmmAlloc(40)`, then the steps that
`HmmRealloc(p, 500000)` takes before it copies: the search for
`500000 - 40` bytes, the registration of the page obtained by the first grow,
and the search-and-grow loop for 500000 bytes.  Yields `p`, the state after
the allocation, what the first search returns, and what the loop returns. -/
def nullCopyScenario : Run (Nat × Heap × Nat × Nat × Heap) := do
  let a ← HmmAlloc 100 0 limitedHeap 40
  let f ← find_best_fit_block 100 a.2 (psub 500000 (a.2.length (psub a.1 24)))
  let s2 ← registerRegion 100 (grown f.2) f.2.programBreak
  let r ← find_best_fit_block 100 s2 500000
  let g ← growAndRetry 100 100 r.2 r.1 500000
  pure (a.1, a.2, f.1, g.1, g.2)

/-- A hand-built state whose free list is one physically contiguous run of
258 nodes of length 24: the headers `4096 + 48 * i` for `i < 258`; the last
node ends at 16480. -/
def wrapHeap : Heap :=
  { FreeListHead := 4096,
    length := fun a => if 4096 ≤ a ∧ a < 16480 ∧ (a - 4096) % 48 = 0 then 24 else 0,
    prev := fun a => if 4096 < a ∧ a < 16480 ∧ (a - 4096) % 48 = 0 then a - 48 else 0,
    next := fun a => if 4096 ≤ a ∧ a < 16432 ∧ (a - 4096) % 48 = 0 then a + 48 else 0,
    payload := fun _ => 0, programBreak := 208896, initializationFlag := 1,
    osBreak := 208896, osFloor := 4096, osLimit := 100000000 }

/-- The header addresses of the free list of `wrapHeap`. -/
def wrapNodes : List Nat := (List.range 258).map (fun i => 4096 + 48 * i)

/-- The node that the traversal loop of `insert_block_into_freelist` passes
to `insert_node_between` (FreeList.c 108-116), if the loop makes that call. -/
def insertWalkTarget : Nat → Heap → Nat → Nat → Option Nat
  | 0, _, _, _ => none
  | fuel + 1, s, currentNode, blockPtr =>
    if currentNode ≠ 0 then
      if psub blockPtr NODE < currentNode then some currentNode
      else insertWalkTarget fuel s (s.next currentNode) blockPtr
    else none

/-- The argument `currentNodePtr` of the call of `insert_node_between` made
by `insert_block_into_freelist` (FreeList.c 91-124), if that call is made. -/
def insertTarget (fuel : Nat) (s : Heap) (blockPtr : Nat) : Option Nat :=
  if s.FreeListHead = 0 ∨ psub blockPtr NODE < s.FreeListHead then none
  else if s.next s.FreeListHead = 0 then none
  else insertWalkTarget fuel s (s.next s.FreeListHead) blockPtr

/-- The run `R`, which follows `pre` in the list, starts a maximal physically
contiguous stretch: the node before it, if there is one, does not end where
the first node of `R` starts. -/
def LeftMaximal (s : Heap) (pre R : List Nat) : Prop :=
  ∀ l, pre.getLast? = some l → ¬ Contig s (l :: R)

/-- What the fragment search knows about the size it has recorded after it
has read the nodes `vis`: the recorded size is at most the span of every run
of at least two nodes read so far that reaches the request and starts a
maximal contiguous stretch; and the array holds the whole last contiguous run,
or else a size has been recorded that is at most the span of a leading part of
that run. -/
def LeastInv (s : Heap) (req : Nat) (vis : List Nat) (st : FragScan) : Prop :=
  (∀ pre R post, vis = pre ++ R ++ post → 2 ≤ R.length → Contig s R → req ≤ span s R →
      LeftMaximal s pre R → st.minFragmentSize ≠ 0 ∧ st.minFragmentSize ≤ span s R) ∧
  ((List.range st.fragmentCount).map st.fragmentedBlocks = lastRun s vis ∨
    (st.minFragmentSize ≠ 0 ∧ ∃ P, P <+: lastRun s vis ∧ st.minFragmentSize ≤ span s P))

theorem set_eq (f : Nat → Nat) (a v : Nat) : set f a v a = v := by simp [set]

theorem set_ne (f : Nat → Nat) {a x : Nat} (v : Nat) (h : x ≠ a) : set f a v x = f x := by
  simp [set, h]

theorem set_self (f : Nat → Nat) (a : Nat) : set f a (f a) = f := by
  funext x; by_cases h : x = a <;> simp [set, h]

/-- A segment only depends on the link fields of its own nodes. -/
theorem Seg.frame {s t : Heap} : ∀ {xs : List Nat} {p a b : Nat}, Seg s p a xs b →
    (∀ x ∈ xs, t.prev x = s.prev x ∧ t.next x = s.next x) → Seg t p a xs b
  | [], _, _, _, h, _ => h
  | x :: xs, p, a, b, h, hf => by
    obtain ⟨h1, h2, h3, h4⟩ := h
    have hx := hf x (List.mem_cons_self _ _)
    refine ⟨h1, h2, by rw [hx.1, h3], ?_⟩
    rw [hx.2]
    exact Seg.frame h4 (fun y hy => hf y (List.mem_cons_of_mem _ hy))

/-- Splitting a segment at an interior point. -/
theorem Seg.append {s : Heap} : ∀ {xs ys : List Nat} {p a b : Nat},
    Seg s p a (xs ++ ys) b ↔ ∃ m, Seg s p a xs m ∧ Seg s (xs.getLastD p) m ys b
  | [], ys, p, a, b => by
    constructor
    · intro h; exact ⟨a, rfl, h⟩
    · rintro ⟨m, h1, h2⟩
      have : a = m := h1
      subst this; exact h2
  | x :: xs, ys, p, a, b => by
    have ih := @Seg.append s xs ys x (s.next x) b
    have hl : (x :: xs).getLastD p = xs.getLastD x := by
      cases xs <;> simp [List.getLastD]
    simp only [List.cons_append, Seg, hl]
    constructor
    · rintro ⟨h1, h2, h3, h4⟩
      obtain ⟨m, h5, h6⟩ := ih.1 h4
      exact ⟨m, ⟨h1, h2, h3, h5⟩, h6⟩
    · rintro ⟨m, ⟨h1, h2, h3, h5⟩, h6⟩
      exact ⟨h1, h2, h3, ih.2 ⟨m, h5, h6⟩⟩

/-- Every node of a segment is non-null. -/
theorem Seg.nodes_ne_zero {s : Heap} : ∀ {xs : List Nat} {p a b : Nat}, Seg s p a xs b →
    ∀ x ∈ xs, x ≠ 0
  | [], _, _, _, _, x, hx => by simp at hx
  | y :: ys, _, _, _, h, x, hx => by
    obtain ⟨_, h2, _, h4⟩ := h
    rcases List.mem_cons.1 hx with rfl | hx
    · exact h2
    · exact Seg.nodes_ne_zero h4 x hx

/-- The start of a non-empty segment is its first node. -/
theorem Seg.head_eq {s : Heap} {x : Nat} {xs : List Nat} {p a b : Nat}
    (h : Seg s p a (x :: xs) b) : a = x := h.1

/-- Redirecting the `next` field of the last node of a segment. -/
theorem Seg.set_end {s t : Heap} : ∀ {xs : List Nat} {p a b : Nat} (c : Nat) (hne : xs ≠ []),
    Seg s p a xs b → xs.Nodup → (∀ x ∈ xs, t.prev x = s.prev x) →
    (∀ x ∈ xs, x ≠ xs.getLast hne → t.next x = s.next x) →
    t.next (xs.getLast hne) = c → Seg t p a xs c
  | [], _, _, _, _, hne, _, _, _, _, _ => absurd rfl hne
  | [x], p, a, b, c, _, h, _, hp, _, hl => by
    obtain ⟨h1, h2, h3, _⟩ := h
    refine ⟨h1, h2, by rw [hp x (by simp), h3], ?_⟩
    simpa [Seg] using hl
  | x :: y :: ys, p, a, b, c, _, h, hnd, hp, hn, hl => by
    obtain ⟨h1, h2, h3, h4⟩ := h
    have hx : x ≠ (x :: y :: ys).getLast (by simp) := by
      intro e
      have : (x :: y :: ys).getLast (by simp) ∈ y :: ys := by
        rw [List.getLast_cons (by simp)]; exact List.getLast_mem _
      rw [← e] at this
      exact (List.nodup_cons.1 hnd).1 this
    refine ⟨h1, h2, by rw [hp x (by simp), h3], ?_⟩
    rw [hn x (by simp) hx]
    have hlast : (x :: y :: ys).getLast (by simp) = (y :: ys).getLast (by simp) :=
      List.getLast_cons (by simp)
    refine Seg.set_end c (by simp) h4 (List.nodup_cons.1 hnd).2
      (fun z hz => hp z (List.mem_cons_of_mem _ hz)) ?_ ?_
    · intro z hz hzl
      exact hn z (List.mem_cons_of_mem _ hz) (by rw [hlast]; exact hzl)
    · rw [← hlast]; exact hl

theorem LinksOnly.same (s : Heap) : LinksOnly s s := ⟨rfl, rfl, rfl, rfl, rfl, rfl, rfl⟩

theorem LinksOnly.comp {s t u : Heap} (h1 : LinksOnly s t) (h2 : LinksOnly t u) :
    LinksOnly s u := by
  obtain ⟨a1, a2, a3, a4, a5, a6, a7⟩ := h1
  obtain ⟨b1, b2, b3, b4, b5, b6, b7⟩ := h2
  exact ⟨b1.trans a1, b2.trans a2, b3.trans a3, b4.trans a4, b5.trans a5, b6.trans a6,
    b7.trans a7⟩

theorem insert_node_at_start_spec {s : Heap} {ns : List Nat} {blockPtr a : Nat}
    (h : DLL s ns) (ha : psub blockPtr NODE = a) (ha0 : a ≠ 0) (han : a ∉ ns) :
    ∃ t, insert_node_at_start s blockPtr = Except.ok t ∧ DLL t (a :: ns) ∧ LinksOnly s t := by
  obtain ⟨hseg, hnd⟩ := h
  cases ns with
  | nil =>
    have hh : s.FreeListHead = 0 := hseg
    refine ⟨_, by simp only [insert_node_at_start, ha, ha0, hh, if_true, if_false]; rfl, ?_, ?_⟩
    · refine ⟨⟨rfl, ha0, by simp [set], by simp [Seg, set]⟩, by simp⟩
    · refine ⟨?_, rfl, rfl, rfl, rfl, rfl, rfl⟩
      simp [set_self]
  | cons x xs =>
    obtain ⟨h1, h2, h3, h4⟩ := hseg
    have hax : a ≠ x := fun e => han (e ▸ List.mem_cons_self _ _)
    have hh : s.FreeListHead ≠ 0 := by rw [h1]; exact h2
    refine ⟨_, by simp only [insert_node_at_start, ha, ha0, hh, if_false]; rfl, ?_, ?_⟩
    · refine ⟨⟨rfl, ha0, ?_, ?_⟩, List.nodup_cons.2 ⟨han, hnd⟩⟩
      · simp [set, h1, hax]
      · simp only [set_eq, h1]
        refine ⟨rfl, h2, by simp [set], ?_⟩
        have : set s.next a x x = s.next x := set_ne _ _ (Ne.symm hax)
        simp only [this]
        refine Seg.frame h4 (fun y hy => ?_)
        have hya : y ≠ a := fun e => han (e ▸ List.mem_cons_of_mem _ hy)
        have hyx : y ≠ x := fun e => (List.nodup_cons.1 hnd).1 (e ▸ hy)
        simp [set, hya, hyx]
    · refine ⟨?_, rfl, rfl, rfl, rfl, rfl, rfl⟩
      simp [set_self]


theorem getLastD_eq_getLast {xs : List Nat} (d : Nat) (h : xs ≠ []) :
    xs.getLastD d = xs.getLast h := by
  cases xs with
  | nil => exact absurd rfl h
  | cons x xs => rfl

theorem lastNodeFrom_spec {s : Heap} : ∀ (xs : List Nat) (x p a fuel : Nat),
    Seg s p a (x :: xs) 0 → xs.length < fuel →
    lastNodeFrom fuel s a = Except.ok ((x :: xs).getLast (by simp))
  | [], x, p, a, fuel, h, hf => by
    obtain ⟨h1, _, _, h4⟩ := h
    have h4 : s.next x = 0 := h4
    obtain ⟨f, rfl⟩ : ∃ f, fuel = f + 1 := ⟨fuel - 1, by omega⟩
    subst h1
    simp [lastNodeFrom, h4]; rfl
  | y :: ys, x, p, a, fuel, h, hf => by
    obtain ⟨h1, _, _, h4⟩ := h
    obtain ⟨f, rfl⟩ : ∃ f, fuel = f + 1 := ⟨fuel - 1, by omega⟩
    have hy : s.next x = y := h4.1
    have hy0 : y ≠ 0 := h4.2.1
    have ih := lastNodeFrom_spec ys y x (s.next x) f h4 (by simpa using hf)
    have hl : (x :: y :: ys).getLast (by simp) = (y :: ys).getLast (by simp) :=
      List.getLast_cons (by simp)
    rw [h1, hl]
    simp only [lastNodeFrom, hy, hy0, ne_eq, not_false_eq_true, if_true]
    rw [hy] at ih
    exact ih

/-- Linking a fresh node `a` behind the last node of the list. -/
theorem append_link {s : Heap} {ns : List Nat} {a : Nat} (h : DLL s ns) (hne : ns ≠ [])
    (ha0 : a ≠ 0) (han : a ∉ ns) :
    DLL { s with prev := set s.prev a (ns.getLast hne),
                 next := set (set s.next a 0) (ns.getLast hne) a } (ns ++ [a]) := by
  obtain ⟨hseg, hnd⟩ := h
  have hla : ns.getLast hne ≠ a := fun e => han (e ▸ List.getLast_mem hne)
  refine ⟨Seg.append.2 ⟨a, ?_, ?_⟩, ?_⟩
  · refine Seg.set_end a hne hseg hnd (fun x hx => ?_) (fun x hx hxl => ?_) ?_
    · have : x ≠ a := fun e => han (e ▸ hx)
      simp [set, this]
    · have : x ≠ a := fun e => han (e ▸ hx)
      simp [set, this, hxl]
    · simp [set]
  · rw [getLastD_eq_getLast 0 hne]
    refine ⟨rfl, ha0, by simp [set], ?_⟩
    simp [Seg, set, Ne.symm hla]
  · rw [List.nodup_append]
    refine ⟨hnd, by simp, ?_⟩
    intro x hx hx2
    simp at hx2
    exact han (hx2 ▸ hx)

theorem append_to_freelist_end_spec {s : Heap} {ns : List Nat} {blockPtr a fuel : Nat}
    (h : DLL s ns) (hne : ns ≠ []) (ha : psub blockPtr NODE = a) (ha0 : a ≠ 0) (han : a ∉ ns)
    (hf : ns.length ≤ fuel) :
    ∃ t, append_to_freelist_end fuel s blockPtr = Except.ok t ∧ DLL t (ns ++ [a]) ∧
      LinksOnly s t := by
  have hlink := append_link h hne ha0 han
  refine ⟨_, ?_, hlink, ⟨rfl, rfl, rfl, rfl, rfl, rfl, rfl⟩⟩
  obtain ⟨hseg, hnd⟩ := h
  cases ns with
  | nil => exact absurd rfl hne
  | cons x xs =>
    obtain ⟨h1, h2, h3, h4⟩ := hseg
    subst h1
    cases xs with
    | nil =>
      have hn : s.next s.FreeListHead = 0 := h4
      simp only [append_to_freelist_end, ha, ha0, h2, hn, if_true, if_false,
        List.getLast_singleton]
      rfl
    | cons y ys =>
      have hn : s.next s.FreeListHead ≠ 0 := by rw [h4.1]; exact h4.2.1
      have hl := lastNodeFrom_spec ys y _ (s.next s.FreeListHead) fuel h4 (by simp at hf; omega)
      have hl2 : (s.FreeListHead :: y :: ys).getLast hne = (y :: ys).getLast (by simp) :=
        List.getLast_cons (by simp)
      simp only [append_to_freelist_end, ha, ha0, h2, hn, if_false, hl, hl2]
      rfl

theorem insert_node_between_spec {s : Heap} {pre r : List Nat} {c blockPtr a : Nat}
    (hpre : Seg s 0 s.FreeListHead pre c) (hne : pre ≠ [])
    (hrest : Seg s (pre.getLast hne) c (c :: r) 0) (hnd : (pre ++ c :: r).Nodup)
    (ha : psub blockPtr NODE = a) (ha0 : a ≠ 0) (han : a ∉ pre ++ c :: r) :
    ∃ t, insert_node_between s c blockPtr = Except.ok t ∧ DLL t (pre ++ a :: c :: r) ∧
      LinksOnly s t := by
  obtain ⟨_, hc0, hpc, hr⟩ := hrest
  have hq0 : pre.getLast hne ≠ 0 := Seg.nodes_ne_zero hpre _ (List.getLast_mem hne)
  have hqmem : pre.getLast hne ∈ pre := List.getLast_mem hne
  have hndp : pre.Nodup := (List.nodup_append.1 hnd).1
  have hndr : (c :: r).Nodup := (List.nodup_append.1 hnd).2.1
  have hdisj : ∀ x ∈ pre, x ∉ c :: r := fun x hx hx2 => (List.nodup_append.1 hnd).2.2 hx hx2
  have hac : a ≠ c := fun e => han (by simp [e])
  have haq : a ≠ pre.getLast hne := fun e => han (by rw [e]; simp [hqmem])
  have hcq : c ≠ pre.getLast hne := fun e => hdisj _ hqmem (by simp [← e])
  have hpc0 : s.prev c ≠ 0 := by rw [hpc]; exact hq0
  have hsc : set s.prev a (s.prev c) c = pre.getLast hne := by
    rw [set_ne _ _ (Ne.symm hac), hpc]
  refine ⟨{ s with prev := set (set s.prev a (pre.getLast hne)) c a,
                   next := set (set s.next a c) (pre.getLast hne) a }, ?_, ?_,
    ⟨rfl, rfl, rfl, rfl, rfl, rfl, rfl⟩⟩
  · simp only [insert_node_between, ha, ha0, hpc0, if_false, hsc]
    rw [hpc]; rfl
  refine ⟨Seg.append.2 ⟨a, ?_, ?_⟩, ?_⟩
  · refine Seg.set_end a hne hpre hndp (fun x hx => ?_) (fun x hx hxl => ?_) ?_
    · have h1 : x ≠ a := fun e => han (by simp [← e, hx])
      have h2 : x ≠ c := fun e => hdisj x hx (by simp [e])
      simp [set, h1, h2]
    · have h1 : x ≠ a := fun e => han (by simp [← e, hx])
      simp [set, h1, hxl]
    · simp [set]
  · rw [getLastD_eq_getLast 0 hne]
    have e0 : set (set s.prev a (pre.getLast hne)) c a a = pre.getLast hne := by
      rw [set_ne _ _ hac, set_eq]
    have e1 : set (set s.next a c) (pre.getLast hne) a a = c := by
      rw [set_ne _ _ haq, set_eq]
    have e2 : set (set s.next a c) (pre.getLast hne) a c = s.next c := by
      rw [set_ne _ _ hcq, set_ne _ _ (Ne.symm hac)]
    refine ⟨rfl, ha0, e0, ?_⟩
    simp only [e1]
    refine ⟨rfl, hc0, set_eq _ _ _, ?_⟩
    simp only [e2]
    refine Seg.frame hr (fun y hy => ?_)
    have h1 : y ≠ a := fun e => han (by simp [← e, hy])
    have h2 : y ≠ c := fun e => (List.nodup_cons.1 hndr).1 (e ▸ hy)
    have h3 : y ≠ pre.getLast hne := fun e => hdisj _ hqmem (by simp [← e, hy])
    simp [set, h1, h2, h3]
  · have : (pre ++ a :: c :: r).Perm (a :: (pre ++ c :: r)) := List.perm_middle
    exact (this.nodup_iff).2 (List.nodup_cons.2 ⟨han, hnd⟩)


theorem insertWalk_spec {s : Heap} {blockPtr a inner : Nat} (ha : psub blockPtr NODE = a)
    (ha0 : a ≠ 0) : ∀ (rest pre : List Nat) (fuel cur : Nat) (hne : pre ≠ []),
    Seg s 0 s.FreeListHead pre cur → Seg s (pre.getLast hne) cur rest 0 →
    (pre ++ rest).Nodup → a ∉ pre ++ rest → rest.length < fuel →
    (pre ++ rest).length ≤ inner →
    ∃ t, insertWalk fuel inner s cur blockPtr = Except.ok t ∧
      DLL t (pre ++ rest.orderedInsert (fun x y => x ≤ y) a) ∧ LinksOnly s t
  | [], pre, fuel, cur, hne, hpre, hrest, hnd, han, hf, hi => by
    obtain ⟨f, rfl⟩ : ∃ f, fuel = f + 1 := ⟨fuel - 1, by omega⟩
    have hc : cur = 0 := hrest
    subst hc
    simp only [insertWalk, ne_eq, not_true_eq_false, if_false, List.orderedInsert]
    simp only [List.append_nil] at hnd han hi
    exact append_to_freelist_end_spec ⟨hpre, hnd⟩ hne ha ha0 han hi
  | c :: r, pre, fuel, cur, hne, hpre, hrest, hnd, han, hf, hi => by
    obtain ⟨f, rfl⟩ : ∃ f, fuel = f + 1 := ⟨fuel - 1, by omega⟩
    have hc : cur = c := hrest.1
    subst hc
    have hc0 : cur ≠ 0 := hrest.2.1
    have hac : a ≠ cur := fun e => han (by simp [e])
    by_cases hlt : a < cur
    · simp only [insertWalk, ne_eq, hc0, not_false_eq_true, if_true, ha, hlt]
      have : List.orderedInsert (fun x y => x ≤ y) a (cur :: r) = a :: cur :: r := by
        simp [List.orderedInsert, Nat.le_of_lt hlt]
      rw [this]
      exact insert_node_between_spec hpre hne hrest hnd ha ha0 han
    · simp only [insertWalk, ne_eq, hc0, not_false_eq_true, if_true, ha, hlt, if_false]
      have hle : ¬ a ≤ cur := fun h => hlt (lt_of_le_of_ne h hac)
      have : List.orderedInsert (fun x y => x ≤ y) a (cur :: r)
          = cur :: List.orderedInsert (fun x y => x ≤ y) a r := by
        simp [List.orderedInsert, hle]
      rw [this]
      have hpre2 : Seg s 0 s.FreeListHead (pre ++ [cur]) (s.next cur) := by
        refine Seg.append.2 ⟨cur, hpre, ?_⟩
        rw [getLastD_eq_getLast 0 hne]
        exact ⟨rfl, hc0, hrest.2.2.1, rfl⟩
      have hlast : (pre ++ [cur]).getLast (by simp) = cur := by simp
      have ih := insertWalk_spec ha ha0 r (pre ++ [cur]) f (s.next cur) (by simp) hpre2
        (by rw [hlast]; exact hrest.2.2.2) (by simpa using hnd) (by simpa using han)
        (by simpa using hf) (by simpa using hi)
      simpa using ih

/-- Effect of `insert_block_into_freelist` on a well-formed list: the block is
linked at its address-ordered position and nothing but links changes. -/
theorem insert_block_into_freelist_spec {s : Heap} {ns : List Nat} {blockPtr a fuel : Nat}
    (h : DLL s ns) (ha : psub blockPtr NODE = a) (ha0 : a ≠ 0) (han : a ∉ ns)
    (hf : ns.length < fuel) :
    ∃ t, insert_block_into_freelist fuel s blockPtr = Except.ok t ∧
      DLL t (ns.orderedInsert (fun x y => x ≤ y) a) ∧ LinksOnly s t := by
  cases ns with
  | nil =>
    have hh : s.FreeListHead = 0 := h.1
    simp only [insert_block_into_freelist, hh, true_or, if_true, List.orderedInsert]
    exact insert_node_at_start_spec h ha ha0 han
  | cons x xs =>
    obtain ⟨hseg, hnd⟩ := h
    have hx : s.FreeListHead = x := hseg.1
    have hx0 : x ≠ 0 := hseg.2.1
    have hax : a ≠ x := fun e => han (by simp [e])
    by_cases hlt : a < x
    · simp only [insert_block_into_freelist, hx, ha, hlt, or_true, if_true]
      have : List.orderedInsert (fun x y => x ≤ y) a (x :: xs) = a :: x :: xs := by
        simp [List.orderedInsert, Nat.le_of_lt hlt]
      rw [this]
      exact insert_node_at_start_spec ⟨hseg, hnd⟩ ha ha0 han
    · have hle : ¬ a ≤ x := fun h => hlt (lt_of_le_of_ne h hax)
      have hins : List.orderedInsert (fun x y => x ≤ y) a (x :: xs)
          = x :: List.orderedInsert (fun x y => x ≤ y) a xs := by
        simp [List.orderedInsert, hle]
      rw [hins]
      simp only [insert_block_into_freelist, hx, ha, hlt, hx0, or_self, if_false]
      cases xs with
      | nil =>
        have hn : s.next x = 0 := hseg.2.2.2
        simp only [hn, if_true, List.orderedInsert]
        exact append_to_freelist_end_spec ⟨hseg, hnd⟩ (by simp) ha ha0 han (by simpa using hf.le)
      | cons y ys =>
        have hn : s.next x ≠ 0 := by rw [hseg.2.2.2.1]; exact hseg.2.2.2.2.1
        simp only [hn, if_false]
        have hpre : Seg s 0 s.FreeListHead [x] (s.next x) := ⟨hx, hx0, hseg.2.2.1, rfl⟩
        have := @insertWalk_spec s blockPtr a fuel ha ha0 (y :: ys) [x] fuel (s.next x) (by simp)
          hpre (by simpa using hseg.2.2.2) (by simpa using hnd) (by simpa using han)
          (by simp at hf ⊢; omega) (by simp at hf ⊢; omega)
        simpa using this


theorem removeWalk_spec {s : Heap} {a : Nat} : ∀ (rest pre : List Nat) (fuel cur : Nat)
    (hne : pre ≠ []),
    Seg s 0 s.FreeListHead pre cur → Seg s (pre.getLast hne) cur rest 0 →
    (pre ++ rest).Nodup → rest.length < fuel →
    ∃ t, removeWalk fuel s cur a = Except.ok t ∧ DLL t (pre ++ rest.erase a) ∧
      LinksOnly s t ∧ t.prev a = s.prev a ∧ t.next a = s.next a
  | [], pre, fuel, cur, hne, hpre, hrest, hnd, hf => by
    obtain ⟨f, rfl⟩ : ∃ f, fuel = f + 1 := ⟨fuel - 1, by omega⟩
    have hc : cur = 0 := hrest
    subst hc
    refine ⟨s, by simp [removeWalk]; rfl, ?_, LinksOnly.same s, rfl, rfl⟩
    simp only [List.append_nil] at hnd
    simpa using (⟨hpre, hnd⟩ : DLL s pre)
  | c :: r, pre, fuel, cur, hne, hpre, hrest, hnd, hf => by
    obtain ⟨f, rfl⟩ : ∃ f, fuel = f + 1 := ⟨fuel - 1, by omega⟩
    obtain ⟨hc, hc0, hpc, hr⟩ := hrest
    subst hc
    have hq0 : pre.getLast hne ≠ 0 := Seg.nodes_ne_zero hpre _ (List.getLast_mem hne)
    have hqmem : pre.getLast hne ∈ pre := List.getLast_mem hne
    have hndp : pre.Nodup := (List.nodup_append.1 hnd).1
    have hndr : (cur :: r).Nodup := (List.nodup_append.1 hnd).2.1
    have hdisj : ∀ x ∈ pre, x ∉ cur :: r := fun x hx hx2 =>
      (List.nodup_append.1 hnd).2.2 hx hx2
    have hcq : cur ≠ pre.getLast hne := fun e => hdisj _ hqmem (by simp [← e])
    by_cases hca : cur = a
    · subst hca
      have her : (cur :: r).erase cur = r := by simp
      rw [her]
      cases r with
      | nil =>
        have hn : s.next cur = 0 := hr
        refine ⟨{ s with next := set s.next (pre.getLast hne) 0 }, ?_, ?_,
          ⟨rfl, rfl, rfl, rfl, rfl, rfl, rfl⟩, rfl, ?_⟩
        · simp only [removeWalk, ne_eq, hc0, not_false_eq_true, if_true, hn, not_true_eq_false,
            if_false, hpc, hq0]
          rfl
        · refine ⟨?_, by simpa using hndp⟩
          rw [List.append_nil]
          refine Seg.set_end 0 hne hpre hndp (fun x _ => rfl) (fun x _ hxl => ?_) ?_
          · simp [set, hxl]
          · simp [set]
        · simp [set, hcq]
      | cons d r2 =>
        obtain ⟨hd, hd0, hpd, hr2⟩ := hr
        have hn : s.next cur ≠ 0 := by rw [hd]; exact hd0
        have hdc : d ≠ cur := fun e => (List.nodup_cons.1 hndr).1 (by simp [e])
        have hdq : d ≠ pre.getLast hne := fun e => hdisj _ hqmem (by simp [← e])
        refine ⟨{ s with next := set s.next (pre.getLast hne) d,
                         prev := set s.prev d (pre.getLast hne) }, ?_, ?_,
          ⟨rfl, rfl, rfl, rfl, rfl, rfl, rfl⟩, ?_, ?_⟩
        · simp only [removeWalk, ne_eq, hc0, not_false_eq_true, if_true, hpc, hq0,
            if_false, hd, hd0]
          rfl
        · refine ⟨Seg.append.2 ⟨d, ?_, ?_⟩, ?_⟩
          · refine Seg.set_end d hne hpre hndp (fun x hx => ?_) (fun x _ hxl => ?_) ?_
            · have : x ≠ d := fun e => hdisj x hx (by simp [e])
              simp [set, this]
            · simp [set, hxl]
            · simp [set]
          · rw [getLastD_eq_getLast 0 hne]
            have e2 : set s.next (pre.getLast hne) d d = s.next d := set_ne _ _ hdq
            refine ⟨rfl, hd0, set_eq _ _ _, ?_⟩
            simp only [e2]
            refine Seg.frame hr2 (fun y hy => ?_)
            have h2 : y ≠ d := fun e =>
              (List.nodup_cons.1 (List.nodup_cons.1 hndr).2).1 (e ▸ hy)
            have h3 : y ≠ pre.getLast hne := fun e => hdisj _ hqmem (by simp [← e, hy])
            simp [set, h2, h3]
          · have := hnd
            rw [List.nodup_append] at this ⊢
            refine ⟨this.1, (List.nodup_cons.1 this.2.1).2, fun x hx hx2 => ?_⟩
            exact this.2.2 hx (List.mem_cons_of_mem _ hx2)
        · simp [set, Ne.symm hdc]
        · simp [set, hcq]
    · have her : (cur :: r).erase a = cur :: r.erase a := by
        rw [List.erase_cons_tail]; simpa using hca
      rw [her]
      have hpre2 : Seg s 0 s.FreeListHead (pre ++ [cur]) (s.next cur) := by
        refine Seg.append.2 ⟨cur, hpre, ?_⟩
        rw [getLastD_eq_getLast 0 hne]
        exact ⟨rfl, hc0, hpc, rfl⟩
      have hlast : (pre ++ [cur]).getLast (by simp) = cur := by simp
      have ih := removeWalk_spec (a := a) r (pre ++ [cur]) f (s.next cur) (by simp) hpre2
        (by rw [hlast]; exact hr) (by simpa using hnd) (by simpa using hf)
      simp only [removeWalk, ne_eq, hc0, not_false_eq_true, if_true, hca, if_false]
      simpa using ih

/-- Effect of `remove_freelist_node` on a well-formed non-empty list: the node
is unlinked (nothing happens when it is not in the list), nothing but links
changes, and the node's own fields stay as they were. -/
theorem remove_freelist_node_spec {s : Heap} {ns : List Nat} {a fuel : Nat}
    (h : DLL s ns) (hne : ns ≠ []) (hf : ns.length ≤ fuel) :
    ∃ t, remove_freelist_node fuel s a = Except.ok t ∧ DLL t (ns.erase a) ∧
      LinksOnly s t ∧ t.prev a = s.prev a ∧ t.next a = s.next a := by
  obtain ⟨hseg, hnd⟩ := h
  cases ns with
  | nil => exact absurd rfl hne
  | cons x xs =>
    obtain ⟨hx, hx0, hpx, hr⟩ := hseg
    have hh0 : s.FreeListHead ≠ 0 := by rw [hx]; exact hx0
    by_cases hxa : x = a
    · subst hxa
      have her : (x :: xs).erase x = xs := by simp
      rw [her]
      cases xs with
      | nil =>
        have hn : s.next x = 0 := hr
        refine ⟨{ s with FreeListHead := 0 }, ?_, ⟨rfl, by simp⟩,
          ⟨rfl, rfl, rfl, rfl, rfl, rfl, rfl⟩, rfl, rfl⟩
        simp only [remove_freelist_node, hx, hx0, if_false, if_true, hn, ne_eq,
          not_true_eq_false]
        rfl
      | cons d r2 =>
        obtain ⟨hd, hd0, hpd, hr2⟩ := hr
        have hn : s.next x ≠ 0 := by rw [hd]; exact hd0
        have hdx : d ≠ x := fun e => (List.nodup_cons.1 hnd).1 (by simp [e])
        refine ⟨{ s with FreeListHead := d, prev := set s.prev d 0 }, ?_, ?_,
          ⟨rfl, rfl, rfl, rfl, rfl, rfl, rfl⟩, ?_, rfl⟩
        · simp only [remove_freelist_node, hx, hx0, if_false, if_true, ne_eq,
            not_false_eq_true, hd, hd0]
          rfl
        · refine ⟨⟨rfl, hd0, set_eq _ _ _, ?_⟩, (List.nodup_cons.1 hnd).2⟩
          refine Seg.frame hr2 (fun y hy => ?_)
          have h2 : y ≠ d := fun e =>
            (List.nodup_cons.1 (List.nodup_cons.1 hnd).2).1 (e ▸ hy)
          simp [set, h2]
        · simp [set, Ne.symm hdx]
    · have her : (x :: xs).erase a = x :: xs.erase a := by
        rw [List.erase_cons_tail]; simpa using hxa
      rw [her]
      have hpre : Seg s 0 s.FreeListHead [x] (s.next x) := ⟨hx, hx0, hpx, rfl⟩
      have := removeWalk_spec (a := a) xs [x] fuel (s.next x) (by simp) hpre
        (by simpa using hr) (by simpa using hnd) (by simp at hf ⊢; omega)
      simp only [remove_freelist_node, hx, hx0, if_false, hxa]
      simpa using this

/-! ## Lemmas on contiguous runs -/

theorem lastRun_nil (s : Heap) : lastRun s [] = [] := rfl

theorem lastRun_snoc (s : Heap) (vis : List Nat) (c : Nat) :
    lastRun s (vis ++ [c]) = runStep s (lastRun s vis) c := by
  simp [lastRun, List.foldl_append]

theorem runStep_getLast? (s : Heap) (run : List Nat) (c : Nat) :
    (runStep s run c).getLast? = some c := by
  unfold runStep
  split
  · split <;> simp
  · simp

theorem runStep_ne_nil (s : Heap) (run : List Nat) (c : Nat) : runStep s run c ≠ [] := by
  intro h
  have := runStep_getLast? s run c
  rw [h] at this
  simp at this

theorem lastRun_getLast? (s : Heap) (vis : List Nat) :
    (lastRun s vis).getLast? = vis.getLast? := by
  induction vis using List.reverseRecOn with
  | nil => rfl
  | append_singleton xs c _ => rw [lastRun_snoc, runStep_getLast?]; simp

theorem lastRun_eq_nil {s : Heap} {vis : List Nat} : lastRun s vis = [] ↔ vis = [] := by
  constructor
  · intro h
    have := lastRun_getLast? s vis
    rw [h] at this
    simpa using this.symm
  · rintro rfl; rfl

theorem lastRun_suffix (s : Heap) (vis : List Nat) : lastRun s vis <:+ vis := by
  induction vis using List.reverseRecOn with
  | nil => exact List.suffix_refl _
  | append_singleton xs c ih =>
    rw [lastRun_snoc]
    unfold runStep
    split
    · split
      · obtain ⟨p, hp⟩ := ih
        exact ⟨p, by rw [← List.append_assoc, hp]⟩
      · exact ⟨xs, rfl⟩
    · exact ⟨xs, rfl⟩

theorem Contig.snoc {s : Heap} {run : List Nat} {l c : Nat} (h : Contig s run)
    (hl : run.getLast? = some l) (hc : c = l + 24 + s.length l) : Contig s (run ++ [c]) := by
  unfold Contig at *
  rw [List.chain'_append]
  refine ⟨h, by simp, ?_⟩
  intro x hx y hy
  rw [hl] at hx
  simp at hx hy
  subst hx hy
  exact hc

theorem lastRun_contig (s : Heap) (vis : List Nat) : Contig s (lastRun s vis) := by
  induction vis using List.reverseRecOn with
  | nil => exact List.chain'_nil
  | append_singleton xs c ih =>
    rw [lastRun_snoc]
    unfold runStep
    split
    · rename_i l hl
      split
      · exact ih.snoc hl (by assumption)
      · exact List.chain'_singleton _
    · exact List.chain'_singleton _

theorem span_snoc (s : Heap) {run : List Nat} (c : Nat) (h : run ≠ []) :
    span s (run ++ [c]) = span s run + (s.length c + 24) := by
  cases run with
  | nil => exact absurd rfl h
  | cons a rest => simp [span, List.sum_append, Nat.add_assoc]

/-- In a contiguous run the span is the distance from the first payload to
the end of the last payload. -/
theorem span_end {s : Heap} : ∀ (xs : List Nat) (x : Nat), Contig s (x :: xs) →
    x + span s (x :: xs) = (x :: xs).getLast (by simp) + s.length ((x :: xs).getLast (by simp))
  | [], x, _ => by simp [span]
  | y :: ys, x, h => by
    have hxy : y = x + 24 + s.length x := by
      have := List.chain'_cons.1 h
      exact this.1
    have ih := span_end ys y (List.chain'_cons.1 h).2
    have hl : (x :: y :: ys).getLast (by simp) = (y :: ys).getLast (by simp) :=
      List.getLast_cons (by simp)
    rw [hl, ← ih]
    simp only [span, List.map_cons, List.sum_cons]
    omega


/-! ## Insertion keeps the list address-ordered -/

theorem demoHeap_dll : DLL demoHeap [4096, 8192] :=
  ⟨⟨rfl, by decide, rfl, rfl, by decide, rfl, rfl⟩, by decide⟩

theorem ascending_orderedInsert {ns : List Nat} {a : Nat} (hs : Ascending ns) (han : a ∉ ns) :
    Ascending (ns.orderedInsert (fun x y => x ≤ y) a) := by
  have h1 : ns.Sorted (fun x y => x ≤ y) := List.Pairwise.imp (fun h => Nat.le_of_lt h) hs
  have h2 : (ns.orderedInsert (fun x y => x ≤ y) a).Sorted (fun x y => x ≤ y) :=
    h1.orderedInsert a ns
  have h3 : (ns.orderedInsert (fun x y => x ≤ y) a).Nodup := by
    have hp := List.perm_orderedInsert (fun x y : Nat => x ≤ y) a ns
    rw [hp.nodup_iff]
    exact List.nodup_cons.2 ⟨han, hs.imp (fun h => Nat.ne_of_lt h)⟩
  exact h2.lt_of_le h3

/-- C3: for a free list whose nodes are in strictly ascending header-address
order and a block whose header address `blockPtr - 24` is not in the list,
`insert_block_into_freelist` returns, and yields a well-formed list in
strictly ascending order whose nodes are exactly the old nodes plus the new
block (one node more), every header keeping its length. -/
theorem insert_block_into_freelist_ascending (s : Heap) (ns : List Nat)
    (blockPtr fuel : Nat) (h : DLL s ns) (hs : Ascending ns)
    (h0 : psub blockPtr NODE ≠ 0) (hn : psub blockPtr NODE ∉ ns) (hf : ns.length < fuel) :
    ∃ t ms, insert_block_into_freelist fuel s blockPtr = Except.ok t ∧ DLL t ms ∧
      Ascending ms ∧ (∀ x, x ∈ ms ↔ x = psub blockPtr NODE ∨ x ∈ ns) ∧
      ms.length = ns.length + 1 ∧ t.length = s.length := by
  obtain ⟨t, h1, h2, h3⟩ := insert_block_into_freelist_spec h rfl h0 hn hf
  refine ⟨t, _, h1, h2, ascending_orderedInsert hs hn, fun x => ?_, ?_, h3.1⟩
  · simp [List.mem_orderedInsert]
  · simp [List.orderedInsert_length]

theorem insert_block_into_freelist_ascending_witness :
    ∃ t ms, insert_block_into_freelist 3 demoHeap 6024 = Except.ok t ∧ DLL t ms ∧
      Ascending ms ∧ (∀ x, x ∈ ms ↔ x = psub 6024 NODE ∨ x ∈ [4096, 8192]) ∧
      ms.length = [4096, 8192].length + 1 ∧ t.length = demoHeap.length :=
  insert_block_into_freelist_ascending demoHeap [4096, 8192] 6024 3 demoHeap_dll
    (by unfold Ascending; decide) (by decide) (by decide) (by decide)

/-! ## Reclaim calculation -/

theorem padd_eq {x y : Nat} (h : x + y < 18446744073709551616) : padd x y = x + y := by
  unfold padd; exact Nat.mod_eq_of_lt h

theorem psub_eq {x y : Nat} (h1 : y ≤ x) (h2 : x < 18446744073709551616) :
    psub x y = x - y := by
  unfold psub; omega

theorem psub_padd {x y : Nat} (h : x + y < 18446744073709551616) : psub (padd x y) y = x := by
  unfold psub padd; omega

theorem map_range_set (arr : Nat → Nat) (n c : Nat) :
    (List.range n).map (set arr n c) = (List.range n).map arr := by
  apply List.map_congr_left
  intro x hx
  have : x ≠ n := Nat.ne_of_lt (List.mem_range.1 hx)
  simp [set, this]

theorem map_range_snoc (arr : Nat → Nat) (n c : Nat) :
    (List.range (n + 1)).map (set arr n c) = (List.range n).map arr ++ [c] := by
  rw [List.range_succ, List.map_append, map_range_set]
  simp [set]

theorem span_lt {s : Heap} {run : List Nat} (hc : Contig s run)
    (hb : ∀ x ∈ run, x + 24 + s.length x < 18446744073709551616) :
    span s run + 24 < 18446744073709551616 := by
  cases run with
  | nil => simp [span]
  | cons x xs =>
    have h1 := span_end xs x hc
    have h2 := hb _ (List.getLast_mem (l := x :: xs) (by simp))
    omega

theorem Bounded.runStep {s : Heap} {run vis : List Nat} {c : Nat}
    (hb : Bounded s (vis ++ [c])) (hr : ∀ x ∈ run, x ∈ vis) :
    ∀ x ∈ runStep s run c, x + 24 + s.length x < 18446744073709551616 := by
  intro x hx
  apply hb
  unfold HMM.runStep at hx
  split at hx
  · split at hx
    · rcases List.mem_append.1 hx with h | h
      · exact List.mem_append_left _ (hr x h)
      · exact List.mem_append_right _ h
    · exact List.mem_append_right _ hx
  · exact List.mem_append_right _ hx

theorem ScanInv.count {s : Heap} {vis : List Nat} {st : RunScan} (h : ScanInv s vis st) :
    st.contiguous_block_count = (lastRun s vis).length := by
  have := congrArg List.length h.1
  simpa using this

theorem contiguousScan_spec {s : Heap} : ∀ (rest vis : List Nat) (fuel cur : Nat)
    (st : RunScan),
    Seg s (vis.getLastD 0) cur rest 0 → (∀ x ∈ vis, x ≠ 0) → Bounded s (vis ++ rest) →
    (vis ++ rest).length < ARRAY_CAP → ScanInv s vis st → rest.length < fuel →
    ∃ st', contiguousScan fuel s cur st = Except.ok st' ∧ ScanInv s (vis ++ rest) st'
  | [], vis, fuel, cur, st, hseg, _, _, _, hinv, hf => by
    obtain ⟨f, rfl⟩ : ∃ f, fuel = f + 1 := ⟨fuel - 1, by omega⟩
    have hc : cur = 0 := hseg
    subst hc
    exact ⟨st, by simp [contiguousScan]; rfl, by simpa using hinv⟩
  | c :: r, vis, fuel, cur, st, hseg, hv0, hb, hcap, hinv, hf => by
    obtain ⟨f, rfl⟩ : ∃ f, fuel = f + 1 := ⟨fuel - 1, by omega⟩
    obtain ⟨hc, hc0, hpc, hr⟩ := hseg
    subst hc
    have hcnt := hinv.count
    have hbc : cur + 24 + s.length cur < 18446744073709551616 := hb cur (by simp)
    have hsuf := lastRun_suffix s vis
    have hlen : (lastRun s vis).length ≤ vis.length := hsuf.length_le
    have hcap' : vis.length + 1 ≤ ARRAY_CAP := by simp at hcap; omega
    have hb2 : Bounded s (vis ++ [cur]) := fun x hx => hb x (by
      rcases List.mem_append.1 hx with h | h
      · exact List.mem_append_left _ h
      · simp at h; simp [h])
    have hnext : ∀ st', ScanInv s (vis ++ [cur]) st' →
        ∃ st'', contiguousScan f s (s.next cur) st' = Except.ok st'' ∧
          ScanInv s (vis ++ cur :: r) st'' := by
      intro st' hst'
      have := contiguousScan_spec r (vis ++ [cur]) f (s.next cur) st'
        (by simpa using hr)
        (by intro x hx; rcases List.mem_append.1 hx with h | h
            · exact hv0 x h
            · simp at h; rw [h]; exact hc0)
        (by simpa using hb) (by simpa using hcap) hst' (by simpa using hf)
      simpa using this
    by_cases h0 : st.contiguous_block_count = 0
    · -- first node of the list
      have hvis : vis = [] := by
        rw [hcnt] at h0
        exact lastRun_eq_nil.1 (List.length_eq_zero.1 h0)
      subst hvis
      have ht : st.total_free_size = 0 := by rw [hinv.2]; rfl
      simp only [contiguousScan, ne_eq, hc0, not_false_eq_true, if_true, h0, ht]
      apply hnext
      have hrun : lastRun s ([] ++ [cur]) = [cur] := by simp [lastRun, runStep]
      refine ⟨?_, ?_⟩
      · rw [hrun]
        show List.map (set st.contiguous_blocks 0 cur) (List.range ((0 + 1) % 4294967296)) = _
        simp [set, List.range_succ]
      · rw [hrun]
        show padd 0 (s.length cur) = _
        simp only [span, List.map_nil, List.sum_nil, Nat.add_zero]
        unfold padd; omega
    · have hvne : vis ≠ [] := by
        intro e; subst e; exact h0 (by rw [hcnt]; rfl)
      have hl : vis.getLastD 0 = vis.getLast hvne := getLastD_eq_getLast 0 hvne
      have hlmem : vis.getLast hvne ∈ vis := List.getLast_mem hvne
      have hl0 : vis.getLast hvne ≠ 0 := hv0 _ hlmem
      have hbl := hb (vis.getLast hvne) (List.mem_append_left _ hlmem)
      have hrl : (lastRun s vis).getLast? = some (vis.getLast hvne) := by
        rw [lastRun_getLast?, List.getLast?_eq_getLast _ hvne]
      have hp0 : s.prev cur ≠ 0 := by rw [hpc, hl]; exact hl0
      have hpad : padd (s.prev cur) (padd (s.length (s.prev cur)) NODE)
          = vis.getLast hvne + 24 + s.length (vis.getLast hvne) := by
        rw [hpc, hl]
        unfold padd NODE; omega
      have hrne : lastRun s vis ≠ [] := fun e => hvne (lastRun_eq_nil.1 e)
      by_cases hadj : cur = vis.getLast hvne + 24 + s.length (vis.getLast hvne)
      · have hrun : lastRun s (vis ++ [cur]) = lastRun s vis ++ [cur] := by
          rw [lastRun_snoc]; unfold runStep; rw [hrl]; simp [← hadj]
        have hcon : Contig s (lastRun s vis ++ [cur]) := by
          rw [← hrun]; exact lastRun_contig s _
        have hbr : ∀ x ∈ lastRun s vis ++ [cur], x + 24 + s.length x < 18446744073709551616 := by
          intro x hx
          apply hb2
          rcases List.mem_append.1 hx with h | h
          · exact List.mem_append_left _ (hsuf.subset h)
          · exact List.mem_append_right _ h
        have hsp := span_lt hcon hbr
        rw [span_snoc s cur hrne] at hsp
        have hcc : ¬ ARRAY_CAP ≤ st.contiguous_block_count := by rw [hcnt]; omega
        have hcm : (st.contiguous_block_count + 1) % 4294967296
            = st.contiguous_block_count + 1 := by
          apply Nat.mod_eq_of_lt
          have : ARRAY_CAP = 10000 := rfl
          omega
        simp only [contiguousScan, ne_eq, hc0, not_false_eq_true, if_true, h0, if_false, hp0,
          hpad, hadj.symm, hcc, hcm]
        apply hnext
        refine ⟨?_, ?_⟩
        · rw [hrun, map_range_snoc, hinv.1]
        · rw [hrun, span_snoc s cur hrne]
          show padd st.total_free_size (padd (s.length cur) NODE) = _
          rw [hinv.2]
          unfold padd NODE; omega
      · have hrun : lastRun s (vis ++ [cur]) = [cur] := by
          rw [lastRun_snoc]; unfold runStep; rw [hrl]; simp [hadj]
        have hadj' : ¬ cur = padd (s.prev cur) (padd (s.length (s.prev cur)) NODE) := by
          rw [hpad]; exact hadj
        simp only [contiguousScan, ne_eq, hc0, not_false_eq_true, if_true, h0, if_false, hp0,
          hadj']
        apply hnext
        refine ⟨?_, ?_⟩
        · rw [hrun]
          show List.map (set st.contiguous_blocks 0 cur) (List.range 1) = _
          simp [set, List.range_succ]
        · rw [hrun]
          show padd 0 (s.length cur) = _
          simp only [span, List.map_nil, List.sum_nil, Nat.add_zero]
          unfold padd; omega

theorem LinksOnly.toFrame {s t : Heap} (h : LinksOnly s t) : Frame s t := h.2

theorem Frame.refl (s : Heap) : Frame s s := ⟨rfl, rfl, rfl, rfl, rfl, rfl⟩

theorem Frame.trans {s t u : Heap} (h1 : Frame s t) (h2 : Frame t u) : Frame s u := by
  obtain ⟨a2, a3, a4, a5, a6, a7⟩ := h1
  obtain ⟨b2, b3, b4, b5, b6, b7⟩ := h2
  exact ⟨b2.trans a2, b3.trans a3, b4.trans a4, b5.trans a5, b6.trans a6, b7.trans a7⟩

/-- Well-formedness of the list only depends on the head and the links. -/
theorem DLL.congr {s t : Heap} {ns : List Nat} (h : DLL s ns)
    (h1 : t.FreeListHead = s.FreeListHead) (h2 : t.prev = s.prev) (h3 : t.next = s.next) :
    DLL t ns := by
  refine ⟨?_, h.2⟩
  rw [h1]
  exact Seg.frame h.1 (fun x _ => by rw [h2, h3]; exact ⟨rfl, rfl⟩)

theorem DLL.ne_zero {s : Heap} {ns : List Nat} (h : DLL s ns) : ∀ x ∈ ns, x ≠ 0 :=
  Seg.nodes_ne_zero h.1

theorem diff_suffix : ∀ (run pre : List Nat), (pre ++ run).Nodup → (pre ++ run).diff run = pre
  | [], pre, _ => by simp
  | x :: xs, pre, h => by
    have hx : x ∉ pre := fun hx => (List.nodup_append.1 h).2.2 hx (List.mem_cons_self _ _)
    rw [List.diff_cons, List.erase_append_right _ hx, List.erase_cons_head]
    apply diff_suffix xs pre
    have : (pre ++ x :: xs).Perm (x :: (pre ++ xs)) := List.perm_middle
    exact (List.nodup_cons.1 ((this.nodup_iff).1 h)).2

/-- Removing, one after the other, the nodes that the array holds from index
`i` up to its first `NULL`, when these are distinct nodes of the list. -/
theorem removeBlocks_run {blocks : Nat → Nat} {inner : Nat} : ∀ (run : List Nat)
    (i fuel : Nat) (s : Heap) (ns : List Nat), DLL s ns →
    (List.range' i run.length).map blocks = run → blocks (i + run.length) = 0 →
    (∀ x ∈ run, x ∈ ns) → run.Nodup → run.length < fuel → ns.length ≤ inner →
    i + run.length < ARRAY_CAP →
    ∃ t, removeBlocks fuel inner s blocks i = Except.ok t ∧ DLL t (ns.diff run) ∧
      LinksOnly s t
  | [], i, fuel, s, ns, h, _, hz, _, _, hf, _, hcap => by
    obtain ⟨f, rfl⟩ : ∃ f, fuel = f + 1 := ⟨fuel - 1, by omega⟩
    have hz : blocks i = 0 := by simpa using hz
    have hc : ¬ ARRAY_CAP ≤ i := by simp at hcap; omega
    exact ⟨s, by simp [removeBlocks, hz, hc]; rfl, by simpa using h, LinksOnly.same s⟩
  | x :: xs, i, fuel, s, ns, h, hm, hz, hmem, hnd, hf, hin, hcap => by
    obtain ⟨f, rfl⟩ : ∃ f, fuel = f + 1 := ⟨fuel - 1, by omega⟩
    simp only [List.length_cons, List.range'_succ, List.map_cons, List.cons.injEq] at hm
    obtain ⟨hx, hm⟩ := hm
    have hxns : x ∈ ns := hmem x (List.mem_cons_self _ _)
    have hx0 : x ≠ 0 := h.ne_zero x hxns
    have hc : ¬ ARRAY_CAP ≤ i := by simp at hcap; omega
    obtain ⟨t1, ht1, hd1, hl1, _, _⟩ := remove_freelist_node_spec (a := x) h
      (List.ne_nil_of_mem hxns) hin
    have hlen : (ns.erase x).length ≤ inner := le_trans (List.length_erase_le x ns) hin
    obtain ⟨t2, ht2, hd2, hl2⟩ := removeBlocks_run xs (i + 1) f t1 (ns.erase x) hd1 hm
      (by simp only [List.length_cons] at hz; rw [← hz]; congr 1; omega)
      (fun y hy => by
        have hyx : y ≠ x := fun e => (List.nodup_cons.1 hnd).1 (e ▸ hy)
        exact (List.mem_erase_of_ne hyx).2 (hmem y (List.mem_cons_of_mem _ hy)))
      (List.nodup_cons.1 hnd).2 (by simpa using hf) hlen
      (by simp only [List.length_cons] at hcap; omega)
    refine ⟨t2, ?_, by rw [List.diff_cons]; exact hd2, hl1.comp hl2⟩
    simp only [removeBlocks, hc, if_false, hx, ne_eq, hx0, not_false_eq_true, if_true, ht1]
    exact ht2

theorem extraDecreases_small {fuel d r : Nat} (hf : 0 < fuel) (hr : r < 256) :
    extraDecreases fuel d r = Except.ok (d, r) := by
  obtain ⟨f, rfl⟩ : ∃ f, fuel = f + 1 := ⟨fuel - 1, by omega⟩
  have : ¬ r > 128 * 1024 := by omega
  simp [extraDecreases, this]; rfl

/-- What `calculate_decreases_in_program_break` does to a well-formed, bounded
free list of fewer than 10000 nodes, in terms of the span `R` of its last
physically contiguous run. -/
theorem calculate_decreases_spec {s : Heap} {ns : List Nat} {fuel : Nat}
    (h : DLL s ns) (hb : Bounded s ns) (hcap : ns.length < ARRAY_CAP) (hf : ns.length < fuel) :
    ∃ k t ms, calculate_decreases_in_program_break fuel s = Except.ok (k, t) ∧ DLL t ms ∧
      Frame s t ∧ k = (if 131072 < span s (lastRun s ns) then 1 else 0) ∧
      (span s (lastRun s ns) ≤ 131072 → t = s ∧ ms = ns) ∧
      (131072 < span s (lastRun s ns) → ∃ pre x xs, ns = pre ++ x :: xs ∧
        lastRun s ns = x :: xs ∧
        (24 < (span s (lastRun s ns) - 131072) % 256 →
          ms = pre.orderedInsert (fun a b => a ≤ b) x ∧
          t.length = set s.length x ((span s (lastRun s ns) - 131072) % 256)) ∧
        ((span s (lastRun s ns) - 131072) % 256 ≤ 24 → ms = pre ∧ t.length = s.length)) := by
  obtain ⟨st, hscan, hinv⟩ := contiguousScan_spec ns [] fuel s.FreeListHead
    { contiguous_block_count := 0, total_free_size := 0, contiguous_blocks := fun _ => 0 }
    (by simpa using h.1) (by simp) (by simpa using hb) (by simpa using hcap)
    ⟨by simp [lastRun], by simp [lastRun, span]⟩ hf
  simp only [List.nil_append] at hinv
  have htot := hinv.2
  have hcnt := hinv.count
  by_cases hR : 131072 < span s (lastRun s ns)
  · -- the run is reclaimed
    obtain ⟨pre, hpre⟩ := lastRun_suffix s ns
    have hrne : lastRun s ns ≠ [] := by
      intro e; rw [e] at hR; simp [span] at hR
    obtain ⟨x, xs, hrun⟩ : ∃ x xs, lastRun s ns = x :: xs := by
      cases hr : lastRun s ns with
      | nil => exact absurd hr hrne
      | cons x xs => exact ⟨x, xs, rfl⟩
    have hlen : (lastRun s ns).length ≤ ns.length := (lastRun_suffix s ns).length_le
    have hc : ¬ ARRAY_CAP ≤ st.contiguous_block_count := by rw [hcnt]; omega
    have hspan := span_lt (lastRun_contig s ns)
      (fun y hy => hb y ((lastRun_suffix s ns).subset hy))
    have hnd : ns.Nodup := h.2
    have hmap : (List.range' 0 (lastRun s ns).length).map
        (set st.contiguous_blocks st.contiguous_block_count 0) = lastRun s ns := by
      rw [← List.range_eq_range', ← hcnt, map_range_set, hinv.1]
    obtain ⟨t1, ht1, hd1, hl1⟩ := @removeBlocks_run _ fuel (lastRun s ns) 0 fuel s ns h
      hmap (by rw [Nat.zero_add, ← hcnt]; simp [set])
      (fun y hy => (lastRun_suffix s ns).subset hy)
      ((lastRun_suffix s ns).sublist.nodup hnd) (by omega) hf.le (by omega)
    have hdiff : ns.diff (lastRun s ns) = pre := by
      have := diff_suffix (lastRun s ns) pre (by rw [hpre]; exact hnd)
      rw [hpre] at this
      exact this
    rw [hdiff] at hd1
    have hps : psub st.total_free_size (128 * 1024) = span s (lastRun s ns) - 131072 := by
      rw [htot]; exact psub_eq (by omega) (by omega)
    have hex := @extraDecreases_small fuel 1
      ((span s (lastRun s ns) - 131072) % 256) (by omega) (Nat.mod_lt _ (by norm_num))
    have hgt : st.total_free_size > 128 * 1024 := by rw [htot]; omega
    have hx0 : x ≠ 0 := h.ne_zero x ((lastRun_suffix s ns).subset (by rw [hrun]; simp))
    have hb0 : set st.contiguous_blocks st.contiguous_block_count 0 0 = x := by
      have := congrArg (fun l => l.head?) hmap
      rw [hrun] at this
      simpa [List.range'_succ] using this
    by_cases hrem : 24 < (span s (lastRun s ns) - 131072) % 256
    · have hxp : x ∉ pre := by
        intro hx
        have : (pre ++ x :: xs).Nodup := by rw [← hrun, hpre]; exact hnd
        exact (List.nodup_append.1 this).2.2 hx (List.mem_cons_self _ _)
      have hbx := hb x ((lastRun_suffix s ns).subset (by rw [hrun]; simp))
      have hd2 : ∀ v, DLL { t1 with length := set t1.length x v } pre :=
        fun _ => hd1.congr rfl rfl rfl
      obtain ⟨t3, ht3, hd3, hl3⟩ := @insert_block_into_freelist_spec _ _
        (padd x NODE) _ fuel (hd2 ((span s (lastRun s ns) - 131072) % 256)) (psub_padd (by unfold NODE; omega)) hx0 hxp
        (by
          have : pre.length ≤ ns.length := by rw [← hpre]; simp
          omega)
      refine ⟨1, t3, _, ?_, hd3, ?_, by simp [hR], fun hle => absurd hR (by omega),
        fun _ => ⟨pre, x, xs, by rw [← hrun, hpre], hrun, fun _ => ⟨rfl, ?_⟩,
          fun hle => absurd hrem (by omega)⟩⟩
      · simp only [calculate_decreases_in_program_break, hscan, bind, Except.bind, hgt, if_true,
          hc, if_false, ht1, hps, hex, NODE, hrem, hb0, hx0]
        simp only [NODE] at ht3
        rw [ht3]
        rfl
      · exact (hl1.toFrame).trans (Frame.trans ⟨rfl, rfl, rfl, rfl, rfl, rfl⟩ hl3.toFrame)
      · rw [hl3.1]
        show set t1.length x _ = _
        rw [hl1.1]
    · refine ⟨1, t1, pre, ?_, hd1, hl1.toFrame, by simp [hR], fun hle => absurd hR (by omega),
        fun _ => ⟨pre, x, xs, by rw [← hrun, hpre], hrun, fun hgt => absurd hgt hrem,
          fun _ => ⟨rfl, hl1.1⟩⟩⟩
      simp only [calculate_decreases_in_program_break, hscan, bind, Except.bind, hgt, if_true,
        hc, if_false, ht1, hps, hex, NODE, hrem]
      rfl
  · have hgt : ¬ st.total_free_size > 128 * 1024 := by rw [htot]; omega
    refine ⟨0, s, ns, ?_, h, Frame.refl s, by simp [hR], fun _ => ⟨rfl, rfl⟩,
      fun hlt => absurd hlt hR⟩
    simp only [calculate_decreases_in_program_break, hscan, bind, Except.bind, hgt, if_false]
    rfl

/-! ## HmmFree -/

theorem decrease_program_break_chunk {s : Heap}
    (h2 : s.osFloor + 131072 ≤ s.osBreak) :
    decrease_program_break s 131072
      = (s.osBreak - 131072, { s with osBreak := s.osBreak - 131072 }) := by
  have hp : psub 0 131072 = 18446744073709420544 := by decide
  simp only [decrease_program_break, sbrk, hp]
  have : s.osFloor + (18446744073709551616 - 18446744073709420544) ≤ s.osBreak := by omega
  simp [this]

/-- Masking with `~7` clears the three low bits of a 64-bit value. -/
theorem land_mask8 {y : Nat} (h : y < 18446744073709551616) :
    Nat.land y 18446744073709551608 = y / 8 * 8 := by
  have e1 : (18446744073709551608 : Nat) = (2 ^ 61 - 1) <<< 3 := by decide
  have e2 : y / 8 * 8 = (y >>> 3) <<< 3 := by
    rw [Nat.shiftLeft_eq, Nat.shiftRight_eq_div_pow]
  show y &&& 18446744073709551608 = _
  rw [e1, e2]
  apply Nat.eq_of_testBit_eq
  intro i
  simp only [Nat.testBit_and, Nat.testBit_shiftLeft, Nat.testBit_shiftRight,
    Nat.testBit_two_pow_sub_one]
  by_cases h3 : 3 ≤ i
  · by_cases h64 : i - 3 < 61
    · have : 3 + (i - 3) = i := by omega
      simp [h3, h64, this]
    · have hy : y.testBit i = false := by
        apply Nat.testBit_lt_two_pow
        calc y < 2 ^ 64 := h
          _ ≤ 2 ^ i := Nat.pow_le_pow_right (by norm_num) (by omega)
      have : 3 + (i - 3) = i := by omega
      simp [h3, h64, this, hy]
  · simp [h3]

/-- The rounding of `HmmAlloc` and `HmmRealloc`, when it does not overflow. -/
theorem round_eq {n : Nat} (h : n + 8 ≤ 18446744073709551616) :
    Nat.land (psub (padd n word_size) 1) (not64 (psub word_size 1)) = roundUp8 n := by
  have h1 : psub (padd n word_size) 1 = n + 7 := by unfold psub padd word_size; omega
  have h2 : not64 (psub word_size 1) = 18446744073709551608 := by decide
  rw [h1, h2, land_mask8 (by omega)]
  rfl

theorem span_congr {s t : Heap} (h : t.length = s.length) (run : List Nat) :
    span t run = span s run := by
  cases run <;> simp [span, h]

theorem lastRun_congr {s t : Heap} (h : t.length = s.length) (ns : List Nat) :
    lastRun t ns = lastRun s ns := by
  have : runStep t = runStep s := by
    funext run c; unfold runStep; rw [h]
  unfold lastRun; rw [this]

theorem Bounded.of_length {s t : Heap} {ns : List Nat} (hb : Bounded s ns)
    (h : t.length = s.length) : Bounded t ns := by
  intro x hx; rw [h]; exact hb x hx

theorem HmmFree_keep {s s1 t1 : Heap} {fuel p : Nat}
    (hins : insert_block_into_freelist fuel s p = Except.ok s1)
    (hcalc : calculate_decreases_in_program_break fuel s1 = Except.ok (0, t1)) :
    HmmFree fuel s p = Except.ok t1 := by
  simp only [HmmFree, hins, hcalc, bind, Except.bind]
  rfl

theorem HmmFree_shrink_aux {s s1 t1 : Heap} {fuel p v : Nat}
    (hins : insert_block_into_freelist fuel s p = Except.ok s1)
    (hcalc : calculate_decreases_in_program_break fuel s1 = Except.ok (1, t1))
    (hdec : decrease_program_break t1 131072 = (v, { t1 with osBreak := v }))
    (hv : v ≠ 0) :
    ∃ t, HmmFree fuel s p = Except.ok t ∧ t.FreeListHead = t1.FreeListHead ∧
      t.prev = t1.prev ∧ t.next = t1.next ∧ t.length = t1.length ∧
      t.payload = t1.payload ∧ t.initializationFlag = t1.initializationFlag ∧
      t.osFloor = t1.osFloor ∧ t.osLimit = t1.osLimit ∧ t.osBreak = v ∧
      t.programBreak = v := by
  have h1 : (1 * FREE_SIZE) % 4294967296 = 131072 := by decide
  refine ⟨{ t1 with osBreak := v, programBreak := v }, ?_, rfl, rfl, rfl, rfl, rfl, rfl, rfl,
    rfl, rfl, rfl⟩
  simp only [HmmFree, hins, hcalc, bind, Except.bind, h1, hdec, gt_iff_lt, Nat.zero_lt_one,
    if_true, ne_eq, hv, not_false_eq_true]
  rfl

theorem HmmFree_shrink {s s1 t1 : Heap} {fuel p : Nat}
    (hins : insert_block_into_freelist fuel s p = Except.ok s1)
    (hcalc : calculate_decreases_in_program_break fuel s1 = Except.ok (1, t1))
    (hos : t1.osFloor + 131072 ≤ t1.osBreak) (hfl : 0 < t1.osFloor) :
    ∃ t, HmmFree fuel s p = Except.ok t ∧ t.FreeListHead = t1.FreeListHead ∧
      t.prev = t1.prev ∧ t.next = t1.next ∧ t.length = t1.length ∧
      t.payload = t1.payload ∧ t.initializationFlag = t1.initializationFlag ∧
      t.osFloor = t1.osFloor ∧ t.osLimit = t1.osLimit ∧ t.osBreak = t1.osBreak - 131072 ∧
      t.programBreak = t1.osBreak - 131072 :=
  HmmFree_shrink_aux hins hcalc (decrease_program_break_chunk hos)
    (Nat.sub_ne_zero_of_lt (by omega))

theorem decrease_program_break_refused {s : Heap}
    (h2 : ¬ s.osFloor + 131072 ≤ s.osBreak) :
    decrease_program_break s 131072 = (0, s) := by
  have hp : psub 0 131072 = 18446744073709420544 := by decide
  simp only [decrease_program_break, sbrk, hp]
  have : ¬ s.osFloor + (18446744073709551616 - 18446744073709420544) ≤ s.osBreak := by omega
  simp [this]

theorem HmmFree_refused {s s1 t1 : Heap} {fuel p : Nat}
    (hins : insert_block_into_freelist fuel s p = Except.ok s1)
    (hcalc : calculate_decreases_in_program_break fuel s1 = Except.ok (1, t1))
    (hos : ¬ t1.osFloor + 131072 ≤ t1.osBreak) :
    HmmFree fuel s p = Except.ok t1 := by
  have h1 : (1 * FREE_SIZE) % 4294967296 = 131072 := by decide
  simp only [HmmFree, hins, hcalc, bind, Except.bind, h1, decrease_program_break_refused hos,
    gt_iff_lt, Nat.zero_lt_one, if_true, ne_eq, not_true_eq_false, if_false]
  rfl

/-- Effect of `HmmFree` on a well-formed free list: the block is inserted, and
when the last contiguous run of the resulting list spans more than 128 KiB
that run is unlinked, an 8-bit remainder node is put back and the break
moves down by 128 KiB (unless the OS refuses). -/
theorem HmmFree_spec {s : Heap} {ns : List Nat} {p a fuel : Nat} (h : DLL s ns)
    (ha : psub p NODE = a) (ha0 : a ≠ 0) (han : a ∉ ns) (hb : Bounded s (a :: ns))
    (hcap : ns.length + 1 < ARRAY_CAP) (hf : ns.length + 1 < fuel) (hfl : 0 < s.osFloor) :
    ∃ t ms, HmmFree fuel s p = Except.ok t ∧ DLL t ms ∧
      t.payload = s.payload ∧ t.initializationFlag = s.initializationFlag ∧
      t.osFloor = s.osFloor ∧ t.osLimit = s.osLimit ∧
      (∀ y, y ∉ a :: ns → t.length y = s.length y) ∧
      (∀ y ∈ ms, y ∈ a :: ns) ∧
      (span s (lastRun s (ns.orderedInsert (fun x y => x ≤ y) a)) ≤ 131072 →
        ms = ns.orderedInsert (fun x y => x ≤ y) a ∧ t.length = s.length) ∧
      (span s (lastRun s (ns.orderedInsert (fun x y => x ≤ y) a)) ≤ 131072
          ∨ ¬ s.osFloor + 131072 ≤ s.osBreak →
        t.programBreak = s.programBreak ∧ t.osBreak = s.osBreak) ∧
      (131072 < span s (lastRun s (ns.orderedInsert (fun x y => x ≤ y) a)) →
        (s.osFloor + 131072 ≤ s.osBreak →
          t.programBreak = s.osBreak - 131072 ∧ t.osBreak = s.osBreak - 131072) ∧
        ∃ pre x xs, ns.orderedInsert (fun x y => x ≤ y) a = pre ++ x :: xs ∧
          lastRun s (ns.orderedInsert (fun x y => x ≤ y) a) = x :: xs ∧
          (24 < (span s (x :: xs) - 131072) % 256 →
            ms = pre.orderedInsert (fun a b => a ≤ b) x ∧
            t.length = set s.length x ((span s (x :: xs) - 131072) % 256)) ∧
          ((span s (x :: xs) - 131072) % 256 ≤ 24 → ms = pre ∧ t.length = s.length)) := by
  obtain ⟨s1, hins, hd1, hl1⟩ := insert_block_into_freelist_spec h ha ha0 han
    (by omega : ns.length < fuel)
  have hlen1 : s1.length = s.length := hl1.1
  have hb1 : Bounded s1 (ns.orderedInsert (fun x y => x ≤ y) a) := by
    intro x hx
    rw [hlen1]
    exact hb x (by simpa [List.mem_orderedInsert] using hx)
  have hlenins : (ns.orderedInsert (fun x y => x ≤ y) a).length = ns.length + 1 :=
    List.orderedInsert_length _ _ _
  obtain ⟨k, t1, ms, hcalc, hdm, hfr, hk, hle, hgt⟩ := calculate_decreases_spec hd1 hb1
    (by rw [hlenins]; exact hcap) (by rw [hlenins]; exact hf)
  rw [lastRun_congr hlen1, span_congr hlen1] at hk hle hgt
  obtain ⟨f1, f2, f3, f4, f5, f6⟩ := hl1.toFrame
  obtain ⟨g1, g2, g3, g4, g5, g6⟩ := hfr
  have hmemins : ∀ y, y ∈ ns.orderedInsert (fun x y => x ≤ y) a ↔ y ∈ a :: ns := by
    intro y; simp [List.mem_orderedInsert]
  by_cases hR : 131072 < span s (lastRun s (ns.orderedInsert (fun x y => x ≤ y) a))
  · have hk1 : k = 1 := by rw [hk]; exact if_pos hR
    subst hk1
    obtain ⟨pre, x, xs, e1, e2, e3, e4⟩ := hgt hR
    rw [e2] at e3 e4
    have hxmem : x ∈ a :: ns := (hmemins x).1 (by rw [e1]; simp)
    have hpremem : ∀ y ∈ pre, y ∈ a :: ns := fun y hy =>
      (hmemins y).1 (by rw [e1]; exact List.mem_append_left _ hy)
    -- facts about the state after the reclaim calculation
    have hlenT : ∀ y, y ∉ a :: ns → t1.length y = s.length y := by
      intro y hy
      by_cases hrem : 24 < (span s (x :: xs) - 131072) % 256
      · rw [(e3 hrem).2, hlen1]
        exact set_ne _ _ (fun e => hy (e ▸ hxmem))
      · rw [(e4 (Nat.le_of_not_lt hrem)).2, hlen1]
    have hmsmem : ∀ y ∈ ms, y ∈ a :: ns := by
      intro y hy
      by_cases hrem : 24 < (span s (x :: xs) - 131072) % 256
      · rw [(e3 hrem).1, List.mem_orderedInsert] at hy
        rcases hy with rfl | hy
        · exact hxmem
        · exact hpremem y hy
      · rw [(e4 (Nat.le_of_not_lt hrem)).1] at hy
        exact hpremem y hy
    have hshape : ∀ t : Heap, t.length = t1.length →
        ∃ pre x xs, ns.orderedInsert (fun x y => x ≤ y) a = pre ++ x :: xs ∧
          lastRun s (ns.orderedInsert (fun x y => x ≤ y) a) = x :: xs ∧
          (24 < (span s (x :: xs) - 131072) % 256 →
            ms = pre.orderedInsert (fun a b => a ≤ b) x ∧
            t.length = set s.length x ((span s (x :: xs) - 131072) % 256)) ∧
          ((span s (x :: xs) - 131072) % 256 ≤ 24 → ms = pre ∧ t.length = s.length) := by
      intro t ht
      refine ⟨pre, x, xs, e1, e2, fun hrem => ?_, fun hrem => ?_⟩
      · exact ⟨(e3 hrem).1, by rw [ht, (e3 hrem).2, hlen1]⟩
      · exact ⟨(e4 hrem).1, by rw [ht, (e4 hrem).2, hlen1]⟩
    by_cases hsh : s.osFloor + 131072 ≤ s.osBreak
    · obtain ⟨t, hfree, q1, q2, q3, q4, q5, q6, q7, q8, q9, q10⟩ := HmmFree_shrink hins hcalc
        (by rw [g5, f5, g4, f4]; exact hsh) (by rw [g5, f5]; exact hfl)
      refine ⟨t, ms, hfree, hdm.congr q1 q2 q3, q5.trans (g1.trans f1),
        q6.trans (g3.trans f3), q7.trans (g5.trans f5), q8.trans (g6.trans f6),
        fun y hy => by rw [q4]; exact hlenT y hy, hmsmem,
        fun hle' => absurd hR (Nat.not_lt.2 hle'), fun hor => ?_, fun _ => ?_⟩
      · rcases hor with h1 | h1
        · exact absurd hR (Nat.not_lt.2 h1)
        · exact absurd hsh h1
      · exact ⟨fun _ => ⟨by rw [q10, g4, f4], by rw [q9, g4, f4]⟩, hshape t q4⟩
    · have hfree := HmmFree_refused hins hcalc (by rw [g5, f5, g4, f4]; exact hsh)
      refine ⟨t1, ms, hfree, hdm, g1.trans f1, g3.trans f3, g5.trans f5, g6.trans f6,
        hlenT, hmsmem, fun hle' => absurd hR (Nat.not_lt.2 hle'),
        fun _ => ⟨g2.trans f2, g4.trans f4⟩, fun _ => ?_⟩
      exact ⟨fun h1 => absurd h1 hsh, hshape t1 rfl⟩
  · have hk0 : k = 0 := by rw [hk]; exact if_neg hR
    subst hk0
    obtain ⟨e1, e2⟩ := hle (Nat.le_of_not_lt hR)
    have hfree := HmmFree_keep hins hcalc
    subst e1 e2
    exact ⟨t1, _, hfree, hd1, f1, f3, f5, f6, fun y _ => by rw [hlen1],
      fun y hy => (hmemins y).1 hy, fun _ => ⟨rfl, hlen1⟩, fun _ => ⟨f2, f4⟩,
      fun hlt => absurd hlt hR⟩

/-! ## Reclaim law -/

theorem Run.observe_some {α : Type} {r : Run α} {f : α → List Nat} {l : List Nat}
    (h : r.observe f = some l) : ∃ x, r = Except.ok x ∧ f x = l := by
  cases r with
  | error e => simp [Run.observe] at h
  | ok x => exact ⟨x, rfl, by simpa [Run.observe] using h⟩

theorem bind_ok_elim {α β : Type} {r : Run α} {f : α → Run β} {y : β}
    (h : (r >>= f) = Except.ok y) : ∃ x, r = Except.ok x ∧ f x = Except.ok y := by
  cases r with
  | error e => simp [bind, Except.bind] at h
  | ok x => exact ⟨x, rfl, h⟩

theorem pageHeap_dll : DLL pageHeap [4096] :=
  ⟨⟨rfl, by decide, rfl, rfl⟩, by decide⟩

/-- C4 (counterexample): after `a = HmmAlloc(131072)`, `b = HmmAlloc(73680)`
and the insertion of `a` by `HmmFree(a)`, the free list is the single node
4096 of length 131072, so the last contiguous run has span `R = 131072`;
`calculate_decreases_in_program_break` returns 0 although
`floor(R / 131072) = 1`. -/
theorem calculate_decreases_exact_chunk :
    ∃ s k t, exactChunkScenario = Except.ok (s, k, t) ∧ DLL s [4096] ∧
      span s (lastRun s [4096]) = 131072 ∧ k = 0 ∧
      span s (lastRun s [4096]) / 131072 = 1 := by
  have hobs : exactChunkScenario.observe (fun q =>
      [q.1.FreeListHead, q.1.prev 4096, q.1.next 4096, q.1.length 4096, q.2.1])
      = some [4096, 0, 0, 131072, 0] := by decide
  obtain ⟨⟨s, k, t⟩, hq, hl⟩ := Run.observe_some hobs
  simp only [List.cons.injEq, and_true] at hl
  obtain ⟨h1, h2, h3, h4, h5⟩ := hl
  have hspan : span s (lastRun s [4096]) = 131072 := by
    simp [lastRun, runStep, span, h4]
  exact ⟨s, k, t, hq, ⟨⟨h1, by decide, h2, h3⟩, by decide⟩, hspan, h5, by rw [hspan]⟩

/-- C4 (amended): on a well-formed, bounded free list of fewer than 10000
nodes whose last physically contiguous run has span `R ≤ 262144`,
`calculate_decreases_in_program_break` returns `floor((R - 1) / 131072)`,
that is 1 when `131072 < R` and 0 otherwise; and when that list is the one
`HmmFree` has just inserted its block into (and the OS allows the break to
move down), `HmmFree` lowers `programBreak` by that many 128 KiB chunks. -/
theorem calculate_decreases_chunks (s : Heap) (ns : List Nat) (fuel : Nat)
    (h : DLL s ns) (hb : Bounded s ns) (hcap : ns.length < ARRAY_CAP) (hf : ns.length < fuel)
    (hR : span s (lastRun s ns) ≤ 262144) :
    ∃ k t1, calculate_decreases_in_program_break fuel s = Except.ok (k, t1) ∧
      k = (span s (lastRun s ns) - 1) / 131072 ∧
      k = (if 131072 < span s (lastRun s ns) then 1 else 0) ∧
      ∀ s0 p, insert_block_into_freelist fuel s0 p = Except.ok s → 0 < s.osFloor →
        s.osFloor + 131072 ≤ s.osBreak → s.programBreak = s.osBreak →
        ∃ t, HmmFree fuel s0 p = Except.ok t ∧ t.programBreak + k * 131072 = s.programBreak := by
  obtain ⟨k, t1, ms, hcalc, _, hfr, hk, _, _⟩ := calculate_decreases_spec h hb hcap hf
  obtain ⟨g1, g2, g3, g4, g5, g6⟩ := hfr
  refine ⟨k, t1, hcalc, ?_, hk, ?_⟩
  · rw [hk]
    by_cases h1 : 131072 < span s (lastRun s ns)
    · rw [if_pos h1]; omega
    · rw [if_neg h1]; omega
  · intro s0 p hins hfl hos hpb
    by_cases h1 : 131072 < span s (lastRun s ns)
    · rw [if_pos h1] at hk
      subst hk
      obtain ⟨t, hfree, _, _, _, _, _, _, _, _, _, q10⟩ := HmmFree_shrink hins hcalc
        (by rw [g5, g4]; exact hos) (by rw [g5]; exact hfl)
      refine ⟨t, hfree, ?_⟩
      rw [q10, g4, hpb]
      omega
    · rw [if_neg h1] at hk
      subst hk
      exact ⟨t1, HmmFree_keep hins hcalc, by rw [g2]; omega⟩

theorem calculate_decreases_chunks_witness :
    ∃ k t1, calculate_decreases_in_program_break 2 pageHeap = Except.ok (k, t1) ∧
      k = (span pageHeap (lastRun pageHeap [4096]) - 1) / 131072 ∧
      k = (if 131072 < span pageHeap (lastRun pageHeap [4096]) then 1 else 0) ∧
      ∀ s0 p, insert_block_into_freelist 2 s0 p = Except.ok pageHeap → 0 < pageHeap.osFloor →
        pageHeap.osFloor + 131072 ≤ pageHeap.osBreak →
        pageHeap.programBreak = pageHeap.osBreak →
        ∃ t, HmmFree 2 s0 p = Except.ok t ∧
          t.programBreak + k * 131072 = pageHeap.programBreak :=
  calculate_decreases_chunks pageHeap [4096] 2 pageHeap_dll (by unfold Bounded; decide)
    (by decide) (by decide) (by decide)

/-! ## Scenarios evaluated on the code -/

theorem pure_ok_inj {α : Type} {x y : α} (h : (pure x : Run α) = Except.ok y) : x = y := by
  injection h

/-- C1 (counterexample): after `HmmAlloc(24)`, `b = HmmAlloc(48)`,
`HmmAlloc(24)` and `HmmFree(b)` the free list is `[4144, 4264]` with
`length 4144 = 48`; `HmmAlloc(40)` then succeeds with the block at 4144,
consumed whole (48 - 40 = 8 ≤ 24), and the header 24 bytes before the
returned pointer holds 48, not `max(round_up(40, 8), 24) = 40`. -/
theorem HmmAlloc_whole_block_header :
    ∃ s p t, wholeBlockScenario = Except.ok (s, p, t) ∧
      HmmAlloc 100 0 s 40 = Except.ok (p, t) ∧ DLL s [4144, 4264] ∧ s.length 4144 = 48 ∧
      p = 4168 ∧ t.length (psub p 24) = 48 ∧ max (roundUp8 40) 24 = 40 := by
  have hobs : wholeBlockScenario.observe (fun q =>
      [q.1.FreeListHead, q.1.prev 4144, q.1.next 4144, q.1.prev 4264, q.1.next 4264,
       q.1.length 4144, q.2.1, q.2.2.length (psub q.2.1 24)])
      = some [4144, 0, 4264, 4144, 0, 48, 4168, 48] := by decide
  obtain ⟨⟨s, p, t⟩, hq, hl⟩ := Run.observe_some hobs
  simp only [List.cons.injEq, and_true] at hl
  obtain ⟨h1, h2, h3, h4, h5, h6, h7, h8⟩ := hl
  refine ⟨s, p, t, hq, ?_, ⟨⟨h1, by decide, h2, h3, by decide, h4, h5⟩, by decide⟩, h6, h7,
    h8, by decide⟩
  unfold wholeBlockScenario at hq
  obtain ⟨a, _, hq⟩ := bind_ok_elim hq
  obtain ⟨b, _, hq⟩ := bind_ok_elim hq
  obtain ⟨c, _, hq⟩ := bind_ok_elim hq
  obtain ⟨s', _, hq⟩ := bind_ok_elim hq
  obtain ⟨r, hr, hq⟩ := bind_ok_elim hq
  have := pure_ok_inj hq
  simp only [Prod.mk.injEq] at this
  obtain ⟨e1, e2, e3⟩ := this
  subst e1
  rw [hr, ← e2, ← e3]

/-- C5 (failing input): `a = HmmAlloc(140000)`, `b = HmmAlloc(64752)`,
`HmmFree(a)`.  Before the free the break is at 208896 and the live block `b`
occupies `[144120, 208896)`.  The run counted by the reclaim calculation is
the single node `a - 24 = 4096` of length 140000, which ends at 144120 and
not at the break; `HmmFree` nevertheless lowers `programBreak` (and the OS
break) by 131072 to 77824, so the released range `[77824, 208896)` contains
the whole live block `b`. -/
theorem HmmFree_releases_live_block :
    ∃ a b s t, reclaimScenario = Except.ok (a, b, s, t) ∧ HmmFree 100 s a = Except.ok t ∧
      a = 4120 ∧ b = 144144 ∧ s.programBreak = 208896 ∧
      s.length (psub a 24) = 140000 ∧ psub a 24 + 24 + s.length (psub a 24) = 144120 ∧
      s.length (psub b 24) = 64752 ∧ t.length (psub b 24) = 64752 ∧
      t.programBreak = 77824 ∧ t.osBreak = 77824 ∧
      t.programBreak ≤ psub b 24 ∧ psub b 24 + 24 + t.length (psub b 24) ≤ s.programBreak := by
  have hobs : reclaimScenario.observe (fun q =>
      [q.1, q.2.1, q.2.2.1.programBreak, q.2.2.1.length (psub q.1 24),
       q.2.2.1.length (psub q.2.1 24), q.2.2.2.length (psub q.2.1 24),
       q.2.2.2.programBreak, q.2.2.2.osBreak])
      = some [4120, 144144, 208896, 140000, 64752, 64752, 77824, 77824] := by decide
  obtain ⟨⟨a, b, s, t⟩, hq, hl⟩ := Run.observe_some hobs
  simp only [List.cons.injEq, and_true] at hl
  obtain ⟨h1, h2, h3, h4, h5, h6, h7, h8⟩ := hl
  have hfree : HmmFree 100 s a = Except.ok t := by
    unfold reclaimScenario at hq
    obtain ⟨a', _, hq⟩ := bind_ok_elim hq
    obtain ⟨b', _, hq⟩ := bind_ok_elim hq
    obtain ⟨t', ht, hq⟩ := bind_ok_elim hq
    have := pure_ok_inj hq
    simp only [Prod.mk.injEq] at this
    obtain ⟨e1, e2, e3, e4⟩ := this
    rw [← e1, ← e3, ← e4]; exact ht
  subst h1 h2
  refine ⟨_, _, s, t, hq, hfree, rfl, rfl, h3, h4, ?_, h5, h6, h7, h8, ?_, ?_⟩
  · rw [h4]; decide
  · rw [h7]; decide
  · rw [h6, h3]; decide

/-- C2 (failing input): `a = HmmAlloc(140000)`, `b = HmmAlloc(64752)`,
`HmmFree(a)`, `c = HmmAlloc(1000)`.  In the final state `b` is still live
(header 144120, length 64752) and the free list is `[4096, 78848]` with
`length 78848 = 203752`: the free node `[78848, 282624)` and the live block
`[144120, 208896)` overlap. -/
theorem live_block_overlaps_free_node :
    ∃ b c t, overlapScenario = Except.ok (b, c, t) ∧ b = 144144 ∧ c = 77848 ∧
      DLL t [4096, 78848] ∧ t.length 78848 = 203752 ∧ t.length (psub b 24) = 64752 ∧
      t.length (psub c 24) = 1000 ∧
      78848 < psub b 24 + 24 + t.length (psub b 24) ∧
      psub b 24 < 78848 + 24 + t.length 78848 := by
  have hobs : overlapScenario.observe (fun q =>
      [q.1, q.2.1, q.2.2.FreeListHead, q.2.2.prev 4096, q.2.2.next 4096, q.2.2.prev 78848,
       q.2.2.next 78848, q.2.2.length 78848, q.2.2.length (psub q.1 24),
       q.2.2.length (psub q.2.1 24)])
      = some [144144, 77848, 4096, 0, 78848, 4096, 0, 203752, 64752, 1000] := by decide
  obtain ⟨⟨b, c, t⟩, hq, hl⟩ := Run.observe_some hobs
  simp only [List.cons.injEq, and_true] at hl
  obtain ⟨h1, h2, h3, h4, h5, h6, h7, h8, h9, h10⟩ := hl
  subst h1 h2
  refine ⟨_, _, t, hq, rfl, rfl, ⟨⟨h3, by decide, h4, h5, by decide, h6, h7⟩, by decide⟩,
    h8, h9, h10, ?_, ?_⟩
  · rw [h9]; decide
  · rw [h8]; decide

/-- C9 (counterexample): scenario S4.  After `p = HmmAlloc(40)` the header at
`p - 24` holds 40 and `find_best_fit_block(80 - 40)` returns the block whose
payload begins exactly at `p + 40 + 24`; `HmmRealloc(p, 80)` returns `p`, but
the header at `p - 24` afterwards holds `80 + 24 = 104`, not 80. -/
theorem HmmRealloc_grow_header :
    ∃ p s q s1 t, HmmAlloc 100 0 startHeap 40 = Except.ok (p, s) ∧
      s.length (psub p 24) = 40 ∧
      find_best_fit_block 100 s (80 - 40) = Except.ok (q, s1) ∧ q = p + 40 + 24 ∧
      HmmRealloc 100 0 s p 80 = Except.ok (p, t) ∧ t.length (psub p 24) = 104 := by
  have hobs : growInPlaceScenario.observe (fun q =>
      [q.1.1, q.1.2.length (psub q.1.1 24), q.2.1.1, q.2.2.1,
       q.2.2.2.length (psub q.1.1 24)])
      = some [4120, 40, 4184, 4120, 104] := by decide
  obtain ⟨⟨⟨p, s⟩, ⟨q, s1⟩, ⟨r, t⟩⟩, hq, hl⟩ := Run.observe_some hobs
  simp only [List.cons.injEq, and_true] at hl
  obtain ⟨h1, h2, h3, h4, h5⟩ := hl
  unfold growInPlaceScenario at hq
  obtain ⟨a', ha, hq⟩ := bind_ok_elim hq
  obtain ⟨f', hf, hq⟩ := bind_ok_elim hq
  obtain ⟨r', hr, hq⟩ := bind_ok_elim hq
  have := pure_ok_inj hq
  simp only [Prod.mk.injEq] at this
  obtain ⟨e1, e2, e3⟩ := this
  subst e1 e2 e3
  simp only at h1 h2 h3 h4 h5 ha hf hr
  refine ⟨p, s, q, s1, t, ha, h2, hf, by rw [h3, h1], ?_, h5⟩
  rw [hr]
  have : r = p := by rw [h4, h1]
  rw [this]

/-- C10 (counterexample): in a process whose OS limit leaves room for two
more pages only after the first allocation took one, `HmmAlloc(500000)` needs
three pages: the first grow of the call succeeds, the next one fails,
`HmmAlloc` returns null, and the state is not the one before the call:
`programBreak` went from 208896 to 413696 and the free list from `[4224]` to
`[4224, 208896]`. -/
theorem HmmAlloc_partial_grow :
    ∃ s p t, partialGrowScenario = Except.ok (s, p, t) ∧
      HmmAlloc 100 0 s 500000 = Except.ok (p, t) ∧ p = 0 ∧
      s.programBreak = 208896 ∧ DLL s [4224] ∧
      t.programBreak = 413696 ∧ DLL t [4224, 208896] := by
  have hobs : partialGrowScenario.observe (fun q =>
      [q.2.1, q.1.programBreak, q.1.FreeListHead, q.1.prev 4224, q.1.next 4224,
       q.2.2.programBreak, q.2.2.FreeListHead, q.2.2.prev 4224, q.2.2.next 4224,
       q.2.2.prev 208896, q.2.2.next 208896])
      = some [0, 208896, 4224, 0, 0, 413696, 4224, 0, 208896, 4224, 0] := by decide
  obtain ⟨⟨s, p, t⟩, hq, hl⟩ := Run.observe_some hobs
  simp only [List.cons.injEq, and_true] at hl
  obtain ⟨h1, h2, h3, h4, h5, h6, h7, h8, h9, h10, h11⟩ := hl
  refine ⟨s, p, t, hq, ?_, h1, h2, ⟨⟨h3, by decide, h4, h5⟩, by decide⟩, h6,
    ⟨⟨h7, by decide, h8, h9, by decide, h10, h11⟩, by decide⟩⟩
  unfold partialGrowScenario at hq
  obtain ⟨a, _, hq⟩ := bind_ok_elim hq
  obtain ⟨r, hr, hq⟩ := bind_ok_elim hq
  have := pure_ok_inj hq
  simp only [Prod.mk.injEq] at this
  obtain ⟨e1, e2, e3⟩ := this
  rw [← e1, ← e2, ← e3]; exact hr

/-! ## Realloc shrink -/

theorem roundUp8_max (n : Nat) : roundUp8 (max n 24) = max (roundUp8 n) 24 := by
  unfold roundUp8
  rcases Nat.le_total n 24 with h | h
  · rw [Nat.max_eq_right h]; omega
  · rw [Nat.max_eq_left h]; omega

theorem roundUp8_of_dvd {n : Nat} (h : n % 8 = 0) : roundUp8 n = n := by
  unfold roundUp8; omega

theorem roundUp8_mod (n : Nat) : roundUp8 n % 8 = 0 := by
  unfold roundUp8; omega

theorem roundUp8_le {n m : Nat} (h : n ≤ m) (hm : m % 8 = 0) : roundUp8 n ≤ m := by
  unfold roundUp8; omega

theorem DLL.set_length {s : Heap} {ns : List Nat} (h : DLL s ns) (f : Nat → Nat) :
    DLL { s with length := f } ns := h.congr rfl rfl rfl

/-- C8: for a live payload pointer `p` (header at `p - 24`, block disjoint
from every free node, length `old ≥ 24` a multiple of 8) in a state with a
well-formed free list, and `0 < new ≤ old`, writing
`r = max(round_up(new, 8), 24)`: `HmmRealloc(p, new)` returns `p`; if
`old - r > 24` the header at `p - 24` afterwards holds `r`, and if
`old - r ≤ 24` the header is left equal to `old`. -/
theorem HmmRealloc_shrink (s : Heap) (ns : List Nat) (p new fuel stale : Nat)
    (h : DLL s ns) (hb : Bounded s ns) (hp : 24 < p)
    (hend : p + s.length (psub p 24) < 18446744073709551616)
    (hlive : ∀ x ∈ ns, x + 24 + s.length x ≤ p - 24 ∨ p + s.length (psub p 24) ≤ x)
    (h8 : s.length (psub p 24) % 8 = 0) (h24 : 24 ≤ s.length (psub p 24))
    (hnew : 0 < new) (hle : new ≤ s.length (psub p 24))
    (hcap : ns.length + 1 < ARRAY_CAP) (hf : ns.length + 1 < fuel) (hfl : 0 < s.osFloor) :
    ∃ t, HmmRealloc fuel stale s p new = Except.ok (p, t) ∧
      (24 < s.length (psub p 24) - max (roundUp8 new) 24 →
        t.length (psub p 24) = max (roundUp8 new) 24) ∧
      (s.length (psub p 24) - max (roundUp8 new) 24 ≤ 24 →
        t.length (psub p 24) = s.length (psub p 24)) := by
  have hpp : psub p 24 = p - 24 := psub_eq (by omega) (by omega)
  have hnew0 : new ≠ 0 := by omega
  have hp0 : psub p 24 ≠ 0 := by rw [hpp]; omega
  have hgt : ¬ new > s.length (psub p 24) := by omega
  have hmax : (if new < 24 then 24 else new) = max new 24 := by
    split <;> omega
  have hround : Nat.land (psub (padd (max new 24) word_size) 1) (not64 (psub word_size 1))
      = max (roundUp8 new) 24 := by
    rw [round_eq (by omega), roundUp8_max]
  have hr8 : max (roundUp8 new) 24 % 8 = 0 := by
    rw [← roundUp8_max]; exact roundUp8_mod _
  have hrle : max (roundUp8 new) 24 ≤ s.length (psub p 24) := by
    rw [← roundUp8_max]; exact roundUp8_le (by omega) h8
  generalize hr : max (roundUp8 new) 24 = r at hround hr8 hrle ⊢
  generalize hold : s.length (psub p 24) = old at *
  have hfs : psub old r = old - r := psub_eq hrle (by omega)
  by_cases hsmall : old - r ≤ 24
  · refine ⟨s, ?_, fun hc => absurd hc (by omega), fun _ => hold⟩
    simp only [HmmRealloc, hnew0, if_false, hp0, hold, hgt, hmax, hround, hfs, hsmall, if_true]
    rfl
  · have hround2 : Nat.land (psub (padd (old - r) word_size) 1) (not64 (psub word_size 1))
        = old - r := by
      rw [round_eq (by omega), roundUp8_of_dvd (by omega)]
    have htail : padd p r = p + r := padd_eq (by omega)
    have hfs2 : psub (old - r) 24 = old - r - 24 := psub_eq (by omega) (by omega)
    have hpay : padd (p + r) 24 = p + r + 24 := padd_eq (by omega)
    have ha : psub (p + r + 24) NODE = p + r := by
      unfold NODE; rw [psub_eq (by omega) (by omega)]; omega
    have han : p + r ∉ ns := by
      intro hx
      rcases hlive _ hx with h1 | h1 <;> omega
    have hns1 : ∀ x ∈ ns, x ≠ p - 24 ∧ x ≠ p + r := by
      intro x hx
      rcases hlive _ hx with h1 | h1 <;> constructor <;> omega
    obtain ⟨s2, hs2⟩ : ∃ s2 : Heap,
        s2 = { s with length := set (set s.length (psub p 24) r) (p + r) (old - r - 24) } :=
      ⟨_, rfl⟩
    have hlen2 : s2.length = set (set s.length (psub p 24) r) (p + r) (old - r - 24) := by
      rw [hs2]
    have hd2 : DLL s2 ns := by rw [hs2]; exact h.set_length _
    have hfl2 : 0 < s2.osFloor := by rw [hs2]; exact hfl
    have hb2 : Bounded s2 ((p + r) :: ns) := by
      intro x hx
      rw [hlen2]
      rcases List.mem_cons.1 hx with rfl | hx
      · rw [set_eq]; omega
      · obtain ⟨n1, n2⟩ := hns1 x hx
        rw [set_ne _ _ n2, set_ne _ _ (by rw [hpp]; exact n1)]
        exact hb x hx
    obtain ⟨t, ms, hfree, -, -, -, -, -, hlen, -⟩ := HmmFree_spec hd2 ha (by omega) han hb2
      hcap hf hfl2
    refine ⟨t, ?_, fun _ => ?_, fun hc => absurd hc hsmall⟩
    · rw [hs2] at hfree
      simp only [HmmRealloc, hnew0, if_false, hp0, hold, hgt, hmax, hround, hfs, hsmall,
        hround2, htail, hfs2, hpay, bind, Except.bind, hfree]
      rfl
    · have hnot : psub p 24 ∉ (p + r) :: ns := by
        intro hx
        rcases List.mem_cons.1 hx with e | hx
        · rw [hpp] at e; omega
        · exact (hns1 _ hx).1 hpp
      have hne : psub p 24 ≠ p + r := by rw [hpp]; omega
      rw [hlen _ hnot, hlen2, set_ne _ _ hne, set_eq]

theorem liveHeap_dll : DLL liveHeap [8192] :=
  ⟨⟨rfl, by decide, rfl, rfl⟩, by decide⟩

theorem HmmRealloc_shrink_witness :
    ∃ t, HmmRealloc 3 0 liveHeap 4120 100 = Except.ok (4120, t) ∧
      (24 < liveHeap.length (psub 4120 24) - max (roundUp8 100) 24 →
        t.length (psub 4120 24) = max (roundUp8 100) 24) ∧
      (liveHeap.length (psub 4120 24) - max (roundUp8 100) 24 ≤ 24 →
        t.length (psub 4120 24) = liveHeap.length (psub 4120 24)) :=
  HmmRealloc_shrink liveHeap [8192] 4120 100 3 0 liveHeap_dll (by unfold Bounded; decide)
    (by decide) (by decide) (by decide) (by decide) (by decide) (by decide) (by decide)
    (by decide) (by decide) (by decide)

/-! ## Single-block search -/

theorem BestInv.step {s : Heap} {req cur : Nat} {vis : List Nat} {st : BestFit}
    (h : BestInv s req vis st) :
    BestInv s req (vis ++ [cur])
      (if s.length cur ≥ req ∧ st.foundMinBlock = 0 then
        { foundMinBlock := 1, minBlockSize := s.length cur, bestFitBlock := cur }
      else if st.foundMinBlock = 1 ∧ s.length cur < st.minBlockSize
          ∧ s.length cur ≥ req then
        { st with minBlockSize := s.length cur, bestFitBlock := cur }
      else st) := by
  obtain ⟨h01, h0, h1⟩ := h
  by_cases c1 : s.length cur ≥ req ∧ st.foundMinBlock = 0
  · rw [if_pos c1]
    refine ⟨Or.inr rfl, fun e => absurd e Nat.one_ne_zero, fun _ => ⟨rfl, c1.1, vis, [], rfl, ?_,
      by simp⟩⟩
    intro x hx hreq
    exact absurd (h0 c1.2 x hx) (by omega)
  · rw [if_neg c1]
    by_cases c2 : st.foundMinBlock = 1 ∧ s.length cur < st.minBlockSize ∧ s.length cur ≥ req
    · rw [if_pos c2]
      obtain ⟨e1, e2, pre, post, e3, e4, e5⟩ := h1 c2.1
      refine ⟨Or.inr c2.1, fun e => absurd e (by rw [c2.1]; decide), fun _ => ⟨rfl, c2.2.2,
        vis, [], rfl, ?_, by simp⟩⟩
      intro x hx hreq
      show s.length cur < s.length x
      rw [e3] at hx
      rcases List.mem_append.1 hx with hx | hx
      · have := e4 x hx hreq; omega
      · rcases List.mem_cons.1 hx with rfl | hx
        · omega
        · have := e5 x hx hreq; omega
    · rw [if_neg c2]
      refine ⟨h01, fun e x hx => ?_, fun e => ?_⟩
      · rcases List.mem_append.1 hx with hx | hx
        · exact h0 e x hx
        · simp at hx; subst hx
          by_contra hc
          exact c1 ⟨by omega, e⟩
      · obtain ⟨e1, e2, pre, post, e3, e4, e5⟩ := h1 e
        refine ⟨e1, e2, pre, post ++ [cur], by rw [e3]; simp, e4, ?_⟩
        intro x hx hreq
        rcases List.mem_append.1 hx with hx | hx
        · exact e5 x hx hreq
        · simp at hx; subst hx
          by_contra hc
          exact c2 ⟨e, by omega, hreq⟩

theorem bestFitScan_spec {s : Heap} {req : Nat} : ∀ (rest vis : List Nat) (fuel p cur : Nat)
    (st : BestFit), Seg s p cur rest 0 → BestInv s req vis st → rest.length < fuel →
    ∃ st', bestFitScan fuel s req cur st = Except.ok st' ∧ BestInv s req (vis ++ rest) st'
  | [], vis, fuel, p, cur, st, hseg, hinv, hf => by
    obtain ⟨f, rfl⟩ : ∃ f, fuel = f + 1 := ⟨fuel - 1, by omega⟩
    have hc : cur = 0 := hseg
    subst hc
    exact ⟨st, by simp [bestFitScan]; rfl, by simpa using hinv⟩
  | c :: r, vis, fuel, p, cur, st, hseg, hinv, hf => by
    obtain ⟨f, rfl⟩ : ∃ f, fuel = f + 1 := ⟨fuel - 1, by omega⟩
    obtain ⟨hc, hc0, _, hr⟩ := hseg
    subst hc
    have hstep := @BestInv.step s req cur vis st hinv
    have hrec : ∀ st1, BestInv s req (vis ++ [cur]) st1 →
        ∃ st', bestFitScan f s req (s.next cur) st1 = Except.ok st' ∧
          BestInv s req (vis ++ cur :: r) st' := by
      intro st1 h1
      have := bestFitScan_spec r (vis ++ [cur]) f cur (s.next cur) st1 hr h1 (by simpa using hf)
      simpa using this
    by_cases c1 : s.length cur ≥ req ∧ st.foundMinBlock = 0
    · rw [if_pos c1] at hstep
      obtain ⟨st', h1, h2⟩ := hrec _ hstep
      refine ⟨st', ?_, h2⟩
      simp only [bestFitScan]
      rw [if_pos hc0, if_pos c1]
      exact h1
    · rw [if_neg c1] at hstep
      by_cases c2 : st.foundMinBlock = 1 ∧ s.length cur < st.minBlockSize
          ∧ s.length cur ≥ req
      · rw [if_pos c2] at hstep
        obtain ⟨st', h1, h2⟩ := hrec _ hstep
        refine ⟨st', ?_, h2⟩
        simp only [bestFitScan]
        rw [if_pos hc0, if_neg c1, if_pos c2]
        exact h1
      · rw [if_neg c2] at hstep
        obtain ⟨st', h1, h2⟩ := hrec _ hstep
        refine ⟨st', ?_, h2⟩
        simp only [bestFitScan]
        rw [if_pos hc0, if_neg c1, if_neg c2]
        exact h1

/-! ## Fragment search -/

theorem suffix_getLast? {l₁ l₂ : List Nat} (h : l₁ <:+ l₂) (hne : l₁ ≠ []) :
    l₁.getLast? = l₂.getLast? := by
  obtain ⟨p, rfl⟩ := h
  rw [List.getLast?_append_of_ne_nil _ hne]

theorem FragInv.count_le {s : Heap} {req : Nat} {ns vis : List Nat} {st : FragScan}
    (h : FragInv s req ns vis st) : st.fragmentCount ≤ vis.length := by
  have := h.1.length_le
  simpa using this

theorem FragCtx.cur_mem {s : Heap} {ns vis : List Nat} {cur : Nat} {rest : List Nat}
    (c : FragCtx s ns vis cur rest) : cur ∈ ns := by
  rw [c.split]; simp

theorem FragCtx.cur_ne_head {s : Heap} {ns vis : List Nat} {cur : Nat} {rest : List Nat}
    (c : FragCtx s ns vis cur rest) (hv : vis ≠ []) : ∀ h, ns.head? = some h → cur ≠ h := by
  intro h hh e
  have hnd := c.nodup
  rw [c.split] at hnd hh
  cases vis with
  | nil => exact hv rfl
  | cons v vs =>
    simp at hh
    subst hh
    have : cur ∈ v :: vs := by rw [e]; simp
    exact (List.nodup_append.1 hnd).2.2 this (List.mem_cons_self _ _)

theorem FragCtx.len {s : Heap} {ns vis : List Nat} {cur : Nat} {rest : List Nat}
    (c : FragCtx s ns vis cur rest) : vis.length + 1 ≤ 255 := by
  have := c.short
  rw [c.split] at this
  simp at this
  omega

/-- The run-extension part of one iteration keeps the invariant. -/
theorem fragmentExtend_spec {s : Heap} {req : Nat} {ns vis : List Nat} {cur : Nat}
    {rest : List Nat} {st : FragScan} (c : FragCtx s ns vis cur rest)
    (h : FragInv s req ns vis st) :
    ∃ st1, fragmentExtend s cur st = Except.ok st1 ∧ FragInv s req ns (vis ++ [cur]) st1 ∧
      st1.minFragmentSize = st.minFragmentSize ∧
      st1.bestFragmentedBlocks = st.bestFragmentedBlocks ∧ 1 ≤ st1.fragmentCount ∧
      ((List.range st.fragmentCount).map st.fragmentedBlocks = lastRun s vis →
        (List.range st1.fragmentCount).map st1.fragmentedBlocks
          = lastRun s (vis ++ [cur])) := by
  obtain ⟨hsuf, hcon, hsize, hF, hC, hD, hE, hrec⟩ := h
  have hcle : st.fragmentCount ≤ vis.length := by simpa using hsuf.length_le
  have hlen := c.len
  have hbc : cur + 24 + s.length cur < 18446744073709551616 := c.bounded cur c.cur_mem
  have hsingle : (List.range 1).map (set st.fragmentedBlocks 0 cur) = [cur] := by
    simp [set, List.range_succ]
  have hF' : ∀ (i : Nat), i ≤ vis.length → ∀ j, (vis ++ [cur]).length < j →
      set st.fragmentedBlocks i cur j = 0 := by
    intro i hi j hj
    simp at hj
    rw [set_ne _ _ (by omega)]
    exact hF j (by omega)
  have hC' : ∀ (i : Nat) j, set st.fragmentedBlocks i cur j ≠ 0 →
      set st.fragmentedBlocks i cur j ∈ ns := by
    intro i j hj
    by_cases e : j = i
    · subst e; rw [set_eq]; exact c.cur_mem
    · rw [set_ne _ _ e] at hj ⊢; exact hC j hj
  have hD0 : ∀ j, 1 ≤ j → ∀ h, ns.head? = some h → set st.fragmentedBlocks 0 cur j ≠ h := by
    intro j hj h hh
    rw [set_ne _ _ (by omega)]
    exact hD j hj h hh
  by_cases h0 : st.fragmentCount = 0
  · -- start of a run
    have hrun : (List.range st.fragmentCount).map st.fragmentedBlocks = [] := by simp [h0]
    have hsz : st.currentFreeSize = 0 := by rw [hsize, hrun]; rfl
    refine ⟨{ st with currentFreeSize := padd st.currentFreeSize (s.length cur),
                      fragmentedBlocks := set st.fragmentedBlocks st.fragmentCount cur,
                      fragmentCount := (st.fragmentCount + 1) % 256 }, ?_, ?_, rfl, rfl, ?_, ?_⟩
    · simp only [fragmentExtend, h0, if_true]; rfl
    · refine ⟨?_, ?_, ?_, ?_, ?_, ?_, ?_, hrec⟩
      · show (List.range ((st.fragmentCount + 1) % 256)).map
          (set st.fragmentedBlocks st.fragmentCount cur) <:+ _
        rw [h0, show ((0 + 1) % 256) = 1 from rfl, hsingle]
        exact List.suffix_append _ _
      · show Contig s ((List.range ((st.fragmentCount + 1) % 256)).map
          (set st.fragmentedBlocks st.fragmentCount cur))
        rw [h0, show ((0 + 1) % 256) = 1 from rfl, hsingle]
        exact List.chain'_singleton _
      · show padd st.currentFreeSize (s.length cur) = span s ((List.range
          ((st.fragmentCount + 1) % 256)).map (set st.fragmentedBlocks st.fragmentCount cur))
        rw [h0, show ((0 + 1) % 256) = 1 from rfl, hsingle, hsz]
        simp only [span, List.map_nil, List.sum_nil, Nat.add_zero]
        unfold padd; omega
      · exact hF' st.fragmentCount hcle
      · exact hC' _
      · show ∀ j, 1 ≤ j → ∀ h, ns.head? = some h →
          set st.fragmentedBlocks st.fragmentCount cur j ≠ h
        rw [h0]; exact hD0
      · show (st.fragmentCount + 1) % 256 = (vis ++ [cur]).length → ∀ j,
          (st.fragmentCount + 1) % 256 ≤ j → set st.fragmentedBlocks st.fragmentCount cur j = 0
        rw [h0, show ((0 + 1) % 256) = 1 from rfl]
        intro hv j hj
        have hv0 : vis.length = 0 :=
            (by rw [List.length_append, List.length_singleton] at hv; omega)
        rw [set_ne _ _ (by omega)]
        exact hE (by rw [h0, hv0]) j (by omega)
    · show 1 ≤ (st.fragmentCount + 1) % 256
      omega
    · intro hlr
      show (List.range ((st.fragmentCount + 1) % 256)).map
        (set st.fragmentedBlocks st.fragmentCount cur) = _
      rw [h0, show ((0 + 1) % 256) = 1 from rfl, hsingle]
      rw [hrun] at hlr
      have hv : vis = [] := lastRun_eq_nil.1 hlr.symm
      subst hv
      rfl
  · have hrne : (List.range st.fragmentCount).map st.fragmentedBlocks ≠ [] := by
      intro e
      have := congrArg List.length e
      simp at this
      exact h0 this
    have hvne : vis ≠ [] := by
      intro e; subst e
      simp at hcle; exact h0 hcle
    have hl : vis.getLastD 0 = vis.getLast hvne := getLastD_eq_getLast 0 hvne
    have hlmem : vis.getLast hvne ∈ ns := by
      rw [c.split]; exact List.mem_append_left _ (List.getLast_mem hvne)
    have hl0 : vis.getLast hvne ≠ 0 := c.nonzero _ hlmem
    have hbl := c.bounded _ hlmem
    have hp0 : s.prev cur ≠ 0 := by rw [c.prev, hl]; exact hl0
    have hpad : padd (s.prev cur) (padd (s.length (s.prev cur)) NODE)
        = vis.getLast hvne + 24 + s.length (vis.getLast hvne) := by
      rw [c.prev, hl]
      unfold padd NODE; omega
    have hrl : ((List.range st.fragmentCount).map st.fragmentedBlocks).getLast?
        = some (vis.getLast hvne) := by
      rw [suffix_getLast? hsuf hrne, List.getLast?_eq_getLast _ hvne]
    by_cases hadj : cur = vis.getLast hvne + 24 + s.length (vis.getLast hvne)
    · have hmod : (st.fragmentCount + 1) % 256 = st.fragmentCount + 1 :=
        Nat.mod_eq_of_lt (by omega)
      have hrun1 : (List.range (st.fragmentCount + 1)).map
          (set st.fragmentedBlocks st.fragmentCount cur)
          = (List.range st.fragmentCount).map st.fragmentedBlocks ++ [cur] :=
        map_range_snoc _ _ _
      have hcon1 : Contig s ((List.range st.fragmentCount).map st.fragmentedBlocks ++ [cur]) :=
        hcon.snoc hrl hadj
      have hsuf1 : (List.range st.fragmentCount).map st.fragmentedBlocks ++ [cur]
          <:+ vis ++ [cur] := by
        obtain ⟨p, hp⟩ := hsuf
        exact ⟨p, by rw [← List.append_assoc, hp]⟩
      have hsp := span_lt hcon1 (fun x hx => c.bounded x (by
        rw [c.split]
        have := hsuf1.subset hx
        rcases List.mem_append.1 this with h1 | h1
        · exact List.mem_append_left _ h1
        · simp at h1; simp [h1]))
      rw [span_snoc s cur hrne] at hsp
      refine ⟨{ st with
          currentFreeSize := padd st.currentFreeSize (padd (s.length cur) NODE),
          fragmentedBlocks := set st.fragmentedBlocks st.fragmentCount cur,
          fragmentCount := (st.fragmentCount + 1) % 256 }, ?_, ?_, rfl, rfl, ?_, ?_⟩
      · simp only [fragmentExtend, h0, if_false, hp0, hpad]
        rw [if_pos hadj]; rfl
      · refine ⟨?_, ?_, ?_, ?_, ?_, ?_, ?_, hrec⟩
        · show (List.range ((st.fragmentCount + 1) % 256)).map
            (set st.fragmentedBlocks st.fragmentCount cur) <:+ _
          rw [hmod, hrun1]; exact hsuf1
        · show Contig s ((List.range ((st.fragmentCount + 1) % 256)).map
            (set st.fragmentedBlocks st.fragmentCount cur))
          rw [hmod, hrun1]; exact hcon1
        · show padd st.currentFreeSize (padd (s.length cur) NODE) = span s ((List.range
            ((st.fragmentCount + 1) % 256)).map (set st.fragmentedBlocks st.fragmentCount cur))
          rw [hmod, hrun1, span_snoc s cur hrne, hsize]
          unfold padd NODE; omega
        · exact hF' st.fragmentCount hcle
        · exact hC' _
        · show ∀ j, 1 ≤ j → ∀ h, ns.head? = some h →
            set st.fragmentedBlocks st.fragmentCount cur j ≠ h
          intro j hj h hh
          by_cases e : j = st.fragmentCount
          · subst e; rw [set_eq]; exact c.cur_ne_head hvne h hh
          · rw [set_ne _ _ e]; exact hD j hj h hh
        · show (st.fragmentCount + 1) % 256 = (vis ++ [cur]).length → ∀ j,
            (st.fragmentCount + 1) % 256 ≤ j →
            set st.fragmentedBlocks st.fragmentCount cur j = 0
          rw [hmod]
          intro hv j hj
          have hv0 : st.fragmentCount = vis.length :=
            (by rw [List.length_append, List.length_singleton] at hv; omega)
          rw [set_ne _ _ (by omega)]
          exact hE hv0 j (by omega)
      · show 1 ≤ (st.fragmentCount + 1) % 256
        rw [hmod]; omega
      · intro hlr
        show (List.range ((st.fragmentCount + 1) % 256)).map
          (set st.fragmentedBlocks st.fragmentCount cur) = _
        rw [hmod, hrun1, hlr, lastRun_snoc]
        unfold runStep
        rw [lastRun_getLast?, List.getLast?_eq_getLast _ hvne]
        simp only
        rw [if_pos hadj]
    · refine ⟨{ st with currentFreeSize := padd 0 (s.length cur),
                        fragmentedBlocks := set st.fragmentedBlocks 0 cur,
                        fragmentCount := 1 }, ?_, ?_, rfl, rfl, Nat.le_refl 1, ?_⟩
      · simp only [fragmentExtend, h0, if_false, hp0, hpad]
        rw [if_neg hadj]; rfl
      · refine ⟨?_, ?_, ?_, ?_, ?_, ?_, ?_, hrec⟩
        · show (List.range 1).map (set st.fragmentedBlocks 0 cur) <:+ _
          rw [hsingle]; exact List.suffix_append _ _
        · show Contig s ((List.range 1).map (set st.fragmentedBlocks 0 cur))
          rw [hsingle]; exact List.chain'_singleton _
        · show padd 0 (s.length cur) = span s ((List.range 1).map
            (set st.fragmentedBlocks 0 cur))
          rw [hsingle]
          simp only [span, List.map_nil, List.sum_nil, Nat.add_zero]
          unfold padd; omega
        · exact hF' 0 (Nat.zero_le _)
        · exact hC' _
        · exact hD0
        · show 1 = (vis ++ [cur]).length → ∀ j, 1 ≤ j → set st.fragmentedBlocks 0 cur j = 0
          intro hv
          have hv0 : vis.length = 0 :=
            (by rw [List.length_append, List.length_singleton] at hv; omega)
          exact absurd (List.length_eq_zero.1 hv0) hvne
      · intro hlr
        show (List.range 1).map (set st.fragmentedBlocks 0 cur) = _
        rw [hsingle, lastRun_snoc]
        unfold runStep
        rw [lastRun_getLast?, List.getLast?_eq_getLast _ hvne]
        simp only
        rw [if_neg hadj]

/-- The iteration that follows the recording of a run: the cursor has not
moved, the node is read again as the start of a new run and the loop
advances. -/
theorem fragmentScan_stalled (f : Nat) (s : Heap) (req cur : Nat) (st1 : FragScan)
    (hc0 : cur ≠ 0) :
    fragmentScan (f + 1) s req cur
      { st1 with minFragmentSize := st1.currentFreeSize,
                 bestFragmentedBlocks := st1.fragmentedBlocks,
                 fragmentCount := 0, currentFreeSize := 0 }
      = fragmentScan f s req (s.next cur) (restarted s cur st1) := by
  simp only [fragmentScan, ne_eq, hc0, not_false_eq_true, if_true, fragmentExtend, bind,
    Except.bind, pure, Except.pure]
  have h1 : ¬ ((0 + 1) % 256 > 1) := by decide
  simp only [h1, and_false, false_and, if_false]
  rfl

theorem restarted_inv {s : Heap} {req : Nat} {ns vis : List Nat} {cur : Nat}
    {rest : List Nat} {st1 : FragScan} (c : FragCtx s ns vis cur rest)
    (h : FragInv s req ns (vis ++ [cur]) st1) (hreq : req ≤ st1.currentFreeSize)
    (hcnt : 1 < st1.fragmentCount) :
    FragInv s req ns (vis ++ [cur]) (restarted s cur st1) := by
  obtain ⟨hsuf, hcon, hsize, hF, hC, hD, hE, _⟩ := h
  have hbc : cur + 24 + s.length cur < 18446744073709551616 := c.bounded cur c.cur_mem
  have hsingle : (List.range 1).map (set st1.fragmentedBlocks 0 cur) = [cur] := by
    simp [set, List.range_succ]
  have hlen1 : st1.fragmentCount ≤ (vis ++ [cur]).length := by simpa using hsuf.length_le
  have hnslen : (vis ++ [cur]).length ≤ ns.length := by
    rw [c.split]; simp
  refine ⟨?_, ?_, ?_, ?_, ?_, ?_, ?_, ?_⟩
  · show (List.range 1).map (set st1.fragmentedBlocks 0 cur) <:+ _
    rw [hsingle]; exact List.suffix_append _ _
  · show Contig s ((List.range 1).map (set st1.fragmentedBlocks 0 cur))
    rw [hsingle]; exact List.chain'_singleton _
  · show padd 0 (s.length cur) = span s ((List.range 1).map (set st1.fragmentedBlocks 0 cur))
    rw [hsingle]
    simp only [span, List.map_nil, List.sum_nil, Nat.add_zero]
    unfold padd; omega
  · intro j hj
    show set st1.fragmentedBlocks 0 cur j = 0
    rw [set_ne _ _ (by omega)]
    exact hF j hj
  · intro j hj
    show set st1.fragmentedBlocks 0 cur j ∈ ns
    by_cases e : j = 0
    · subst e; rw [set_eq]; exact c.cur_mem
    · have hj' : st1.fragmentedBlocks j ≠ 0 := by
        have : set st1.fragmentedBlocks 0 cur j = st1.fragmentedBlocks j := set_ne _ _ e
        rw [← this]; exact hj
      rw [set_ne _ _ e]; exact hC j hj'
  · intro j hj h hh
    show set st1.fragmentedBlocks 0 cur j ≠ h
    rw [set_ne _ _ (by omega)]
    exact hD j hj h hh
  · intro hv
    have : (1 : Nat) = (vis ++ [cur]).length := hv
    omega
  · show Recorded s req ns st1.currentFreeSize st1.fragmentedBlocks
    intro _
    obtain ⟨pre, hpre⟩ := hsuf
    refine ⟨pre, (List.range st1.fragmentCount).map st1.fragmentedBlocks, rest, ?_, ?_, ?_,
      hcon, hsize.symm, hreq, ?_, hC, hD, ?_⟩
    · rw [hpre, c.split]; simp
    · simpa using hcnt
    · simp
    · intro j hj; exact hF j (by omega)
    · intro hp j hj
      subst hp
      have : st1.fragmentCount = (vis ++ [cur]).length := by
        have := congrArg List.length hpre
        simpa using this
      exact hE this j (by simpa using hj)

/-- The fragment search returns, and what it has recorded at the end is a
run of the list as described by `Recorded`. -/
theorem fragmentScan_spec {s : Heap} {req : Nat} {ns : List Nat} (hnd : ns.Nodup)
    (hb : Bounded s ns) (hnz : ∀ x ∈ ns, x ≠ 0) (hshort : ns.length ≤ 255) :
    ∀ (rest vis : List Nat) (fuel cur : Nat) (st : FragScan), ns = vis ++ rest →
    Seg s (vis.getLastD 0) cur rest 0 → FragInv s req ns vis st → 2 * rest.length < fuel →
    ∃ st', fragmentScan fuel s req cur st = Except.ok st' ∧ FragInv s req ns ns st'
  | [], vis, fuel, cur, st, hsplit, hseg, hinv, hf => by
    obtain ⟨f, rfl⟩ : ∃ f, fuel = f + 1 := ⟨fuel - 1, by omega⟩
    have hc : cur = 0 := hseg
    subst hc
    have hv : vis = ns := by rw [hsplit]; simp
    subst hv
    exact ⟨st, by simp [fragmentScan]; rfl, hinv⟩
  | c :: r, vis, fuel, cur, st, hsplit, hseg, hinv, hf => by
    obtain ⟨f, rfl⟩ : ∃ f, fuel = f + 2 := ⟨fuel - 2, by simp at hf; omega⟩
    obtain ⟨hc, hc0, hpc, hr⟩ := hseg
    subst hc
    have ctx : FragCtx s ns vis cur r := ⟨hsplit, hnd, hb, hnz, hshort, hpc⟩
    obtain ⟨st1, hext, hinv1, hmin, hbest, hcnt1⟩ := fragmentExtend_spec ctx hinv
    have hsplit2 : ns = (vis ++ [cur]) ++ r := by rw [hsplit]; simp
    have hseg2 : Seg s ((vis ++ [cur]).getLastD 0) (s.next cur) r 0 := by
      simpa using hr
    have hlen : r.length + 1 = (cur :: r).length := rfl
    by_cases hA : st1.currentFreeSize ≥ req ∧ st1.fragmentCount > 1 ∧ st1.minFragmentSize = 0
    · have hinv3 := restarted_inv ctx hinv1 hA.1 hA.2.1
      obtain ⟨st', h1, h2⟩ := fragmentScan_spec hnd hb hnz hshort r (vis ++ [cur]) f (s.next cur)
        _ hsplit2 hseg2 hinv3 (by simp at hf; omega)
      refine ⟨st', ?_, h2⟩
      rw [← h1, ← fragmentScan_stalled f s req cur st1 hc0]
      simp only [fragmentScan, ne_eq, hc0, not_false_eq_true, if_true, hext, bind, Except.bind]
      rw [if_pos hA]
    · by_cases hB : st1.currentFreeSize ≥ req ∧ st1.currentFreeSize < st1.minFragmentSize
          ∧ st1.fragmentCount > 1
      · have hinv3 := restarted_inv ctx hinv1 hB.1 hB.2.2
        obtain ⟨st', h1, h2⟩ := fragmentScan_spec hnd hb hnz hshort r (vis ++ [cur]) f
          (s.next cur) _ hsplit2 hseg2 hinv3 (by simp at hf; omega)
        refine ⟨st', ?_, h2⟩
        rw [← h1, ← fragmentScan_stalled f s req cur st1 hc0]
        simp only [fragmentScan, ne_eq, hc0, not_false_eq_true, if_true, hext, bind,
          Except.bind]
        rw [if_neg hA, if_pos hB]
      · obtain ⟨st', h1, h2⟩ := fragmentScan_spec hnd hb hnz hshort r (vis ++ [cur]) (f + 1)
          (s.next cur) st1 hsplit2 hseg2 hinv1 (by simp at hf; omega)
        refine ⟨st', ?_, h2⟩
        rw [← h1]
        simp only [fragmentScan, ne_eq, hc0, not_false_eq_true, if_true, hext, bind,
          Except.bind]
        rw [if_neg hA, if_neg hB]

/-! ## Removal of the recorded run -/

/-- Removing, one after the other, the nodes that the array holds from index
`i` up to its first `NULL`, when some node `h` of the list is not among them. -/
theorem removeBlocks_keep {blocks : Nat → Nat} {inner h : Nat} : ∀ (E : List Nat)
    (i fuel : Nat) (s : Heap) (ns : List Nat), DLL s ns →
    (List.range' i E.length).map blocks = E → blocks (i + E.length) = 0 →
    (∀ x ∈ E, x ≠ 0) → h ∈ ns → h ∉ E → E.length < fuel → ns.length ≤ inner →
    i + E.length < ARRAY_CAP →
    ∃ t, removeBlocks fuel inner s blocks i = Except.ok t ∧ DLL t (ns.diff E) ∧
      LinksOnly s t
  | [], i, fuel, s, ns, hd, _, hz, _, _, _, hf, _, hcap => by
    obtain ⟨f, rfl⟩ : ∃ f, fuel = f + 1 := ⟨fuel - 1, by omega⟩
    have hz : blocks i = 0 := by simpa using hz
    have hc : ¬ ARRAY_CAP ≤ i := by simp at hcap; omega
    exact ⟨s, by simp [removeBlocks, hz, hc]; rfl, by simpa using hd, LinksOnly.same s⟩
  | x :: xs, i, fuel, s, ns, hd, hm, hz, hnz, hmem, hnot, hf, hin, hcap => by
    obtain ⟨f, rfl⟩ : ∃ f, fuel = f + 1 := ⟨fuel - 1, by omega⟩
    simp only [List.length_cons, List.range'_succ, List.map_cons, List.cons.injEq] at hm
    obtain ⟨hx, hm⟩ := hm
    have hx0 : x ≠ 0 := hnz x (List.mem_cons_self _ _)
    have hc : ¬ ARRAY_CAP ≤ i := by simp at hcap; omega
    have hhx : h ≠ x := fun e => hnot (e ▸ List.mem_cons_self _ _)
    obtain ⟨t1, ht1, hd1, hl1, _, _⟩ := remove_freelist_node_spec (a := x) hd
      (List.ne_nil_of_mem hmem) hin
    have hlen : (ns.erase x).length ≤ inner := le_trans (List.length_erase_le x ns) hin
    obtain ⟨t2, ht2, hd2, hl2⟩ := removeBlocks_keep xs (i + 1) f t1 (ns.erase x) hd1 hm
      (by simp only [List.length_cons] at hz; rw [← hz]; congr 1; omega)
      (fun y hy => hnz y (List.mem_cons_of_mem _ hy))
      ((List.mem_erase_of_ne hhx).2 hmem)
      (fun hh => hnot (List.mem_cons_of_mem _ hh)) (by simpa using hf) hlen
      (by simp only [List.length_cons] at hcap; omega)
    refine ⟨t2, ?_, by rw [List.diff_cons]; exact hd2, hl1.comp hl2⟩
    simp only [removeBlocks, hc, if_false, hx, ne_eq, hx0, not_false_eq_true, if_true, ht1]
    exact ht2

/-- The entries of a recorded array up to its first `NULL`. -/
theorem recorded_entries {ns : List Nat} {best : Nat → Nat}
    (hF : ∀ j, ns.length < j → best j = 0) :
    ∃ n, n ≤ ns.length + 1 ∧ best n = 0 ∧ ∀ j, j < n → best j ≠ 0 := by
  have hex : ∃ n, best n = 0 := ⟨ns.length + 1, hF _ (by omega)⟩
  refine ⟨Nat.find hex, ?_, Nat.find_spec hex, fun j hj => Nat.find_min hex hj⟩
  exact Nat.find_min' hex (hF _ (by omega))

/-- Removal of the recorded run (and of whatever follows it in the array)
from a well-formed list: the run is gone and no node is added. -/
theorem removeBlocks_recorded {s s0 : Heap} {req : Nat} {ns : List Nat} {m fuel inner : Nat}
    {best : Nat → Nat} (hd : DLL s ns) (hshort : ns.length ≤ 255) (hm : m ≠ 0)
    (hrec : Recorded s0 req ns m best)
    (hf : ns.length + 1 < fuel) (hin : ns.length ≤ inner) :
    ∃ t ms, removeBlocks fuel inner s best 0 = Except.ok t ∧ DLL t ms ∧ LinksOnly s t ∧
      ms.Sublist ns ∧ ∃ pre R post, ns = pre ++ R ++ post ∧ 2 ≤ R.length ∧
        (List.range R.length).map best = R ∧ Contig s0 R ∧ span s0 R = m ∧ req ≤ m ∧
        (∀ x ∈ R, x ∉ ms) := by
  obtain ⟨pre, R, post, hsplit, hR2, hmap, hcon, hspan, hreq, hF, hC, hD, hE⟩ :=
    hrec hm
  obtain ⟨n, hn1, hn0, hnpos⟩ := recorded_entries hF
  have hnd : ns.Nodup := hd.2
  have hRsub : ∀ x ∈ R, x ∈ ns := by
    intro x hx; rw [hsplit]; simp [hx]
  have hRnz : ∀ x ∈ R, x ≠ 0 := fun x hx => hd.ne_zero x (hRsub x hx)
  have hRidx : ∀ j, j < R.length → best j ∈ R := by
    intro j hj
    rw [← hmap]
    exact List.mem_map.2 ⟨j, List.mem_range.2 hj, rfl⟩
  have hkn : R.length ≤ n := by
    by_contra hlt
    have := hRidx n (by omega)
    exact hRnz _ this hn0
  have hEmap : (List.range' 0 ((List.range n).map best).length).map best
      = (List.range n).map best := by
    simp [List.range_eq_range']
  have hEmem : ∀ x ∈ (List.range n).map best, x ∈ ns := by
    intro x hx
    obtain ⟨j, hj, rfl⟩ := List.mem_map.1 hx
    exact hC j (hnpos j (List.mem_range.1 hj))
  have hEnz : ∀ x ∈ (List.range n).map best, x ≠ 0 := fun x hx => hd.ne_zero x (hEmem x hx)
  have hRE : ∀ x ∈ R, x ∈ (List.range n).map best := by
    intro x hx
    rw [← hmap] at hx
    obtain ⟨j, hj, rfl⟩ := List.mem_map.1 hx
    exact List.mem_map.2 ⟨j, List.mem_range.2 (by have := List.mem_range.1 hj; omega), rfl⟩
  have hgone : ∀ x ∈ R, x ∉ ns.diff ((List.range n).map best) := by
    intro x hx hmem
    exact ((hnd.mem_diff_iff).1 hmem).2 (hRE x hx)
  have hcapn : 0 + ((List.range n).map best).length < ARRAY_CAP := by
    simp only [List.length_map, List.length_range, Nat.zero_add]
    have : ARRAY_CAP = 10000 := rfl
    omega
  have hfn : ((List.range n).map best).length < fuel := by
    simp only [List.length_map, List.length_range]; omega
  have hzero : best (0 + ((List.range n).map best).length) = 0 := by
    simpa using hn0
  cases pre with
  | nil =>
    -- the run starts at the head of the list: nothing follows it in the array
    have hnk : n = R.length := by
      have := hE rfl R.length (Nat.le_refl _)
      by_contra hne
      exact hnpos R.length (by omega) this
    have hER : (List.range n).map best = R := by rw [hnk]; exact hmap
    have hRnd : R.Nodup := by
      have : (R ++ post).Nodup := by simpa [hsplit] using hnd
      exact (List.nodup_append.1 this).1
    obtain ⟨t, ht, hdt, hlt⟩ := @removeBlocks_run best inner ((List.range n).map best) 0 fuel
      s ns hd hEmap hzero hEmem (by rw [hER]; exact hRnd) hfn hin hcapn
    exact ⟨t, _, ht, hdt, hlt, List.diff_sublist _ _, [], R, post, hsplit, hR2, hmap, hcon,
      hspan, hreq, hgone⟩
  | cons h0 pre' =>
    have hh0 : ns.head? = some h0 := by rw [hsplit]; rfl
    have hh0mem : h0 ∈ ns := by rw [hsplit]; simp
    have hh0R : h0 ∉ R := by
      intro hx
      have h1 : ((h0 :: pre') ++ (R ++ post)).Nodup := by
        simpa [hsplit, List.append_assoc] using hnd
      exact (List.nodup_append.1 h1).2.2 (List.mem_cons_self _ _) (List.mem_append_left _ hx)
    have hh0E : h0 ∉ (List.range n).map best := by
      intro hx
      obtain ⟨j, hj, hjb⟩ := List.mem_map.1 hx
      by_cases hj0 : j = 0
      · subst hj0
        exact hh0R (hjb ▸ hRidx 0 (by omega))
      · exact hD j (by omega) h0 hh0 hjb
    obtain ⟨t, ht, hdt, hlt⟩ := @removeBlocks_keep best inner h0 ((List.range n).map best) 0
      fuel s ns hd hEmap hzero hEnz hh0mem hh0E hfn hin hcapn
    exact ⟨t, _, ht, hdt, hlt, List.diff_sublist _ _, h0 :: pre', R, post, hsplit, hR2, hmap,
      hcon, hspan, hreq, hgone⟩

/-! ## Fragment search: nothing recorded -/

theorem span_cons_le (s : Heap) (a : Nat) (xs : List Nat) : span s xs ≤ span s (a :: xs) := by
  cases xs with
  | nil => simp [span]
  | cons y ys => simp only [span, List.map_cons, List.sum_cons]; omega

theorem span_suffix_le (s : Heap) {R L : List Nat} (h : R <:+ L) : span s R ≤ span s L := by
  obtain ⟨pre, rfl⟩ := h
  induction pre with
  | nil => exact Nat.le_refl _
  | cons a pre ih => exact Nat.le_trans ih (span_cons_le s a (pre ++ R))

theorem span_two_le (s : Heap) {R : List Nat} (h : 2 ≤ R.length) : 24 ≤ span s R := by
  match R, h with
  | a :: b :: rest, _ => simp only [span, List.map_cons, List.sum_cons]; omega

/-- A physically contiguous suffix of the nodes read so far is part of their
last contiguous run. -/
theorem lastRun_maximal (s : Heap) : ∀ (vis R : List Nat), R <:+ vis → Contig s R →
    R <:+ lastRun s vis := by
  intro vis
  induction vis using List.reverseRecOn with
  | nil =>
    intro R h _
    have : R = [] := List.eq_nil_of_suffix_nil h
    subst this
    exact List.nil_suffix
  | append_singleton v c ih =>
    intro R h hc
    rcases List.eq_nil_or_concat R with rfl | ⟨R', c', rfl⟩
    · exact List.nil_suffix
    · rw [List.concat_eq_append] at h hc ⊢
      obtain ⟨pre, hpre⟩ := h
      have hpre2 : (pre ++ R') ++ [c'] = v ++ [c] := by rw [List.append_assoc]; exact hpre
      obtain ⟨e1, e2⟩ := List.append_inj' hpre2 rfl
      have ec : c' = c := by simpa using e2
      subst ec
      have hsufR : R' <:+ v := ⟨pre, e1⟩
      rw [lastRun_snoc]
      by_cases hR : R' = []
      · subst hR
        unfold runStep
        cases (lastRun s v).getLast? with
        | none => exact List.suffix_refl _
        | some l =>
          simp only
          split
          · exact List.suffix_append _ _
          · exact List.suffix_refl _
      · have hcR : Contig s R' := by
          unfold Contig at hc ⊢
          exact (List.chain'_append.1 hc).1
        have hih := ih R' hsufR hcR
        have hvne : v ≠ [] := by
          intro e; subst e
          exact hR (List.eq_nil_of_suffix_nil hsufR)
        have hlast : R'.getLast? = v.getLast? := suffix_getLast? hsufR hR
        have hadj : c' = v.getLast hvne + 24 + s.length (v.getLast hvne) := by
          unfold Contig at hc
          have h3 := (List.chain'_append.1 hc).2.2
          have hl : v.getLast hvne ∈ R'.getLast? := by
            rw [hlast, List.getLast?_eq_getLast _ hvne]; exact rfl
          exact h3 _ hl c' (by simp)
        unfold runStep
        rw [lastRun_getLast?, List.getLast?_eq_getLast _ hvne]
        simp only
        rw [if_pos hadj]
        obtain ⟨q, hq⟩ := hih
        exact ⟨q, by rw [← List.append_assoc, hq]⟩

theorem NoRun.init (s : Heap) (req : Nat) (best : Nat → Nat) :
    NoRun s req []
      { fragmentCount := 0, currentFreeSize := 0, minFragmentSize := 0,
        fragmentedBlocks := fun _ => 0, bestFragmentedBlocks := best } := by
  intro _
  refine ⟨rfl, ?_⟩
  intro pre R post h h2 _
  have := congrArg List.length h
  simp at this
  omega

/-- The invariant `NoRun` after an iteration that recorded nothing. -/
theorem NoRun.advance {s : Heap} {req : Nat} {ns vis : List Nat} {cur : Nat} {st st1 : FragScan}
    (hno : NoRun s req vis st) (hinv1 : FragInv s req ns (vis ++ [cur]) st1)
    (hmin : st1.minFragmentSize = st.minFragmentSize)
    (hrun : (List.range st.fragmentCount).map st.fragmentedBlocks = lastRun s vis →
      (List.range st1.fragmentCount).map st1.fragmentedBlocks = lastRun s (vis ++ [cur]))
    (hA : ¬ (st1.currentFreeSize ≥ req ∧ st1.fragmentCount > 1 ∧ st1.minFragmentSize = 0)) :
    NoRun s req (vis ++ [cur]) st1 := by
  intro h0
  obtain ⟨hlr, hnone⟩ := hno (by rw [← hmin]; exact h0)
  have hlr1 := hrun hlr
  refine ⟨hlr1, ?_⟩
  intro pre R post hsplit hR2 hcon
  rcases List.eq_nil_or_concat post with rfl | ⟨post', x, rfl⟩
  · have hsuf : R <:+ vis ++ [cur] := ⟨pre, by rw [hsplit]; simp⟩
    have hmax := lastRun_maximal s _ R hsuf hcon
    have hle := span_suffix_le s hmax
    have hlen := hmax.length_le
    rw [← hlr1] at hle hlen
    rw [← hinv1.2.2.1] at hle
    simp only [List.length_map, List.length_range] at hlen
    by_contra hc
    exact hA ⟨by omega, by omega, h0⟩
  · have e := List.append_inj' (show vis ++ [cur] = (pre ++ R ++ post') ++ [x] by
      rw [hsplit]; simp) rfl
    exact hnone pre R post' e.1 hR2 hcon

/-- The fragment search returns; what it has recorded at the end is a run of
the list as described by `Recorded`, and it has recorded nothing only if no
run of at least two physically contiguous consecutive nodes reaches the
request. -/
theorem fragmentScan_full {s : Heap} {req : Nat} {ns : List Nat} (hnd : ns.Nodup)
    (hb : Bounded s ns) (hnz : ∀ x ∈ ns, x ≠ 0) (hshort : ns.length ≤ 255) :
    ∀ (rest vis : List Nat) (fuel cur : Nat) (st : FragScan), ns = vis ++ rest →
    Seg s (vis.getLastD 0) cur rest 0 → FragInv s req ns vis st → NoRun s req vis st →
    2 * rest.length < fuel →
    ∃ st', fragmentScan fuel s req cur st = Except.ok st' ∧ FragInv s req ns ns st' ∧
      NoRun s req ns st'
  | [], vis, fuel, cur, st, hsplit, hseg, hinv, hno, hf => by
    obtain ⟨f, rfl⟩ : ∃ f, fuel = f + 1 := ⟨fuel - 1, by omega⟩
    have hc : cur = 0 := hseg
    subst hc
    have hv : vis = ns := by rw [hsplit]; simp
    subst hv
    exact ⟨st, by simp [fragmentScan]; rfl, hinv, hno⟩
  | c :: r, vis, fuel, cur, st, hsplit, hseg, hinv, hno, hf => by
    obtain ⟨f, rfl⟩ : ∃ f, fuel = f + 2 := ⟨fuel - 2, by simp at hf; omega⟩
    obtain ⟨hc, hc0, hpc, hr⟩ := hseg
    subst hc
    have ctx : FragCtx s ns vis cur r := ⟨hsplit, hnd, hb, hnz, hshort, hpc⟩
    obtain ⟨st1, hext, hinv1, hmin, hbest, hcnt1, hrun⟩ := fragmentExtend_spec ctx hinv
    have hsplit2 : ns = (vis ++ [cur]) ++ r := by rw [hsplit]; simp
    have hseg2 : Seg s ((vis ++ [cur]).getLastD 0) (s.next cur) r 0 := by
      simpa using hr
    have hrestart : 1 < st1.fragmentCount → NoRun s req (vis ++ [cur]) (restarted s cur st1) := by
      intro hcnt h0
      exfalso
      have h0 : st1.currentFreeSize = 0 := h0
      have h24 := span_two_le s (R := (List.range st1.fragmentCount).map st1.fragmentedBlocks)
        (by simpa using hcnt)
      rw [← hinv1.2.2.1] at h24
      omega
    by_cases hA : st1.currentFreeSize ≥ req ∧ st1.fragmentCount > 1 ∧ st1.minFragmentSize = 0
    · have hinv3 := restarted_inv ctx hinv1 hA.1 hA.2.1
      obtain ⟨st', h1, h2⟩ := fragmentScan_full hnd hb hnz hshort r (vis ++ [cur]) f (s.next cur)
        _ hsplit2 hseg2 hinv3 (hrestart hA.2.1) (by simp at hf; omega)
      refine ⟨st', ?_, h2⟩
      rw [← h1, ← fragmentScan_stalled f s req cur st1 hc0]
      simp only [fragmentScan, ne_eq, hc0, not_false_eq_true, if_true, hext, bind, Except.bind]
      rw [if_pos hA]
    · by_cases hB : st1.currentFreeSize ≥ req ∧ st1.currentFreeSize < st1.minFragmentSize
          ∧ st1.fragmentCount > 1
      · have hinv3 := restarted_inv ctx hinv1 hB.1 hB.2.2
        obtain ⟨st', h1, h2⟩ := fragmentScan_full hnd hb hnz hshort r (vis ++ [cur]) f
          (s.next cur) _ hsplit2 hseg2 hinv3 (hrestart hB.2.2) (by simp at hf; omega)
        refine ⟨st', ?_, h2⟩
        rw [← h1, ← fragmentScan_stalled f s req cur st1 hc0]
        simp only [fragmentScan, ne_eq, hc0, not_false_eq_true, if_true, hext, bind,
          Except.bind]
        rw [if_neg hA, if_pos hB]
      · obtain ⟨st', h1, h2⟩ := fragmentScan_full hnd hb hnz hshort r (vis ++ [cur]) (f + 1)
          (s.next cur) st1 hsplit2 hseg2 hinv1 (NoRun.advance hno hinv1 hmin hrun hA)
          (by simp at hf; omega)
        refine ⟨st', ?_, h2⟩
        rw [← h1]
        simp only [fragmentScan, ne_eq, hc0, not_false_eq_true, if_true, hext, bind,
          Except.bind]
        rw [if_neg hA, if_neg hB]

/-! ## Selection step of find_best_fit_block -/

theorem ListOK.apart {s : Heap} {ns : List Nat} (h : ListOK s ns) {x y : Nat} (hx : x ∈ ns)
    (hy : y ∈ ns) (hne : x ≠ y) : x + 24 + s.length x ≤ y ∨ y + 24 + s.length y ≤ x := by
  have h1 : ns.Pairwise (fun a b => a + 24 + s.length a ≤ b ∨ b + 24 + s.length b ≤ a) :=
    h.sep.imp (fun h => Or.inl h)
  exact h1.forall (fun a b hab => hab.symm) hx hy hne

/-- Taking the best-fit block. -/
theorem takeBestFit_spec {s : Heap} {ns : List Nat} {req fuel b : Nat} {bf : BestFit}
    (hok : ListOK s ns) (hbb : bf.bestFitBlock = b) (hb : b ∈ ns) (hreq : req ≤ s.length b)
    (hf : ns.length < fuel) :
    ∃ t, takeBestFit fuel s req bf = Except.ok (b, t) ∧ SingleTaken s t ns b req := by
  subst hbb
  have hd := hok.dll
  have hne : ns ≠ [] := List.ne_nil_of_mem hb
  have hbnd := hok.bounded _ hb
  obtain ⟨t1, ht1, hd1, hl1, _, _⟩ :=
    remove_freelist_node_spec (a := bf.bestFitBlock) hd hne (Nat.le_of_lt hf)
  have hlen1 : t1.length = s.length := hl1.1
  have hrem : psub (t1.length bf.bestFitBlock) req = s.length bf.bestFitBlock - req := by
    rw [hlen1]; exact psub_eq hreq (by omega)
  by_cases hsplit : 24 < s.length bf.bestFitBlock - req
  · have hnn : padd (padd bf.bestFitBlock req) NODE = bf.bestFitBlock + req + 24 := by
      unfold NODE
      rw [show padd bf.bestFitBlock req = bf.bestFitBlock + req from padd_eq (by omega)]
      exact padd_eq (by omega)
    have hr24 : psub (s.length bf.bestFitBlock - req) NODE
        = s.length bf.bestFitBlock - req - 24 := by
      unfold NODE; exact psub_eq (by omega) (by omega)
    have hpay : psub (padd (bf.bestFitBlock + req + 24) NODE) NODE
        = bf.bestFitBlock + req + 24 := psub_padd (by unfold NODE; omega)
    have hnot : bf.bestFitBlock + req + 24 ∉ ns := by
      intro hx
      rcases hok.apart hx hb (by omega) with h1 | h1 <;> omega
    have hnot1 : bf.bestFitBlock + req + 24 ∉ ns.erase bf.bestFitBlock :=
      fun hx => hnot (List.mem_of_mem_erase hx)
    obtain ⟨s3, hs3⟩ : ∃ s3 : Heap, s3 = { t1 with length := set (set t1.length bf.bestFitBlock req) (bf.bestFitBlock + req + 24) (s.length bf.bestFitBlock - req - 24) } :=
      ⟨_, rfl⟩
    have hd3 : DLL s3 (ns.erase bf.bestFitBlock) := by rw [hs3]; exact hd1.set_length _
    have hlen3 : s3.length = set (set t1.length bf.bestFitBlock req)
        (bf.bestFitBlock + req + 24) (s.length bf.bestFitBlock - req - 24) := by rw [hs3]
    have hfr3 : Frame t1 s3 := by rw [hs3]; exact ⟨rfl, rfl, rfl, rfl, rfl, rfl⟩
    obtain ⟨t, ht, hdt, hlt⟩ := @insert_block_into_freelist_spec _ _ _ _ fuel hd3 hpay
      (by omega) hnot1 (by
        have := List.length_erase_of_mem hb
        omega)
    refine ⟨t, ?_, (hl1.toFrame.trans hfr3).trans hlt.toFrame, hb, hreq,
      fun _ => ⟨hnot, hdt, by rw [hlt.1, hlen3, hlen1]⟩, fun h => absurd hsplit (by omega)⟩
    rw [hs3] at ht
    simp only [takeBestFit, bind, Except.bind, ht1, hrem, hnn, hr24]
    rw [if_pos (show s.length bf.bestFitBlock - req > NODE from hsplit)]
    simp only [ht]
    rfl
  · refine ⟨t1, ?_, hl1.toFrame, hb, hreq, fun h => absurd h hsplit,
      fun _ => ⟨hd1, hlen1⟩⟩
    simp only [takeBestFit, bind, Except.bind, ht1, hrem]
    rw [if_neg (show ¬ s.length bf.bestFitBlock - req > NODE from hsplit)]
    rfl

theorem head?_map_range (best : Nat → Nat) {R : List Nat}
    (h : (List.range R.length).map best = R) (h2 : 2 ≤ R.length) : R.head? = some (best 0) := by
  match R, h, h2 with
  | a :: rest, h, _ =>
    simp only [List.length_cons, List.range_succ_eq_map, List.map_cons, List.cons.injEq] at h
    rw [← h.1]; rfl

/-- Taking the recorded run. -/
theorem takeFragments_spec {s : Heap} {ns : List Nat} {req fuel : Nat} {fs : FragScan}
    (hok : ListOK s ns) (hm : fs.minFragmentSize ≠ 0)
    (hrec : Recorded s req ns fs.minFragmentSize fs.bestFragmentedBlocks)
    (hf : ns.length + 1 < fuel) :
    ∃ t, takeFragments fuel s req fs = Except.ok (fs.bestFragmentedBlocks 0, t) ∧
      RunTaken s t ns (fs.bestFragmentedBlocks 0) req fs.minFragmentSize := by
  have hd := hok.dll
  obtain ⟨s1, hs1⟩ : ∃ s1 : Heap, s1 = { s with length := set s.length (fs.bestFragmentedBlocks 0) req } :=
    ⟨_, rfl⟩
  have hd1 : DLL s1 ns := by rw [hs1]; exact hd.set_length _
  have hlen1 : s1.length = set s.length (fs.bestFragmentedBlocks 0) req := by rw [hs1]
  have hfr1 : Frame s s1 := by rw [hs1]; exact ⟨rfl, rfl, rfl, rfl, rfl, rfl⟩
  obtain ⟨t1, ms, ht1, hdt1, hl1, hsub, pre, R, post, hsplit, hR2, hmap, hcon, hspan, hreq,
    hgone⟩ := @removeBlocks_recorded s1 s req ns fs.minFragmentSize fuel fuel
      fs.bestFragmentedBlocks hd1 hok.short hm hrec hf (by omega)
  have hhead := head?_map_range _ hmap hR2
  obtain ⟨r0, rest, hRe⟩ : ∃ r0 rest, R = r0 :: rest := by
    match R, hR2 with
    | a :: rest, _ => exact ⟨a, rest, rfl⟩
  have hr0 : r0 = fs.bestFragmentedBlocks 0 := by
    rw [hRe] at hhead; simpa using hhead
  have hRmem : ∀ x ∈ R, x ∈ ns := by
    intro x hx; rw [hsplit]; simp [hx]
  have hbmem : fs.bestFragmentedBlocks 0 ∈ ns := by
    apply hRmem; rw [hRe, hr0]; simp
  have hb0 : fs.bestFragmentedBlocks 0 ≠ 0 := hd.ne_zero _ hbmem
  have hlastmem : R.getLast (by rw [hRe]; simp) ∈ ns := hRmem _ (List.getLast_mem _)
  have hend : fs.bestFragmentedBlocks 0 + fs.minFragmentSize
      = R.getLast (by rw [hRe]; simp) + s.length (R.getLast (by rw [hRe]; simp)) := by
    subst hRe
    rw [← hr0, ← hspan]
    exact span_end rest r0 hcon
  have hlb := hok.bounded _ hlastmem
  have hrem : psub fs.minFragmentSize req = fs.minFragmentSize - req :=
    psub_eq hreq (by omega)
  by_cases hsp : 24 < fs.minFragmentSize - req
  · have hnn : padd (padd (fs.bestFragmentedBlocks 0) req) NODE
        = fs.bestFragmentedBlocks 0 + req + 24 := by
      unfold NODE
      rw [show padd (fs.bestFragmentedBlocks 0) req = fs.bestFragmentedBlocks 0 + req from
        padd_eq (by omega)]
      exact padd_eq (by omega)
    have hr24 : psub (fs.minFragmentSize - req) NODE = fs.minFragmentSize - req - 24 := by
      unfold NODE; exact psub_eq (by omega) (by omega)
    have hpay : psub (padd (fs.bestFragmentedBlocks 0 + req + 24) NODE) NODE
        = fs.bestFragmentedBlocks 0 + req + 24 := psub_padd (by unfold NODE; omega)
    have hnot : fs.bestFragmentedBlocks 0 + req + 24 ∉ ms := by
      intro hx
      have hxns : fs.bestFragmentedBlocks 0 + req + 24 ∈ ns := hsub.subset hx
      have hxR : fs.bestFragmentedBlocks 0 + req + 24 ∉ R := fun h => hgone _ h hx
      rw [hsplit] at hxns
      have hsep := hok.sep
      rw [hsplit] at hsep
      rcases List.mem_append.1 hxns with h1 | h1
      · rcases List.mem_append.1 h1 with h2 | h2
        · have h3 := (List.pairwise_append.1 (List.pairwise_append.1 hsep).1).2.2 _ h2
            (fs.bestFragmentedBlocks 0) (by rw [hRe, hr0]; simp)
          omega
        · exact hxR h2
      · have h3 := (List.pairwise_append.1 hsep).2.2 (R.getLast (by rw [hRe]; simp))
          (List.mem_append_right _ (List.getLast_mem _)) _ h1
        omega
    obtain ⟨s3, hs3⟩ : ∃ s3 : Heap, s3 = { t1 with length := set t1.length (fs.bestFragmentedBlocks 0 + req + 24) (fs.minFragmentSize - req - 24) } :=
      ⟨_, rfl⟩
    have hd3 : DLL s3 ms := by rw [hs3]; exact hdt1.set_length _
    have hlen3 : s3.length = set t1.length (fs.bestFragmentedBlocks 0 + req + 24)
        (fs.minFragmentSize - req - 24) := by rw [hs3]
    have hfr3 : Frame t1 s3 := by rw [hs3]; exact ⟨rfl, rfl, rfl, rfl, rfl, rfl⟩
    obtain ⟨t, ht, hdt, hlt⟩ := @insert_block_into_freelist_spec _ _ _ _ fuel hd3 hpay
      (by omega) hnot (by
        have := hsub.length_le
        omega)
    refine ⟨t, ?_, ms, pre, R, post, hsplit, hR2, hhead, hcon, hspan, hreq, hsub, hgone,
      ((hfr1.trans hl1.toFrame).trans hfr3).trans hlt.toFrame,
      fun _ => ⟨hnot, hdt, by rw [hlt.1, hlen3, hl1.1, hlen1]⟩, fun h => absurd hsp (by omega)⟩
    rw [hs3] at ht
    rw [hs1] at ht1
    simp only [takeFragments, hb0, if_false, bind, Except.bind, ht1, hrem, hnn, hr24]
    rw [if_pos (show fs.minFragmentSize - req > NODE from hsp)]
    simp only [ht]
    rfl
  · refine ⟨t1, ?_, ms, pre, R, post, hsplit, hR2, hhead, hcon, hspan, hreq, hsub, hgone,
      hfr1.trans hl1.toFrame, fun h => absurd h hsp, fun _ => ⟨hdt1, by rw [hl1.1, hlen1]⟩⟩
    rw [hs1] at ht1
    simp only [takeFragments, hb0, if_false, bind, Except.bind, ht1, hrem]
    rw [if_neg (show ¬ fs.minFragmentSize - req > NODE from hsp)]
    rfl

theorem BestInv.initial (s : Heap) (req : Nat) :
    BestInv s req [] { foundMinBlock := 0, minBlockSize := 0, bestFitBlock := 0 } :=
  ⟨Or.inl rfl, fun _ x hx => absurd hx (List.not_mem_nil x), fun h => absurd h (by decide)⟩

theorem FragInv.empty (s : Heap) (req : Nat) {ns : List Nat} (hnz : ∀ x ∈ ns, x ≠ 0) :
    FragInv s req ns []
      { fragmentCount := 0, currentFreeSize := 0, minFragmentSize := 0,
        fragmentedBlocks := fun _ => 0, bestFragmentedBlocks := fun _ => 0 } := by
  refine ⟨List.suffix_refl _, List.chain'_nil, rfl, fun _ _ => rfl,
    fun j hj => absurd rfl hj, ?_, fun _ _ _ => rfl, fun h => absurd rfl h⟩
  intro j _ h hh e
  have : h ∈ ns := List.mem_of_mem_head? hh
  exact hnz h this e.symm

/-- The member found by the single-block search. -/
theorem BestInv.mem {s : Heap} {req : Nat} {ns : List Nat} {bf : BestFit}
    (h : BestInv s req ns bf) (h1 : bf.foundMinBlock = 1) :
    bf.bestFitBlock ∈ ns ∧ req ≤ s.length bf.bestFitBlock ∧
      s.length bf.bestFitBlock = bf.minBlockSize := by
  obtain ⟨e1, e2, pre, post, e3, _, _⟩ := h.2.2 h1
  refine ⟨by rw [e3]; simp, by rw [e1]; exact e2, e1⟩

/-- The two searches of `find_best_fit_block` return, and the function then
takes what the selection step chooses among their results. -/
theorem find_best_fit_block_scans {s : Heap} {ns : List Nat} {req fuel : Nat}
    (hok : ListOK s ns) (hf : 2 * ns.length < fuel) :
    ∃ bf fs, BestInv s req ns bf ∧ FragInv s req ns ns fs ∧ NoRun s req ns fs ∧
      bestFitScan fuel s req s.FreeListHead
        { foundMinBlock := 0, minBlockSize := 0, bestFitBlock := 0 } = Except.ok bf ∧
      fragmentScan fuel s req s.FreeListHead
        { fragmentCount := 0, currentFreeSize := 0, minFragmentSize := 0,
          fragmentedBlocks := fun _ => 0, bestFragmentedBlocks := fun _ => 0 } = Except.ok fs ∧
      find_best_fit_block fuel s req =
        (if fs.minFragmentSize ≠ 0 ∧ bf.foundMinBlock = 1 then
          if fs.minFragmentSize < bf.minBlockSize then takeFragments fuel s req fs
          else takeBestFit fuel s req bf
        else if fs.minFragmentSize ≠ 0 then takeFragments fuel s req fs
        else if bf.foundMinBlock = 1 then takeBestFit fuel s req bf
        else pure (0, s)) >>= fun r => pure (padd r.1 NODE, r.2) := by
  have hd := hok.dll
  have hnz := hd.ne_zero
  obtain ⟨bf, hbf, hbinv⟩ := @bestFitScan_spec s req ns [] fuel 0 s.FreeListHead _ hd.1
    (BestInv.initial s req) (by omega)
  obtain ⟨fs, hfs, hfinv, hno⟩ := @fragmentScan_full s req ns hd.2 hok.bounded hnz hok.short
    ns [] fuel s.FreeListHead _ rfl hd.1 (FragInv.empty s req hnz) (NoRun.init s req _)
    (by omega)
  refine ⟨bf, fs, by simpa using hbinv, hfinv, hno, hbf, hfs, ?_⟩
  simp only [find_best_fit_block, hbf, hfs, bind, Except.bind]
  split_ifs <;> rfl

/-- What `find_best_fit_block` does on a well-formed list of at most 255
nodes: it returns the sentinel and leaves the state alone when no node and no
recorded run can serve the request, and otherwise takes the best-fit block or
the recorded run, whichever is chosen by the selection step. -/
theorem find_best_fit_block_spec {s : Heap} {ns : List Nat} {req fuel : Nat}
    (hok : ListOK s ns) (hf : 2 * ns.length + 1 < fuel) :
    ∃ bf fs p t, BestInv s req ns bf ∧ FragInv s req ns ns fs ∧ NoRun s req ns fs ∧
      bestFitScan fuel s req s.FreeListHead
        { foundMinBlock := 0, minBlockSize := 0, bestFitBlock := 0 } = Except.ok bf ∧
      fragmentScan fuel s req s.FreeListHead
        { fragmentCount := 0, currentFreeSize := 0, minFragmentSize := 0,
          fragmentedBlocks := fun _ => 0, bestFragmentedBlocks := fun _ => 0 } = Except.ok fs ∧
      find_best_fit_block fuel s req = Except.ok (p, t) ∧
      ((bf.foundMinBlock = 0 ∧ fs.minFragmentSize = 0 ∧ p = 24 ∧ t = s) ∨
       (bf.foundMinBlock = 1 ∧ (fs.minFragmentSize = 0 ∨ bf.minBlockSize ≤ fs.minFragmentSize) ∧
          p = bf.bestFitBlock + 24 ∧ SingleTaken s t ns bf.bestFitBlock req) ∨
       (fs.minFragmentSize ≠ 0 ∧
          (bf.foundMinBlock = 0 ∨ fs.minFragmentSize < bf.minBlockSize) ∧
          p = fs.bestFragmentedBlocks 0 + 24 ∧
          RunTaken s t ns (fs.bestFragmentedBlocks 0) req fs.minFragmentSize)) := by
  obtain ⟨bf, fs, hbinv, hfinv, hno, hbf, hfs, hfind⟩ :=
    @find_best_fit_block_scans s ns req fuel hok (show 2 * ns.length < fuel by omega)
  have h01 := hbinv.1
  have hsingle : bf.foundMinBlock = 1 →
      ∃ t, find_best_fit_block fuel s req =
          (takeBestFit fuel s req bf >>= fun r => pure (padd r.1 NODE, r.2)) →
        find_best_fit_block fuel s req = Except.ok (bf.bestFitBlock + 24, t) ∧
        SingleTaken s t ns bf.bestFitBlock req := by
    intro h1
    obtain ⟨hmem, hreq, _⟩ := hbinv.mem h1
    obtain ⟨t, ht, hout⟩ := takeBestFit_spec hok rfl hmem hreq (show ns.length < fuel by omega)
    refine ⟨t, fun e => ⟨?_, hout⟩⟩
    rw [e, ht]
    have hb := hok.bounded _ hmem
    show Except.ok (padd bf.bestFitBlock NODE, t) = _
    rw [show padd bf.bestFitBlock NODE = bf.bestFitBlock + 24 from
      padd_eq (by unfold NODE; omega)]
  have hfrag : fs.minFragmentSize ≠ 0 →
      ∃ t, find_best_fit_block fuel s req =
          (takeFragments fuel s req fs >>= fun r => pure (padd r.1 NODE, r.2)) →
        find_best_fit_block fuel s req = Except.ok (fs.bestFragmentedBlocks 0 + 24, t) ∧
        RunTaken s t ns (fs.bestFragmentedBlocks 0) req fs.minFragmentSize := by
    intro hm
    obtain ⟨t, ht, hout⟩ := takeFragments_spec hok hm hfinv.2.2.2.2.2.2.2
      (show ns.length + 1 < fuel by omega)
    refine ⟨t, fun e => ⟨?_, hout⟩⟩
    rw [e, ht]
    obtain ⟨ms, pre, R, post, hsplit, hR2, hhead, _⟩ := hout
    have hmem : fs.bestFragmentedBlocks 0 ∈ ns := by
      rw [hsplit]
      have := List.mem_of_mem_head? hhead
      simp [this]
    have hb := hok.bounded _ hmem
    show Except.ok (padd (fs.bestFragmentedBlocks 0) NODE, t) = _
    rw [show padd (fs.bestFragmentedBlocks 0) NODE = fs.bestFragmentedBlocks 0 + 24 from
      padd_eq (by unfold NODE; omega)]
  by_cases hm : fs.minFragmentSize ≠ 0
  · by_cases h1 : bf.foundMinBlock = 1
    · by_cases hlt : fs.minFragmentSize < bf.minBlockSize
      · obtain ⟨t, ht⟩ := hfrag hm
        rw [if_pos ⟨hm, h1⟩, if_pos hlt] at hfind
        obtain ⟨e, hout⟩ := ht hfind
        exact ⟨bf, fs, _, t, hbinv, hfinv, hno, hbf, hfs, e, Or.inr (Or.inr
          ⟨hm, Or.inr hlt, rfl, hout⟩)⟩
      · obtain ⟨t, ht⟩ := hsingle h1
        rw [if_pos ⟨hm, h1⟩, if_neg hlt] at hfind
        obtain ⟨e, hout⟩ := ht hfind
        exact ⟨bf, fs, _, t, hbinv, hfinv, hno, hbf, hfs, e, Or.inr (Or.inl
          ⟨h1, Or.inr (by omega), rfl, hout⟩)⟩
    · obtain ⟨t, ht⟩ := hfrag hm
      rw [if_neg (fun h => h1 h.2), if_pos hm] at hfind
      obtain ⟨e, hout⟩ := ht hfind
      exact ⟨bf, fs, _, t, hbinv, hfinv, hno, hbf, hfs, e, Or.inr (Or.inr
        ⟨hm, Or.inl (by omega), rfl, hout⟩)⟩
  · have hm0 : fs.minFragmentSize = 0 := by omega
    by_cases h1 : bf.foundMinBlock = 1
    · obtain ⟨t, ht⟩ := hsingle h1
      rw [if_neg (fun h => hm h.1), if_neg hm, if_pos h1] at hfind
      obtain ⟨e, hout⟩ := ht hfind
      exact ⟨bf, fs, _, t, hbinv, hfinv, hno, hbf, hfs, e, Or.inr (Or.inl
        ⟨h1, Or.inl hm0, rfl, hout⟩)⟩
    · rw [if_neg (fun h => hm h.1), if_neg hm, if_neg h1] at hfind
      refine ⟨bf, fs, 24, s, hbinv, hfinv, hno, hbf, hfs, ?_, Or.inl
        ⟨by omega, hm0, rfl, rfl⟩⟩
      rw [hfind]
      rfl

/-! ## Fragment search: the recorded size is minimal among maximal stretches -/

theorem span_prefix_le (s : Heap) {P L : List Nat} (h : P <+: L) : span s P ≤ span s L := by
  obtain ⟨q, rfl⟩ := h
  cases P with
  | nil => simp [span]
  | cons a P =>
    simp only [span, List.cons_append, List.map_append, List.sum_append]
    omega

/-- A contiguous run at the end of `vis` that cannot be extended to the left is
the last contiguous run of `vis`. -/
theorem lastRun_of_leftMaximal {s : Heap} {vis pre R : List Nat} (hsplit : vis = pre ++ R)
    (hne : R ≠ []) (hcon : Contig s R) (hlm : LeftMaximal s pre R) : lastRun s vis = R := by
  obtain ⟨q, hq⟩ := lastRun_maximal s vis R ⟨pre, hsplit.symm⟩ hcon
  rcases List.eq_nil_or_concat q with rfl | ⟨q', l, rfl⟩
  · simpa using hq.symm
  · exfalso
    rw [List.concat_eq_append] at hq
    obtain ⟨t, ht⟩ := lastRun_suffix s vis
    have hpre : pre = t ++ q' ++ [l] := by
      have e : (t ++ q' ++ [l]) ++ R = pre ++ R := by
        rw [← hsplit, ← ht, ← hq]; simp
      exact (List.append_cancel_right e).symm
    have hlast : pre.getLast? = some l := by rw [hpre]; simp
    have hc := lastRun_contig s vis
    rw [← hq] at hc
    have hc2 : Contig s (q' ++ l :: R) := by
      have e : q' ++ [l] ++ R = q' ++ l :: R := by simp
      rw [← e]; exact hc
    exact hlm l hlast (List.chain'_append.1 hc2).2.1

/-- After the run-extension step either the contiguous stretch goes on, or
the array holds exactly the last contiguous run, which then is the node just
read. -/
theorem fragmentExtend_run {s : Heap} {req : Nat} {ns vis : List Nat} {cur : Nat}
    {rest : List Nat} {st st1 : FragScan} (c : FragCtx s ns vis cur rest)
    (h : FragInv s req ns vis st) (hext : fragmentExtend s cur st = Except.ok st1)
    (hinv1 : FragInv s req ns (vis ++ [cur]) st1) :
    lastRun s (vis ++ [cur]) = lastRun s vis ++ [cur] ∨
      (List.range st1.fragmentCount).map st1.fragmentedBlocks = lastRun s (vis ++ [cur]) := by
  by_cases hadj : ∃ l, vis.getLast? = some l ∧ cur = l + 24 + s.length l
  · left
    obtain ⟨l, hl, e⟩ := hadj
    rw [lastRun_snoc]
    unfold runStep
    rw [lastRun_getLast?, hl]
    simp only
    rw [if_pos e]
  · right
    have hlr : lastRun s (vis ++ [cur]) = [cur] := by
      rw [lastRun_snoc]
      unfold runStep
      rw [lastRun_getLast?]
      cases hg : vis.getLast? with
      | none => rfl
      | some l =>
        simp only
        rw [if_neg (fun e => hadj ⟨l, hg, e⟩)]
    rw [hlr]
    -- the array is a contiguous suffix of `vis ++ [cur]` that ends with `cur`
    have hsuf := hinv1.1
    have hcon := hinv1.2.1
    have hmax := lastRun_maximal s _ _ hsuf hcon
    rw [hlr] at hmax
    have hlen := hmax.length_le
    simp only [List.length_map, List.length_range, List.length_singleton] at hlen
    obtain ⟨st1', hext', _, _, _, hc1, _⟩ := fragmentExtend_spec c h
    rw [hext] at hext'
    have e1 : st1 = st1' := Except.ok.inj hext'
    subst e1
    have hcount : st1.fragmentCount = 1 := by omega
    have hmaxl := hmax
    rw [hcount] at hmaxl ⊢
    obtain ⟨q, hq⟩ := hmaxl
    have hl2 := congrArg List.length hq
    simp only [List.length_append, List.length_map, List.length_range,
      List.length_singleton] at hl2
    have hq0 : q = [] := List.length_eq_zero.1 (by omega)
    subst hq0
    simpa using hq

/-- One iteration of the fragment loop keeps `LeastInv`, whether it records
the current run or not. -/
theorem LeastInv.next {s : Heap} {req : Nat} {ns vis : List Nat} {cur : Nat} {rest : List Nat}
    {st st1 : FragScan} (c : FragCtx s ns vis cur rest) (hinv : FragInv s req ns vis st)
    (hl : LeastInv s req vis st) (hext : fragmentExtend s cur st = Except.ok st1)
    (hinv1 : FragInv s req ns (vis ++ [cur]) st1)
    (hmin : st1.minFragmentSize = st.minFragmentSize)
    (hrun : (List.range st.fragmentCount).map st.fragmentedBlocks = lastRun s vis →
      (List.range st1.fragmentCount).map st1.fragmentedBlocks = lastRun s (vis ++ [cur])) :
    (¬ (st1.currentFreeSize ≥ req ∧ st1.fragmentCount > 1 ∧ st1.minFragmentSize = 0) →
      ¬ (st1.currentFreeSize ≥ req ∧ st1.currentFreeSize < st1.minFragmentSize
          ∧ st1.fragmentCount > 1) → LeastInv s req (vis ++ [cur]) st1) ∧
    ((st1.currentFreeSize ≥ req ∧ st1.fragmentCount > 1 ∧ st1.minFragmentSize = 0) ∨
      (st1.currentFreeSize ≥ req ∧ st1.currentFreeSize < st1.minFragmentSize
          ∧ st1.fragmentCount > 1) → LeastInv s req (vis ++ [cur]) (restarted s cur st1)) := by
  obtain ⟨h1, h2⟩ := hl
  have hX := fragmentExtend_run c hinv hext hinv1
  have hM2 : (List.range st1.fragmentCount).map st1.fragmentedBlocks = lastRun s (vis ++ [cur]) ∨
      (st1.minFragmentSize ≠ 0 ∧ ∃ P, P <+: lastRun s (vis ++ [cur]) ∧
        st1.minFragmentSize ≤ span s P) := by
    rcases h2 with e | ⟨hm0, P, hP, hle⟩
    · exact Or.inl (hrun e)
    · rcases hX with e | e
      · right
        rw [hmin]
        exact ⟨hm0, P, by rw [e]; exact hP.trans (List.prefix_append _ _), hle⟩
      · exact Or.inl e
  have hsz : st1.currentFreeSize
      = span s ((List.range st1.fragmentCount).map st1.fragmentedBlocks) := hinv1.2.2.1
  have hcnt : ((List.range st1.fragmentCount).map st1.fragmentedBlocks).length
      = st1.fragmentCount := by simp
  have hR : ∀ pre R post, vis ++ [cur] = pre ++ R ++ post → 2 ≤ R.length → Contig s R →
      req ≤ span s R → LeftMaximal s pre R →
      (st1.minFragmentSize ≠ 0 ∧ st1.minFragmentSize ≤ span s R) ∨
        R = lastRun s (vis ++ [cur]) := by
    intro pre R post hsplit hR2 hcon hreq hlm
    rcases List.eq_nil_or_concat post with rfl | ⟨post', x, rfl⟩
    · right
      have hne : R ≠ [] := by
        intro e; subst e; simp at hR2
      exact (lastRun_of_leftMaximal (by simpa using hsplit) hne hcon hlm).symm
    · left
      have e := List.append_inj' (show vis ++ [cur] = (pre ++ R ++ post') ++ [x] by
        rw [hsplit, List.concat_eq_append]; simp) rfl
      rw [hmin]
      exact h1 pre R post' e.1 hR2 hcon hreq hlm
  constructor
  · intro hA hB
    refine ⟨fun pre R post hs hR2 hc hq hlm => ?_, hM2⟩
    rcases hR pre R post hs hR2 hc hq hlm with h | e
    · exact h
    · rcases hM2 with ea | ⟨hm0, P, hP, hle⟩
      · have hcfs : st1.currentFreeSize = span s R := by rw [hsz, ea, e]
        have hc2 : 1 < st1.fragmentCount := by rw [← hcnt, ea, ← e]; omega
        have hm0 : st1.minFragmentSize ≠ 0 := fun h0 => hA ⟨by omega, hc2, h0⟩
        have hnl : ¬ st1.currentFreeSize < st1.minFragmentSize :=
          fun hlt => hB ⟨by omega, hlt, hc2⟩
        exact ⟨hm0, by omega⟩
      · have := span_prefix_le s hP
        rw [← e] at this
        exact ⟨hm0, by omega⟩
  · intro hAB
    have hge : req ≤ st1.currentFreeSize ∧ 1 < st1.fragmentCount ∧
        (st1.minFragmentSize = 0 ∨ st1.currentFreeSize < st1.minFragmentSize) := by
      rcases hAB with ⟨a, b, c⟩ | ⟨a, b, c⟩
      · exact ⟨a, b, Or.inl c⟩
      · exact ⟨a, c, Or.inr b⟩
    have hcfs0 : st1.currentFreeSize ≠ 0 := by
      have := span_two_le s (R := (List.range st1.fragmentCount).map st1.fragmentedBlocks)
        (by rw [hcnt]; omega)
      omega
    refine ⟨fun pre R post hs hR2 hc hq hlm => ?_, Or.inr ?_⟩
    · show st1.currentFreeSize ≠ 0 ∧ st1.currentFreeSize ≤ span s R
      refine ⟨hcfs0, ?_⟩
      rcases hR pre R post hs hR2 hc hq hlm with ⟨hm0, hle⟩ | e
      · rcases hge.2.2 with h0 | hlt
        · exact absurd h0 hm0
        · omega
      · rcases hM2 with ea | ⟨hm0, P, hP, hle⟩
        · rw [hsz, ea, e]
        · have := span_prefix_le s hP
          rw [← e] at this
          rcases hge.2.2 with h0 | hlt
          · exact absurd h0 hm0
          · omega
    · show st1.currentFreeSize ≠ 0 ∧ ∃ P, P <+: lastRun s (vis ++ [cur]) ∧
        st1.currentFreeSize ≤ span s P
      refine ⟨hcfs0, ?_⟩
      rcases hM2 with ea | ⟨hm0, P, hP, hle⟩
      · exact ⟨_, List.prefix_refl _, by rw [hsz, ea]⟩
      · rcases hge.2.2 with h0 | hlt
        · exact absurd h0 hm0
        · exact ⟨P, hP, by omega⟩

set_option maxRecDepth 100000 in
theorem longHeap_seg : Seg longHeap 0 4096 longNodes 0 := by decide

theorem longHeap_nodup : longNodes.Nodup :=
  List.Nodup.map (fun a b h => by
    have h : 4096 + 48 * a = 4096 + 48 * b := h
    omega) (List.nodup_range 256)

theorem longHeap_dll : DLL longHeap longNodes := ⟨longHeap_seg, longHeap_nodup⟩

set_option maxRecDepth 100000 in
theorem longHeap_contig : Contig longHeap longNodes := by decide

set_option maxRecDepth 100000 in
theorem longHeap_span : span longHeap longNodes = 12264 := by decide

theorem runHeap_ok : ListOK runHeap [4096, 4144, 4192] :=
  ⟨by decide, by decide, by decide, by decide⟩

/-- C11 (failing input): `HmmCalloc(2^32, 2^32)` in a fresh process.  The
product `2^64` wraps to `total_size = 0`, `HmmAlloc(0)` serves a minimum
block, and `HmmCalloc` returns the non-null pointer 4120 whose header holds
24: the payload is far smaller than the product `nmemb × size`. -/
theorem HmmCalloc_product_overflow :
    ∃ p t, HmmCalloc 100 0 startHeap 4294967296 4294967296 = Except.ok (p, t) ∧
      u64 (4294967296 * 4294967296) = 0 ∧ p = 4120 ∧ p ≠ 0 ∧ t.length (psub p 24) = 24 ∧
      t.length (psub p 24) < 4294967296 * 4294967296 := by
  have hobs : (HmmCalloc 100 0 startHeap 4294967296 4294967296).observe (fun q =>
      [q.1, q.2.length (psub q.1 24)]) = some [4120, 24] := by decide
  obtain ⟨⟨p, t⟩, hq, hl⟩ := Run.observe_some hobs
  simp only [List.cons.injEq, and_true] at hl
  obtain ⟨h1, h2⟩ := hl
  refine ⟨p, t, hq, by decide, h1, by rw [h1]; decide, h2, by rw [h2]; decide⟩

/-- C13 (failing input): the free list of `longHeap` is one physically
contiguous run of 256 nodes of length 24, of span 12264.  For the request
12260 `find_best_fit_block` returns the not-found sentinel 24 although that
run reaches the request: at the 256th node the 8-bit `fragmentCount` wraps to
0, so the test `fragmentCount > 1` fails and nothing is recorded. -/
theorem find_best_fit_block_misses_long_run :
    ∃ t, find_best_fit_block 1000 longHeap 12260 = Except.ok (24, t) ∧
      DLL longHeap longNodes ∧ longNodes.length = 256 ∧ Contig longHeap longNodes ∧
      span longHeap longNodes = 12264 ∧ 12260 ≤ span longHeap longNodes := by
  have hobs : (find_best_fit_block 1000 longHeap 12260).observe (fun r => [r.1])
      = some [24] := by
    set_option maxRecDepth 100000 in decide
  obtain ⟨⟨p, t⟩, hq, hl⟩ := Run.observe_some hobs
  simp only [List.cons.injEq, and_true] at hl
  subst hl
  exact ⟨t, hq, longHeap_dll, by simp [longNodes], longHeap_contig, longHeap_span,
    by rw [longHeap_span]; decide⟩

/-- C14 (failing input): `a = HmmAlloc(140000)`, `b = HmmAlloc(64752)`,
`HmmFree(a)`, `HmmFree(b)`.  The first free lowers `programBreak` to 77824
(below the live block `b`); the second one puts `b` on the free list, so the
list ends with the node 144120 of length 64752, which lies entirely above
`programBreak`. -/
theorem HmmFree_node_above_break :
    ∃ b s t, strandedScenario = Except.ok (b, s, t) ∧ HmmFree 100 s b = Except.ok t ∧
      b = 144144 ∧ DLL t [4096, 144120] ∧ t.length 144120 = 64752 ∧
      t.programBreak = 77824 ∧ t.programBreak < 144120 ∧
      t.programBreak < 144120 + 24 + t.length 144120 := by
  have hobs : strandedScenario.observe (fun q =>
      [q.1, q.2.2.FreeListHead, q.2.2.prev 4096, q.2.2.next 4096, q.2.2.prev 144120,
       q.2.2.next 144120, q.2.2.length 144120, q.2.2.programBreak])
      = some [144144, 4096, 0, 144120, 4096, 0, 64752, 77824] := by decide
  obtain ⟨⟨b, s, t⟩, hq, hl⟩ := Run.observe_some hobs
  simp only [List.cons.injEq, and_true] at hl
  obtain ⟨h1, h2, h3, h4, h5, h6, h7, h8⟩ := hl
  have hfree : HmmFree 100 s b = Except.ok t := by
    unfold strandedScenario at hq
    obtain ⟨a', _, hq⟩ := bind_ok_elim hq
    obtain ⟨b', _, hq⟩ := bind_ok_elim hq
    obtain ⟨s', _, hq⟩ := bind_ok_elim hq
    obtain ⟨t', ht, hq⟩ := bind_ok_elim hq
    have := pure_ok_inj hq
    simp only [Prod.mk.injEq] at this
    obtain ⟨e1, e2, e3⟩ := this
    rw [← e1, ← e2, ← e3]; exact ht
  refine ⟨b, s, t, hq, hfree, h1, ⟨⟨h2, by decide, h3, h4, by decide, h5, h6⟩, by decide⟩,
    h7, h8, by rw [h8]; decide, by rw [h8, h7]; decide⟩

/-- C15 (failing input): `p = HmmAlloc(40)`, then `HmmRealloc(p, 81)`.  The
difference `81 - 40 = 41` is passed unrounded to `find_best_fit_block`, which
splits the follower; the block grows in place and its header then holds
`81 + 24 = 105`, and the free list is the single node 4225 of length 204647:
neither length is a multiple of 8. -/
theorem HmmRealloc_unaligned_lengths :
    ∃ p s q t, unalignedScenario = Except.ok (p, s, q, t) ∧
      HmmRealloc 100 0 s p 81 = Except.ok (q, t) ∧ q = p ∧ s.length (psub p 24) = 40 ∧
      t.length (psub p 24) = 105 ∧ t.length (psub p 24) % 8 ≠ 0 ∧
      DLL t [4225] ∧ t.length 4225 = 204647 ∧ t.length 4225 % 8 ≠ 0 := by
  have hobs : unalignedScenario.observe (fun q =>
      [q.1, q.2.1.length (psub q.1 24), q.2.2.1, q.2.2.2.length (psub q.1 24),
       q.2.2.2.FreeListHead, q.2.2.2.prev 4225, q.2.2.2.next 4225, q.2.2.2.length 4225])
      = some [4120, 40, 4120, 105, 4225, 0, 0, 204647] := by decide
  obtain ⟨⟨p, s, q, t⟩, hq, hl⟩ := Run.observe_some hobs
  simp only [List.cons.injEq, and_true] at hl
  obtain ⟨h1, h2, h3, h4, h5, h6, h7, h8⟩ := hl
  have hre : HmmRealloc 100 0 s p 81 = Except.ok (q, t) := by
    unfold unalignedScenario at hq
    obtain ⟨a', _, hq⟩ := bind_ok_elim hq
    obtain ⟨r', hr, hq⟩ := bind_ok_elim hq
    have := pure_ok_inj hq
    simp only [Prod.mk.injEq] at this
    obtain ⟨e1, e2, e3, e4⟩ := this
    rw [← e1, ← e2, ← e3, ← e4]; exact hr
  refine ⟨p, s, q, t, hq, hre, by rw [h3, h1], h2, h4, by rw [h4]; decide,
    ⟨⟨h5, by decide, h6, h7⟩, by decide⟩, h8, by rw [h8]; decide⟩

/-- C17 (counterexample): scenario S5.  `p = HmmAlloc(1000)`, then
`HmmRealloc(p, 100)` returns `p` and leaves 104 in its header, but the tail
that was carved off is freed next to the rest of the page: the reclaim of
`HmmFree` swallows both, lowers `programBreak` to 77824 and leaves a free
list of the single node `p + 104` whose length is 104, not 872. -/
theorem HmmRealloc_shrink_tail_reclaimed :
    ∃ p s q t, shrinkScenario = Except.ok (p, s, q, t) ∧
      HmmRealloc 100 0 s p 100 = Except.ok (q, t) ∧ q = p ∧ s.length (psub p 24) = 1000 ∧
      t.length (psub p 24) = 104 ∧ DLL t [p + 104] ∧ t.length (p + 104) = 104 ∧
      t.length (p + 104) ≠ 1000 - 104 - 24 ∧ t.programBreak = 77824 := by
  have hobs : shrinkScenario.observe (fun q =>
      [q.1, q.2.1.length (psub q.1 24), q.2.2.1, q.2.2.2.length (psub q.1 24),
       q.2.2.2.FreeListHead, q.2.2.2.prev 4224, q.2.2.2.next 4224, q.2.2.2.length 4224,
       q.2.2.2.programBreak])
      = some [4120, 1000, 4120, 104, 4224, 0, 0, 104, 77824] := by decide
  obtain ⟨⟨p, s, q, t⟩, hq, hl⟩ := Run.observe_some hobs
  simp only [List.cons.injEq, and_true] at hl
  obtain ⟨h1, h2, h3, h4, h5, h6, h7, h8, h9⟩ := hl
  have hre : HmmRealloc 100 0 s p 100 = Except.ok (q, t) := by
    unfold shrinkScenario at hq
    obtain ⟨a', _, hq⟩ := bind_ok_elim hq
    obtain ⟨r', hr, hq⟩ := bind_ok_elim hq
    have := pure_ok_inj hq
    simp only [Prod.mk.injEq] at this
    obtain ⟨e1, e2, e3, e4⟩ := this
    rw [← e1, ← e2, ← e3, ← e4]; exact hr
  subst h1
  refine ⟨_, s, q, t, hq, hre, h3, h2, h4, ⟨⟨h5, by decide, h6, h7⟩, by decide⟩, h8,
    by rw [show (4120 : Nat) + 104 = 4224 from rfl, h8]; decide, h9⟩

/-- C18: on a well-formed free list the single-block search of
`find_best_fit_block` returns; it selects nothing exactly when no node has a
length of at least the request; otherwise the selected node is in the list,
its length is the minimum among the nodes that are large enough, and every
node before it in list order that is large enough is strictly longer. -/
theorem bestFitScan_selects (s : Heap) (ns : List Nat) (req fuel : Nat) (h : DLL s ns)
    (hf : ns.length < fuel) :
    ∃ bf, bestFitScan fuel s req s.FreeListHead
        { foundMinBlock := 0, minBlockSize := 0, bestFitBlock := 0 } = Except.ok bf ∧
      (bf.foundMinBlock = 0 ∨ bf.foundMinBlock = 1) ∧
      (bf.foundMinBlock = 0 ↔ ∀ x ∈ ns, s.length x < req) ∧
      (bf.foundMinBlock = 1 → ∃ pre post, ns = pre ++ bf.bestFitBlock :: post ∧
        req ≤ s.length bf.bestFitBlock ∧ bf.minBlockSize = s.length bf.bestFitBlock ∧
        (∀ x ∈ ns, req ≤ s.length x → s.length bf.bestFitBlock ≤ s.length x) ∧
        (∀ x ∈ pre, req ≤ s.length x → s.length bf.bestFitBlock < s.length x)) := by
  obtain ⟨bf, hbf, hinv⟩ := @bestFitScan_spec s req ns [] fuel 0 s.FreeListHead _ h.1
    (BestInv.initial s req) hf
  rw [List.nil_append] at hinv
  obtain ⟨h01, h0, h1⟩ := hinv
  have hsel : bf.foundMinBlock = 1 → ∃ pre post, ns = pre ++ bf.bestFitBlock :: post ∧
      req ≤ s.length bf.bestFitBlock ∧ bf.minBlockSize = s.length bf.bestFitBlock ∧
      (∀ x ∈ ns, req ≤ s.length x → s.length bf.bestFitBlock ≤ s.length x) ∧
      (∀ x ∈ pre, req ≤ s.length x → s.length bf.bestFitBlock < s.length x) := by
    intro e
    obtain ⟨e1, e2, pre, post, e3, e4, e5⟩ := h1 e
    refine ⟨pre, post, e3, by rw [e1]; exact e2, e1.symm, ?_, ?_⟩
    · intro x hx hreq
      rw [e3] at hx
      rcases List.mem_append.1 hx with hx | hx
      · have := e4 x hx hreq; omega
      · rcases List.mem_cons.1 hx with rfl | hx
        · exact Nat.le_refl _
        · have := e5 x hx hreq; omega
    · intro x hx hreq
      have := e4 x hx hreq; omega
  refine ⟨bf, hbf, h01, ⟨h0, fun hall => ?_⟩, hsel⟩
  rcases h01 with e | e
  · exact e
  · obtain ⟨pre, post, e3, e4, _⟩ := hsel e
    have := hall bf.bestFitBlock (by rw [e3]; simp)
    omega

theorem bestFitScan_selects_witness :
    ∃ bf, bestFitScan 3 demoHeap 150 demoHeap.FreeListHead
        { foundMinBlock := 0, minBlockSize := 0, bestFitBlock := 0 } = Except.ok bf ∧
      (bf.foundMinBlock = 0 ∨ bf.foundMinBlock = 1) ∧
      (bf.foundMinBlock = 0 ↔ ∀ x ∈ [4096, 8192], demoHeap.length x < 150) ∧
      (bf.foundMinBlock = 1 → ∃ pre post, [4096, 8192] = pre ++ bf.bestFitBlock :: post ∧
        150 ≤ demoHeap.length bf.bestFitBlock ∧
        bf.minBlockSize = demoHeap.length bf.bestFitBlock ∧
        (∀ x ∈ [4096, 8192], 150 ≤ demoHeap.length x →
          demoHeap.length bf.bestFitBlock ≤ demoHeap.length x) ∧
        (∀ x ∈ pre, 150 ≤ demoHeap.length x →
          demoHeap.length bf.bestFitBlock < demoHeap.length x)) :=
  bestFitScan_selects demoHeap [4096, 8192] 150 3 demoHeap_dll (by decide)

/-- C20 (failing input): the free list of `staleHeap` is
`[4096, 4144, 4192, 8192, 8320]`; no node is as long as the request 208 and
the only run that reaches it is `[8192, 8320]` (span 232).
`find_best_fit_block` returns `8192 + 24`, and afterwards the free list is
`[4096, 4144]`: the node 4192, which is not in the winning run, has been
removed as well (it was left in the array by the earlier run
`4096, 4144, 4192`). -/
theorem find_best_fit_block_removes_stale_node :
    ∃ p t, find_best_fit_block 100 staleHeap 208 = Except.ok (p, t) ∧
      DLL staleHeap [4096, 4144, 4192, 8192, 8320] ∧
      (∀ x ∈ [4096, 4144, 4192, 8192, 8320], staleHeap.length x < 208) ∧
      span staleHeap [4096, 4144, 4192] < 208 ∧ ¬ Contig staleHeap [4192, 8192] ∧
      Contig staleHeap [8192, 8320] ∧ span staleHeap [8192, 8320] = 232 ∧
      p = 8192 + 24 ∧ 4192 ∉ [8192, 8320] ∧ DLL t [4096, 4144] := by
  have hobs : (find_best_fit_block 100 staleHeap 208).observe (fun r =>
      [r.1, r.2.FreeListHead, r.2.prev 4096, r.2.next 4096, r.2.prev 4144, r.2.next 4144])
      = some [8216, 4096, 0, 4144, 4096, 0] := by decide
  obtain ⟨⟨p, t⟩, hq, hl⟩ := Run.observe_some hobs
  simp only [List.cons.injEq, and_true] at hl
  obtain ⟨h1, h2, h3, h4, h5, h6⟩ := hl
  exact ⟨p, t, hq, by decide, by decide, by decide, by decide, by decide, by decide, h1,
    by decide, ⟨⟨h2, by decide, h3, h4, by decide, h5, h6⟩, by decide⟩⟩

theorem increase_program_break_ok {s : Heap} (h : s.osBreak + PAGE_SIZE ≤ s.osLimit) :
    increase_program_break s PAGE_SIZE
      = (s.osBreak + PAGE_SIZE, { s with osBreak := s.osBreak + PAGE_SIZE }) := by
  have hp : PAGE_SIZE = 204800 := rfl
  rw [hp] at h ⊢
  simp only [increase_program_break, sbrk]
  simp [h]

theorem increase_program_break_refused {s : Heap} (h : s.osLimit < s.osBreak + PAGE_SIZE) :
    increase_program_break s PAGE_SIZE = (0, s) := by
  have hp : PAGE_SIZE = 204800 := rfl
  rw [hp] at h ⊢
  have h' : ¬ s.osBreak + 204800 ≤ s.osLimit := by omega
  simp only [increase_program_break, sbrk]
  simp [h']

theorem orderedInsert_last : ∀ (ns : List Nat) (b : Nat), (∀ x ∈ ns, x < b) →
    ns.orderedInsert (fun x y => x ≤ y) b = ns ++ [b]
  | [], b, _ => rfl
  | x :: xs, b, h => by
    have hx : ¬ b ≤ x := by
      have := h x (List.mem_cons_self _ _); omega
    rw [List.orderedInsert, if_neg hx, orderedInsert_last xs b
      (fun y hy => h y (List.mem_cons_of_mem _ hy))]
    rfl

theorem lastRun_mem (s : Heap) (ns : List Nat) : ∀ x ∈ lastRun s ns, x ∈ ns :=
  fun x hx => (lastRun_suffix s ns).subset hx

theorem span_congr_on {s t : Heap} : ∀ (run : List Nat),
    (∀ x ∈ run, t.length x = s.length x) → span t run = span s run
  | [], _ => rfl
  | a :: rest, h => by
    have h1 : rest.map (fun x => t.length x + 24) = rest.map (fun x => s.length x + 24) :=
      List.map_congr_left (fun x hx => by rw [h x (List.mem_cons_of_mem _ hx)])
    simp only [span, h a (List.mem_cons_self _ _), h1]

theorem lastRun_congr_on {s t : Heap} (ns : List Nat) :
    (∀ x ∈ ns, t.length x = s.length x) → lastRun t ns = lastRun s ns := by
  induction ns using List.reverseRecOn with
  | nil => intro _; rfl
  | append_singleton v c ih =>
    intro h
    have hv := ih (fun x hx => h x (List.mem_append_left _ hx))
    rw [lastRun_snoc, lastRun_snoc, hv]
    unfold runStep
    cases hl : (lastRun s v).getLast? with
    | none => rfl
    | some l =>
      have hlm : l ∈ v := lastRun_mem s v l (List.mem_of_mem_getLast? hl)
      simp only
      rw [h l (List.mem_append_left _ hlm)]

/-- The blocks of a physically contiguous run tile the bytes from its first
header to the end of its last block. -/
theorem Contig.cover {s : Heap} : ∀ (xs : List Nat) (x : Nat), Contig s (x :: xs) →
    ∀ y, x ≤ y → y < x + 24 + span s (x :: xs) →
    ∃ z ∈ x :: xs, z ≤ y ∧ y < z + 24 + s.length z
  | [], x, _, y, h1, h2 => by
    refine ⟨x, List.mem_cons_self _ _, h1, ?_⟩
    simpa [span] using h2
  | z :: zs, x, hc, y, h1, h2 => by
    have hxz : z = x + 24 + s.length x := by
      unfold Contig at hc
      exact (List.chain'_cons.1 hc).1
    have hcz : Contig s (z :: zs) := by
      unfold Contig at hc ⊢
      exact (List.chain'_cons.1 hc).2
    by_cases hy : y < z
    · exact ⟨x, List.mem_cons_self _ _, h1, by omega⟩
    · have hsp : span s (x :: z :: zs) = s.length x + 24 + span s (z :: zs) := by
        simp only [span, List.map_cons, List.sum_cons]; omega
      obtain ⟨w, hw, h3, h4⟩ := Contig.cover zs z hcz y (by omega) (by omega)
      exact ⟨w, List.mem_cons_of_mem _ hw, h3, h4⟩

theorem psub_24_24 : psub 24 24 = 0 := by decide

theorem ok_bind {α β : Type} (x : α) (f : α → Run β) : (Except.ok x >>= f) = f x := rfl

theorem growAndRetry_done {fuel inner a req : Nat} {s : Heap} (ha : psub a 24 ≠ 0)
    (hf : 0 < fuel) : growAndRetry fuel inner s a req = Except.ok (a, s) := by
  obtain ⟨f, rfl⟩ : ∃ f, fuel = f + 1 := ⟨fuel - 1, by omega⟩
  simp only [growAndRetry, ha, if_false]
  rfl

theorem restore_break (s : Heap) (v : Nat) :
    ({ ({ s with programBreak := v } : Heap) with programBreak := s.programBreak } : Heap) = s := by
  cases s; rfl

theorem growAndRetry_refused {fuel inner req : Nat} {s : Heap}
    (h : s.osLimit < s.osBreak + PAGE_SIZE) (hf : 2 ≤ fuel) :
    growAndRetry fuel inner s 24 req = Except.ok (0, s) := by
  obtain ⟨f, rfl⟩ : ∃ f, fuel = f + 2 := ⟨fuel - 2, by omega⟩
  have h0 : psub 0 24 ≠ 0 := by decide
  simp only [growAndRetry, psub_24_24, if_true, increase_program_break_refused h, h0, if_false]
  rw [restore_break]
  rfl

theorem growAndRetry_grow {f inner req : Nat} {s : Heap}
    (h : s.osBreak + PAGE_SIZE ≤ s.osLimit) :
    growAndRetry (f + 1) inner s 24 req
      = (registerRegion inner (grown s) s.programBreak >>= fun s2 =>
          find_best_fit_block inner s2 req >>= fun r => growAndRetry f inner r.2 r.1 req) := by
  have hne : s.osBreak + PAGE_SIZE ≠ 0 := by
    have : PAGE_SIZE = 204800 := rfl
    omega
  simp only [growAndRetry, psub_24_24, if_true, increase_program_break_ok h, hne, if_false]
  rfl

/-- Growing the segment by a page and registering the new region: the region
becomes the last node of the free list. -/
theorem registerRegion_grown {s : Heap} {ns : List Nat} {fuel : Nat} (h : HeapOK s ns)
    (hroom : s.osBreak + PAGE_SIZE ≤ s.osLimit) (hlen : ns.length < 255)
    (hf : ns.length < fuel) :
    ∃ t, registerRegion fuel (grown s) s.programBreak = Except.ok t ∧
      HeapOK t (ns ++ [s.programBreak]) ∧
      t.length = set s.length s.programBreak 204776 ∧
      t.programBreak = s.programBreak + PAGE_SIZE ∧ t.payload = s.payload ∧
      t.osLimit = s.osLimit ∧ t.osFloor = s.osFloor ∧
      t.initializationFlag = s.initializationFlag := by
  have hP : PAGE_SIZE = 204800 := rfl
  have hbrk := h.brk
  have hpos := h.pos
  have hlim := h.lim
  have hB0 : s.programBreak ≠ 0 := by omega
  have hg1 : psub (grown s).programBreak s.programBreak = 204800 := by
    show psub (s.osBreak + PAGE_SIZE) s.programBreak = 204800
    rw [psub_eq (by omega) (by omega)]; omega
  have hg2 : psub 204800 24 = 204776 := by decide
  have hpay : psub (padd s.programBreak 24) NODE = s.programBreak :=
    psub_padd (by omega)
  obtain ⟨s2, hs2⟩ : ∃ s2 : Heap, s2 = { grown s with length := set (grown s).length s.programBreak 204776 } :=
    ⟨_, rfl⟩
  have hd2 : DLL s2 ns := by
    rw [hs2]; exact h.list.dll.congr rfl rfl rfl
  have hnot : s.programBreak ∉ ns := by
    intro hx
    have := h.below _ hx
    omega
  have hlen2 : s2.length = set s.length s.programBreak 204776 := by rw [hs2]; rfl
  obtain ⟨t, ht, hdt, hlt⟩ := @insert_block_into_freelist_spec _ _ _ _ fuel hd2 hpay hB0 hnot hf
  have hlt' : t.length = set s.length s.programBreak 204776 := by rw [hlt.1, hlen2]
  have hpb : t.programBreak = s.programBreak + PAGE_SIZE := by
    rw [hlt.2.2.1, hs2]
    show s.osBreak + PAGE_SIZE = _
    rw [hbrk]
  have hob : t.osBreak = s.programBreak + PAGE_SIZE := by
    rw [hlt.2.2.2.2.1, hs2]
    show s.osBreak + PAGE_SIZE = _
    rw [hbrk]
  have hol : t.osLimit = s.osLimit := by rw [hlt.2.2.2.2.2.2, hs2]; rfl
  have hlx : ∀ x ∈ ns, t.length x = s.length x := by
    intro x hx
    rw [hlt', set_ne _ _ (fun e => hnot (by rw [← e]; exact hx))]
  have hlB : t.length s.programBreak = 204776 := by rw [hlt', set_eq]
  have hins : ns.orderedInsert (fun x y => x ≤ y) s.programBreak = ns ++ [s.programBreak] :=
    orderedInsert_last ns _ (fun x hx => by have := h.below x hx; omega)
  rw [hins] at hdt
  refine ⟨t, ?_, ⟨⟨hdt, ?_, ?_, ?_⟩, ?_, by rw [hob, hpb], by omega, by omega⟩, hlt', hpb,
    by rw [hlt.2.1, hs2]; rfl, hol, by rw [hlt.2.2.2.2.2.1, hs2]; rfl,
    by rw [hlt.2.2.2.1, hs2]; rfl⟩
  · rw [hs2] at ht
    simp only [registerRegion, hB0, if_false, hg1, hg2]
    exact ht
  · rw [List.pairwise_append]
    refine ⟨?_, List.pairwise_singleton _ _, ?_⟩
    · exact h.list.sep.imp_of_mem (fun {a b} ha _ hab => by rw [hlx a ha]; exact hab)
    · intro x hx y hy
      have hy' : y = s.programBreak := by simpa using hy
      rw [hy', hlx x hx]
      exact h.below x hx
  · intro x hx
    rcases List.mem_append.1 hx with hx | hx
    · rw [hlx x hx]; exact h.list.bounded x hx
    · have hx' : x = s.programBreak := by simpa using hx
      rw [hx', hlB]; omega
  · rw [List.length_append, List.length_singleton]
    omega
  · intro x hx
    rcases List.mem_append.1 hx with hx | hx
    · rw [hlx x hx, hpb]
      have := h.below x hx
      omega
    · have hx' : x = s.programBreak := by simpa using hx
      rw [hx', hlB, hpb]; omega

/-- When neither search finds a candidate, the run at the top of the heap
cannot serve the request. -/
theorem not_found_reach {s : Heap} {ns : List Nat} {req : Nat} {bf : BestFit} {fs : FragScan}
    (hb : BestInv s req ns bf) (hn : NoRun s req ns fs) (h0 : bf.foundMinBlock = 0)
    (hm : fs.minFragmentSize = 0) : reach s ns < req + 24 := by
  unfold reach
  cases hl : ns.getLast? with
  | none => simp only; omega
  | some l =>
    simp only
    split
    · have hsuf := lastRun_suffix s ns
      have hcon := lastRun_contig s ns
      have hsmall := hb.2.1 h0
      by_cases h2 : 2 ≤ (lastRun s ns).length
      · obtain ⟨pre, hpre⟩ := hsuf
        have := (hn hm).2 pre (lastRun s ns) [] (by rw [List.append_nil, hpre]) h2 hcon
        omega
      · have hne : lastRun s ns ≠ [] := by
          intro e
          have := lastRun_eq_nil.1 e
          rw [this] at hl
          simp at hl
        match hr : lastRun s ns, hne, h2 with
        | [x], _, _ =>
          have hx : x ∈ ns := lastRun_mem s ns x (by rw [hr]; simp)
          have := hsmall x hx
          simp only [span, List.map_nil, List.sum_nil]
          omega
        | _ :: _ :: _, _, h2 => simp at h2
    · omega

/-- After a grow the run at the top of the heap is one page longer. -/
theorem reach_grown {s t : Heap} {ns : List Nat} (h : HeapOK s ns)
    (hlen : t.length = set s.length s.programBreak 204776)
    (hpb : t.programBreak = s.programBreak + PAGE_SIZE) :
    reach t (ns ++ [s.programBreak]) = reach s ns + PAGE_SIZE := by
  have hP : PAGE_SIZE = 204800 := rfl
  have hnot : s.programBreak ∉ ns := by
    intro hx
    have := h.below _ hx
    omega
  have hlx : ∀ x ∈ ns, t.length x = s.length x := by
    intro x hx
    rw [hlen, set_ne _ _ (fun e => hnot (by rw [← e]; exact hx))]
  have hlB : t.length s.programBreak = 204776 := by rw [hlen, set_eq]
  have hL : lastRun t ns = lastRun s ns := lastRun_congr_on ns hlx
  unfold reach
  rw [List.getLast?_append_of_ne_nil _ (by simp), List.getLast?_singleton]
  simp only
  rw [if_pos (by rw [hlB, hpb]; omega), lastRun_snoc, hL]
  unfold runStep
  rw [lastRun_getLast?]
  cases hl : ns.getLast? with
  | none =>
    simp only [span, List.map_nil, List.sum_nil, hlB]
    omega
  | some l =>
    have hlm : l ∈ ns := List.mem_of_mem_getLast? hl
    simp only
    rw [hlx l hlm]
    by_cases hadj : s.programBreak = l + 24 + s.length l
    · rw [if_pos hadj, if_pos hadj.symm]
      have hne : lastRun s ns ≠ [] := by
        intro e
        have := lastRun_eq_nil.1 e
        rw [this] at hl
        simp at hl
      rw [span_snoc t _ hne, hlB, span_congr_on _ (fun x hx => hlx x (lastRun_mem s ns x hx))]
      omega
    · rw [if_neg hadj, if_neg (fun e => hadj e.symm)]
      simp only [span, List.map_nil, List.sum_nil, hlB]
      omega

theorem mem_orderedInsert_iff {a b : Nat} {ms : List Nat} :
    a ∈ ms.orderedInsert (fun x y => x ≤ y) b ↔ a = b ∨ a ∈ ms := by
  rw [(List.perm_orderedInsert _ _ _).mem_iff]
  simp

theorem span_head_le (s : Heap) (b : Nat) (rest : List Nat) :
    s.length b ≤ span s (b :: rest) := by
  simp only [span]
  omega

/-- When the selection step takes the recorded run, the first node of the run
is shorter than the request: a node that is long enough would have been
preferred, its length being smaller than the span of the run. -/
theorem run_head_short {s t : Heap} {ns : List Nat} {b req m : Nat} {bf : BestFit}
    (hbinv : BestInv s req ns bf) (hor : bf.foundMinBlock = 0 ∨ m < bf.minBlockSize)
    (ht : RunTaken s t ns b req m) : s.length b < req := by
  obtain ⟨ms, pre, R, post, hsplit, hR2, hhead, hcon, hspan, _⟩ := ht
  obtain ⟨rest, hRe⟩ : ∃ rest, R = b :: rest := by
    match R, hhead with
    | a :: rest, hh => exact ⟨rest, by simp at hh; rw [hh]⟩
  have hmem : b ∈ ns := by rw [hsplit, hRe]; simp
  have hle : s.length b ≤ m := by rw [← hspan, hRe]; exact span_head_le s b rest
  by_contra hge
  have hreq : req ≤ s.length b := by omega
  rcases hbinv.1 with h0 | h1
  · have := hbinv.2.1 h0 b hmem
    omega
  · have hlt : m < bf.minBlockSize := by
      rcases hor with e | e
      · omega
      · exact e
    obtain ⟨e1, e2, pre2, post2, e3, e4, e5⟩ := hbinv.2.2 h1
    rw [e3] at hmem
    rcases List.mem_append.1 hmem with hm | hm
    · have := e4 b hm hreq
      omega
    · rcases List.mem_cons.1 hm with hm | hm
      · rw [hm] at hle; omega
      · have := e5 b hm hreq
        omega

/-- The guarantees of `HmmAlloc` when the search takes a single node. -/
theorem SingleTaken.single_post {s t : Heap} {ns : List Nat} {b req : Nat} (h : HeapOK s ns)
    (ht : SingleTaken s t ns b req) : AllocPost s ns req (b + 24) t := by
  obtain ⟨hfr, hmem, hreq, hsp, hwh⟩ := ht
  have hb0 : b ≠ 0 := h.list.dll.ne_zero b hmem
  have hout : ∀ a, Outside s ns a → a ≠ b ∧ (24 < s.length b - req → a ≠ b + req + 24) := by
    intro a ha
    rcases ha b hmem with h1 | h1 <;> constructor <;> omega
  refine ⟨?_, ?_, fun _ => ⟨by omega, ?_⟩, fun _ hp => absurd hp (by omega),
    fun hp => absurd hp (by omega)⟩
  · by_cases hc : 24 < s.length b - req
    · refine ⟨_, (hsp hc).2.1, fun a _ ha hx => ?_⟩
      rcases mem_orderedInsert_iff.1 hx with e | e
      · exact (hout a ha).2 hc e
      · have hm := List.mem_of_mem_erase e
        rcases ha a hm with h1 | h1 <;> omega
    · refine ⟨_, (hwh (by omega)).1, fun a _ ha hx => ?_⟩
      have hm := List.mem_of_mem_erase hx
      rcases ha a hm with h1 | h1 <;> omega
  · intro a _ ha
    by_cases hc : 24 < s.length b - req
    · rw [(hsp hc).2.2, set_ne _ _ ((hout a ha).2 hc), set_ne _ _ (hout a ha).1]
    · rw [(hwh (by omega)).2]
  · rw [show b + 24 - 24 = b by omega]
    by_cases hc : 24 < s.length b - req
    · rw [(hsp hc).2.2, set_ne _ _ (by omega), set_eq]
      refine ⟨Nat.le_refl _, by omega, fun hne => absurd rfl hne, fun _ => ?_,
        fun hn => absurd hmem hn⟩
      rw [if_neg (by omega)]
    · rw [(hwh (by omega)).2]
      refine ⟨hreq, by omega, fun _ => Or.inl ⟨hmem, rfl⟩, fun _ => ?_,
        fun hn => absurd hmem hn⟩
      rw [if_pos ⟨hreq, by omega⟩]

/-- The guarantees of `HmmAlloc` when the search takes the recorded run. -/
theorem RunTaken.run_post {s t : Heap} {ns : List Nat} {b req m : Nat} (h : HeapOK s ns)
    (ht : RunTaken s t ns b req m) (hlt : s.length b < req) :
    AllocPost s ns req (b + 24) t := by
  obtain ⟨ms, pre, R, post, hsplit, hR2, hhead, hcon, hspan, hreq, hsub, hgone, hfr, hsp, hwh⟩ :=
    ht
  obtain ⟨rest, hRe⟩ : ∃ rest, R = b :: rest := by
    match R, hhead with
    | a :: rest, hh => exact ⟨rest, by simp at hh; rw [hh]⟩
  have hRmem : ∀ x ∈ R, x ∈ ns := by
    intro x hx; rw [hsplit]; simp [hx]
  have hmem : b ∈ ns := hRmem b (by rw [hRe]; simp)
  have hb0 : b ≠ 0 := h.list.dll.ne_zero b hmem
  have hout : ∀ a, Outside s ns a → a ≠ b ∧ (24 < m - req → a ≠ b + req + 24) := by
    intro a ha
    refine ⟨by rcases ha b hmem with h1 | h1 <;> omega, fun hc e => ?_⟩
    rw [hRe] at hcon hspan
    obtain ⟨z, hz, h3, h4⟩ := Contig.cover rest b hcon (b + req + 24) (by omega) (by omega)
    rcases ha z (hRmem z (by rw [hRe]; exact hz)) with h1 | h1 <;> omega
  have houtms : ∀ a, Outside s ns a → a ∉ ms := by
    intro a ha hx
    have hm := hsub.subset hx
    rcases ha a hm with h1 | h1 <;> omega
  refine ⟨?_, ?_, fun _ => ⟨by omega, ?_⟩, fun _ hp => absurd hp (by omega),
    fun hp => absurd hp (by omega)⟩
  · by_cases hc : 24 < m - req
    · refine ⟨_, (hsp hc).2.1, fun a _ ha hx => ?_⟩
      rcases mem_orderedInsert_iff.1 hx with e | e
      · exact (hout a ha).2 hc e
      · exact houtms a ha e
    · exact ⟨_, (hwh (by omega)).1, fun a _ ha => houtms a ha⟩
  · intro a _ ha
    by_cases hc : 24 < m - req
    · rw [(hsp hc).2.2, set_ne _ _ ((hout a ha).2 hc), set_ne _ _ (hout a ha).1]
    · rw [(hwh (by omega)).2, set_ne _ _ (hout a ha).1]
  · rw [show b + 24 - 24 = b by omega]
    by_cases hc : 24 < m - req
    · rw [(hsp hc).2.2, set_ne _ _ (by omega), set_eq]
      refine ⟨Nat.le_refl _, by omega, fun hne => absurd rfl hne, fun _ => ?_,
        fun hn => absurd hmem hn⟩
      rw [if_neg (by omega)]
    · rw [(hwh (by omega)).2, set_eq]
      refine ⟨Nat.le_refl _, by omega, fun hne => absurd rfl hne, fun _ => ?_,
        fun hn => absurd hmem hn⟩
      rw [if_neg (by omega)]

/-- The guarantees of a search that follows a grow carry over to the state
before the grow. -/
theorem AllocPost.of_grown {s s1 t : Heap} {ns : List Nat} {req p : Nat} (h : HeapOK s ns)
    (hroom : s.osBreak + PAGE_SIZE ≤ s.osLimit)
    (hlen : s1.length = set s.length s.programBreak 204776)
    (hpb : s1.programBreak = s.programBreak + PAGE_SIZE)
    (hp : AllocPost s1 (ns ++ [s.programBreak]) req p t) : AllocPost s ns req p t := by
  obtain ⟨⟨ms, hd, hms⟩, hl, hhd, _, hnull⟩ := hp
  have hnot : s.programBreak ∉ ns := by
    intro hx
    have := h.below _ hx
    omega
  have hout : ∀ a, a < s.programBreak → Outside s ns a →
      a < s1.programBreak ∧ Outside s1 (ns ++ [s.programBreak]) a := by
    intro a ha hout
    refine ⟨by rw [hpb]; omega, fun x hx => ?_⟩
    rcases List.mem_append.1 hx with hx | hx
    · rw [hlen, set_ne _ _ (fun e => hnot (by rw [← e]; exact hx))]
      exact hout x hx
    · have hx' : x = s.programBreak := by simpa using hx
      rw [hx']; exact Or.inl ha
  refine ⟨⟨ms, hd, fun a ha ho => hms a (hout a ha ho).1 (hout a ha ho).2⟩, fun a ha ho => ?_,
    fun hp0 => ?_, fun hr => absurd hroom (by omega), hnull⟩
  · rw [hl a (hout a ha ho).1 (hout a ha ho).2, hlen, set_ne _ _ (by omega)]
  · obtain ⟨g1, g2, g3, g4, g5, g6⟩ := hhd hp0
    refine ⟨g1, g2, g3, fun hne => ?_, fun hm => ?_, fun hn => ?_⟩
    · rcases g4 hne with ⟨hm, he⟩ | ⟨hb, he⟩
      · rcases List.mem_append.1 hm with hm | hm
        · left
          refine ⟨hm, ?_⟩
          rw [he, hlen, set_ne _ _ (fun e => hnot (by rw [← e]; exact hm))]
        · right
          have hx' : p - 24 = s.programBreak := by simpa using hm
          refine ⟨by omega, ?_⟩
          rw [he, hx', hlen, set_eq]
      · right
        exact ⟨by rw [hpb] at hb; omega, he⟩
    · have e := g5 (List.mem_append_left _ hm)
      rw [hlen, set_ne _ _ (fun e => hnot (by rw [← e]; exact hm))] at e
      exact e
    · by_cases hx : p - 24 = s.programBreak
      · have e := g5 (by rw [hx]; simp)
        rw [hx, hlen, set_eq] at e
        exact ⟨by omega, by rw [hx]; exact e⟩
      · have hn2 : p - 24 ∉ ns ++ [s.programBreak] := by
          intro hm
          rcases List.mem_append.1 hm with hm | hm
          · exact hn hm
          · exact hx (by simpa using hm)
        obtain ⟨e1, e2⟩ := g6 hn2
        exact ⟨by rw [hpb] at e1; omega, e2⟩

/-- The search-and-grow loop of `HmmAlloc` returns within `k` grows when `k`
more pages make the run at the top of the heap reach the request. -/
theorem searchLoop_spec {req inner : Nat} (k : Nat) : ∀ (fuel : Nat) (s : Heap) (ns : List Nat),
    HeapOK s ns → req + 24 ≤ reach s ns + k * 204800 → ns.length + k ≤ 255 →
    k + 2 ≤ fuel → 2 * (ns.length + k) + 1 < inner →
    ∃ p t, (find_best_fit_block inner s req >>= fun r =>
        growAndRetry fuel inner r.2 r.1 req) = Except.ok (p, t) ∧ AllocPost s ns req p t := by
  have hP : PAGE_SIZE = 204800 := rfl
  induction k with
  | zero =>
    intro fuel s ns h hk hshort hfuel hin
    obtain ⟨bf, fs, p, t, hbinv, hfinv, hno, hbf, hfs, hfind, hcase⟩ :=
      @find_best_fit_block_spec s ns req inner h.list (by omega)
    rcases hcase with ⟨h0, hm, hp, ht⟩ | ⟨h1, _, hp, hout⟩ | ⟨hm, hor, hp, hout⟩
    · have hlt := not_found_reach hbinv hno h0 hm
      omega
    · have hmem := hout.2.1
      have hb0 : bf.bestFitBlock ≠ 0 := h.list.dll.ne_zero _ hmem
      have hbb := h.list.bounded _ hmem
      refine ⟨p, t, ?_, by rw [hp]; exact hout.single_post h⟩
      rw [hfind, ok_bind]
      exact growAndRetry_done (by rw [hp, psub_eq (by omega) (by omega)]; omega) (by omega)
    · obtain ⟨ms, pre, R, post, hsplit, hR2, hhead, _⟩ := id hout
      have hmem : fs.bestFragmentedBlocks 0 ∈ ns := by
        rw [hsplit]
        have := List.mem_of_mem_head? hhead
        simp [this]
      have hb0 : fs.bestFragmentedBlocks 0 ≠ 0 := h.list.dll.ne_zero _ hmem
      have hbb := h.list.bounded _ hmem
      refine ⟨p, t, ?_, by rw [hp]; exact hout.run_post h (run_head_short hbinv hor hout)⟩
      rw [hfind, ok_bind]
      exact growAndRetry_done (by rw [hp, psub_eq (by omega) (by omega)]; omega) (by omega)
  | succ k ih =>
    intro fuel s ns h hk hshort hfuel hin
    obtain ⟨bf, fs, p, t, hbinv, hfinv, hno, hbf, hfs, hfind, hcase⟩ :=
      @find_best_fit_block_spec s ns req inner h.list (by omega)
    rcases hcase with ⟨h0, hm, hp, ht⟩ | ⟨h1, _, hp, hout⟩ | ⟨hm, hor, hp, hout⟩
    · subst hp
      have ht' := ht.symm
      subst ht'
      obtain ⟨f, rfl⟩ : ∃ f, fuel = f + 1 := ⟨fuel - 1, by omega⟩
      by_cases hroom : s.osBreak + PAGE_SIZE ≤ s.osLimit
      · obtain ⟨s1, hs1, hok1, hlen1, hpb1, _⟩ :=
          @registerRegion_grown s ns inner h hroom (by omega) (by omega)
        have hreach := reach_grown h hlen1 hpb1
        rw [hP] at hreach
        obtain ⟨p, t, hrun, hpost⟩ := ih f s1 (ns ++ [s.programBreak]) hok1
          (by rw [hreach]; omega)
          (by rw [List.length_append, List.length_singleton]; omega) (by omega)
          (by rw [List.length_append, List.length_singleton]; omega)
        refine ⟨p, t, ?_, AllocPost.of_grown h hroom hlen1 hpb1 hpost⟩
        rw [hfind, ok_bind, growAndRetry_grow hroom, hs1]
        exact hrun
      · have hrf : s.osLimit < s.osBreak + PAGE_SIZE := by omega
        refine ⟨0, s, ?_, ⟨ns, h.list.dll, fun a _ ha hx => ?_⟩, fun _ _ _ => rfl,
          fun hp => absurd rfl hp, fun _ _ => rfl, fun _ => hrf⟩
        · rw [hfind, ok_bind]
          exact growAndRetry_refused hrf (by omega)
        · rcases ha a hx with h1 | h1 <;> omega
    · have hmem := hout.2.1
      have hb0 : bf.bestFitBlock ≠ 0 := h.list.dll.ne_zero _ hmem
      have hbb := h.list.bounded _ hmem
      refine ⟨p, t, ?_, by rw [hp]; exact hout.single_post h⟩
      rw [hfind, ok_bind]
      exact growAndRetry_done (by rw [hp, psub_eq (by omega) (by omega)]; omega) (by omega)
    · obtain ⟨ms, pre, R, post, hsplit, hR2, hhead, _⟩ := id hout
      have hmem : fs.bestFragmentedBlocks 0 ∈ ns := by
        rw [hsplit]
        have := List.mem_of_mem_head? hhead
        simp [this]
      have hb0 : fs.bestFragmentedBlocks 0 ≠ 0 := h.list.dll.ne_zero _ hmem
      have hbb := h.list.bounded _ hmem
      refine ⟨p, t, ?_, by rw [hp]; exact hout.run_post h (run_head_short hbinv hor hout)⟩
      rw [hfind, ok_bind]
      exact growAndRetry_done (by rw [hp, psub_eq (by omega) (by omega)]; omega) (by omega)

theorem round_request {n : Nat} (hn : n + 8 ≤ 18446744073709551616) :
    Nat.land (psub (padd (if n < 24 then 24 else n) word_size) 1) (not64 (psub word_size 1))
      = max (roundUp8 n) 24 := by
  have hmax : (if n < 24 then 24 else n) = max n 24 := by
    split <;> omega
  rw [hmax, round_eq (by omega), roundUp8_max]

theorem HmmAlloc_grow_first {s : Heap} {n fuel stale r : Nat}
    (hflag : s.initializationFlag ≠ 0) (hst : s.programBreak = stale)
    (hroom : s.osBreak + PAGE_SIZE ≤ s.osLimit)
    (hround : Nat.land (psub (padd (if n < 24 then 24 else n) word_size) 1)
      (not64 (psub word_size 1)) = r) :
    HmmAlloc fuel stale s n
      = (registerRegion fuel (grown s) s.programBreak >>= fun s2 =>
          find_best_fit_block fuel s2 r >>= fun q => growAndRetry fuel fuel q.2 q.1 r) := by
  have hne : s.osBreak + PAGE_SIZE ≠ 0 := by
    have : PAGE_SIZE = 204800 := rfl
    omega
  simp only [HmmAlloc, hflag, if_false, hround, hst, if_true,
    increase_program_break_ok hroom, hne]
  rfl

theorem HmmAlloc_refused_first {s : Heap} {n fuel stale : Nat}
    (hflag : s.initializationFlag ≠ 0) (hst : s.programBreak = stale)
    (hrf : s.osLimit < s.osBreak + PAGE_SIZE) :
    HmmAlloc fuel stale s n = Except.ok (0, s) := by
  subst hst
  simp only [HmmAlloc, hflag, if_false, if_true, increase_program_break_refused hrf]
  rfl

theorem HmmAlloc_search {s : Heap} {n fuel stale r : Nat}
    (hflag : s.initializationFlag ≠ 0) (hst : s.programBreak ≠ stale)
    (hround : Nat.land (psub (padd (if n < 24 then 24 else n) word_size) 1)
      (not64 (psub word_size 1)) = r) :
    HmmAlloc fuel stale s n
      = (find_best_fit_block fuel s r >>= fun q => growAndRetry fuel fuel q.2 q.1 r) := by
  simp only [HmmAlloc, hflag, if_false, hround, hst]

/-- `HmmAlloc` returns on a well-formed state of an initialised allocator,
with the guarantees of `AllocPost`. -/
theorem HmmAlloc_spec {s : Heap} {ns : List Nat} {n fuel stale : Nat} (h : HeapOK s ns)
    (hflag : s.initializationFlag ≠ 0) (hn : n + 8 ≤ 18446744073709551616)
    (hshort : ns.length + (max (roundUp8 n) 24 + 24) / 204800 + 2 ≤ 255)
    (hf : 2 * (ns.length + (max (roundUp8 n) 24 + 24) / 204800 + 2) + 1 < fuel) :
    ∃ p t, HmmAlloc fuel stale s n = Except.ok (p, t) ∧
      AllocPost s ns (max (roundUp8 n) 24) p t := by
  have hP : PAGE_SIZE = 204800 := rfl
  have hround := round_request hn
  generalize hr : max (roundUp8 n) 24 = r at hround hshort hf ⊢
  by_cases hst : s.programBreak = stale
  · by_cases hroom : s.osBreak + PAGE_SIZE ≤ s.osLimit
    · obtain ⟨s1, hs1, hok1, hlen1, hpb1, _⟩ :=
        @registerRegion_grown s ns fuel h hroom (by omega) (by omega)
      have hreach := reach_grown h hlen1 hpb1
      obtain ⟨p, t, hrun, hpost⟩ := @searchLoop_spec r fuel ((r + 24) / 204800 + 1) fuel s1
        (ns ++ [s.programBreak]) hok1 (by omega)
        (by rw [List.length_append, List.length_singleton]; omega) (by omega)
        (by rw [List.length_append, List.length_singleton]; omega)
      refine ⟨p, t, ?_, AllocPost.of_grown h hroom hlen1 hpb1 hpost⟩
      rw [HmmAlloc_grow_first hflag hst hroom hround, hs1, ok_bind]
      exact hrun
    · have hrf : s.osLimit < s.osBreak + PAGE_SIZE := by omega
      refine ⟨0, s, ?_, ⟨ns, h.list.dll, fun a _ ha hx => ?_⟩, fun _ _ _ => rfl,
        fun hp => absurd rfl hp, fun _ _ => rfl, fun _ => hrf⟩
      · exact HmmAlloc_refused_first hflag hst hrf
      · rcases ha a hx with h1 | h1 <;> omega
  · obtain ⟨p, t, hrun, hpost⟩ := @searchLoop_spec r fuel ((r + 24) / 204800 + 1) fuel s ns h
      (by omega) (by omega) (by omega) (by omega)
    refine ⟨p, t, ?_, hpost⟩
    rw [HmmAlloc_search hflag hst hround]
    exact hrun

theorem HmmAlloc_fresh_eq {brk limit n fuel stale r : Nat} (hroom : brk + 204800 ≤ limit)
    (hround : Nat.land (psub (padd (if n < 24 then 24 else n) word_size) 1)
      (not64 (psub word_size 1)) = r) :
    HmmAlloc fuel stale (Heap.fresh brk limit) n
      = (registerRegion fuel (grown (started brk limit)) brk >>= fun s2 =>
          find_best_fit_block fuel s2 r >>= fun q => growAndRetry fuel fuel q.2 q.1 r) := by
  have hP : PAGE_SIZE = 204800 := rfl
  have hne : brk + PAGE_SIZE ≠ 0 := by omega
  have hinc0 : increase_program_break (Heap.fresh brk limit) 0 = (brk, Heap.fresh brk limit) :=
    rfl
  have hflag0 : (Heap.fresh brk limit).initializationFlag = 0 := rfl
  have hinc : increase_program_break (started brk limit) PAGE_SIZE
      = (brk + PAGE_SIZE, { started brk limit with osBreak := brk + PAGE_SIZE }) :=
    increase_program_break_ok (by show brk + PAGE_SIZE ≤ limit; omega)
  have hst : (started brk limit).programBreak = brk := rfl
  have hfold : ({ Heap.fresh brk limit with programBreak := brk, initializationFlag := (0 + 1) % 256 } : Heap) = started brk limit :=
    rfl
  simp only [HmmAlloc, hflag0, if_true, hinc0, hround, hfold, hst, hinc, hne, if_false]
  rfl

theorem started_ok {brk limit : Nat} (hb : 0 < brk) (hlim : limit < 18446744073709551616) :
    HeapOK (started brk limit) [] :=
  ⟨⟨⟨rfl, List.nodup_nil⟩, List.Pairwise.nil, fun x hx => absurd hx (List.not_mem_nil x),
    Nat.zero_le _⟩, fun x hx => absurd hx (List.not_mem_nil x), rfl, hb, hlim⟩

/-- The first call of `HmmAlloc` in a fresh process, for a request that the
first page can serve with a remainder: the block is carved at the initial
break and the rest of the page is the only free node. -/
theorem HmmAlloc_fresh_split {brk limit n fuel stale : Nat} (hb : 0 < brk)
    (hroom : brk + 204800 ≤ limit) (hlim : limit < 18446744073709551616)
    (hn : n + 8 ≤ 18446744073709551616) (hr : max (roundUp8 n) 24 + 24 < 204776)
    (hf : 3 < fuel) :
    ∃ t, HmmAlloc fuel stale (Heap.fresh brk limit) n = Except.ok (brk + 24, t) ∧
      DLL t [brk + max (roundUp8 n) 24 + 24] ∧
      t.length = set (set (set (fun _ => 0) brk 204776) brk (max (roundUp8 n) 24))
        (brk + max (roundUp8 n) 24 + 24) (204776 - max (roundUp8 n) 24 - 24) ∧
      t.programBreak = brk + 204800 ∧ t.osBreak = brk + 204800 ∧ t.osFloor = brk ∧
      t.osLimit = limit ∧ t.initializationFlag = 1 ∧ t.payload = fun _ => 0 := by
  have hP : PAGE_SIZE = 204800 := rfl
  have hround := round_request hn
  generalize hreq : max (roundUp8 n) 24 = r at hround hr ⊢
  have hok0 := started_ok hb hlim
  have hroom0 : (started brk limit).osBreak + PAGE_SIZE ≤ (started brk limit).osLimit := by
    show brk + PAGE_SIZE ≤ limit
    omega
  obtain ⟨s1, hs1, hok1, hlen1, hpb1, hpay1, hol1, hof1, hfl1⟩ :=
    @registerRegion_grown (started brk limit) [] fuel hok0 hroom0 (by simp) (by simp; omega)
  have hpb0 : (started brk limit).programBreak = brk := rfl
  rw [hpb0] at hs1 hok1 hlen1 hpb1
  rw [List.nil_append] at hok1
  have hl1 : s1.length brk = 204776 := by rw [hlen1, set_eq]
  obtain ⟨bf, fs, p, t, hbinv, hfinv, hno, hbf, hfs, hfind, hcase⟩ :=
    @find_best_fit_block_spec s1 [brk] r fuel hok1.list (by simp; omega)
  have hsingle : p = brk + 24 ∧ SingleTaken s1 t [brk] brk r := by
    rcases hcase with ⟨h0, _⟩ | ⟨h1, _, hp, hout⟩ | ⟨hm, _, _, ms, pre, R, post, hsplit, hR2, _⟩
    · have := hbinv.2.1 h0 brk (by simp)
      omega
    · have hmem := hout.2.1
      have hbb : bf.bestFitBlock = brk := by simpa using hmem
      rw [hbb] at hp hout
      exact ⟨hp, hout⟩
    · have := congrArg List.length hsplit
      simp at this
      omega
  obtain ⟨hp, hfr, _, _, hsp, _⟩ := hsingle
  obtain ⟨_, hdt, hlt⟩ := hsp (by rw [hl1]; omega)
  have hera : ([brk].erase brk).orderedInsert (fun x y => x ≤ y) (brk + r + 24)
      = [brk + r + 24] := by simp
  rw [hera] at hdt
  rw [hl1, hlen1] at hlt
  obtain ⟨f1, f2, f3, f4, f5, f6⟩ := hfr
  refine ⟨t, ?_, hdt, hlt, by rw [f2, hpb1, hP], by rw [f4, hok1.brk, hpb1, hP],
    by rw [f5, hof1]; rfl, by rw [f6, hol1]; rfl, by rw [f3, hfl1]; rfl, by rw [f1, hpay1]; rfl⟩
  have hrun : (find_best_fit_block fuel s1 r >>= fun q => growAndRetry fuel fuel q.2 q.1 r)
      = Except.ok (brk + 24, t) := by
    rw [hfind, ok_bind, hp]
    exact growAndRetry_done (by rw [psub_eq (by omega) (by omega)]; omega) (by omega)
  rw [HmmAlloc_fresh_eq hroom hround, hs1, ok_bind]
  exact hrun

/-! ## Shrinking and growing in place -/

theorem pageHeap_ok : HeapOK pageHeap [4096] :=
  ⟨⟨by decide, by decide, by decide, by decide⟩, by decide, rfl, by decide, by decide⟩

/-- The shrinking branch of `HmmRealloc` when a tail is carved off: the two
headers are written and the tail is handed to `HmmFree`. -/
theorem HmmRealloc_shrink_eq {s : Heap} {p new fuel stale old r : Nat} (hp : 24 < p)
    (hold : s.length (psub p 24) = old) (hend : p + old < 18446744073709551616)
    (h8 : old % 8 = 0) (hnew : 0 < new) (hle : new ≤ old)
    (hr : max (roundUp8 new) 24 = r) (hsplit : 24 < old - r) :
    HmmRealloc fuel stale s p new
      = (HmmFree fuel { s with length := set (set s.length (psub p 24) r) (p + r) (old - r - 24) }
          (p + r + 24) >>= fun t => pure (p, t)) := by
  have hpp : psub p 24 = p - 24 := psub_eq (by omega) (by omega)
  have hnew0 : new ≠ 0 := by omega
  have hp0 : psub p 24 ≠ 0 := by rw [hpp]; omega
  have hgt : ¬ new > old := by omega
  have hround : Nat.land (psub (padd (if new < 24 then 24 else new) word_size) 1)
      (not64 (psub word_size 1)) = r := by
    rw [round_request (by omega), hr]
  have hr8 : r % 8 = 0 := by
    rw [← hr, ← roundUp8_max]; exact roundUp8_mod _
  have hrle : r ≤ old := by omega
  have hfs : psub old r = old - r := psub_eq hrle (by omega)
  have hsmall : ¬ old - r ≤ 24 := by omega
  have hround2 : Nat.land (psub (padd (old - r) word_size) 1) (not64 (psub word_size 1))
      = old - r := by
    rw [round_eq (by omega), roundUp8_of_dvd (by omega)]
  have htail : padd p r = p + r := padd_eq (by omega)
  have hfs2 : psub (old - r) 24 = old - r - 24 := psub_eq (by omega) (by omega)
  have hpay : padd (p + r) 24 = p + r + 24 := padd_eq (by omega)
  simp only [HmmRealloc, hnew0, if_false, hp0, hold, hgt, hround, hfs, hsmall,
    hround2, htail, hfs2, hpay]

/-- `HmmFree` when the whole free list, the freed block included, is one
physically contiguous run of more than 128 KiB whose 8-bit remainder exceeds
24: the run is replaced by a single node at its first header and the break is
lowered by one chunk. -/
theorem HmmFree_whole_run {s : Heap} {ns : List Nat} {p a fuel x : Nat} {xs : List Nat}
    (h : DLL s ns) (ha : psub p NODE = a) (ha0 : a ≠ 0) (han : a ∉ ns)
    (hb : Bounded s (a :: ns)) (hcap : ns.length + 1 < ARRAY_CAP) (hf : ns.length + 1 < fuel)
    (hfl : 0 < s.osFloor) (hins : ns.orderedInsert (fun x y => x ≤ y) a = x :: xs)
    (hall : lastRun s (x :: xs) = x :: xs) (hbig : 131072 < span s (x :: xs))
    (hfloor : s.osFloor + 131072 ≤ s.osBreak)
    (hrem : 24 < (span s (x :: xs) - 131072) % 256) :
    ∃ t, HmmFree fuel s p = Except.ok t ∧ DLL t [x] ∧
      t.length = set s.length x ((span s (x :: xs) - 131072) % 256) ∧
      t.programBreak = s.osBreak - 131072 := by
  obtain ⟨t, ms, hfree, hdt, _, _, _, _, _, _, _, _, hcase⟩ := HmmFree_spec h ha ha0 han hb hcap
    hf hfl
  rw [hins, hall] at hcase
  obtain ⟨hbrk, pre, y, ys, hsplit, hys, hr, _⟩ := hcase hbig
  have hy : y = x ∧ ys = xs := by
    simp only [List.cons.injEq] at hys
    exact ⟨hys.1.symm, hys.2.symm⟩
  obtain ⟨rfl, rfl⟩ := hy
  have hpre : pre = [] := by
    have hlen := congrArg List.length hsplit
    simp only [List.length_append, List.length_cons] at hlen
    exact List.length_eq_zero.1 (by omega)
  subst hpre
  obtain ⟨hms, hlt⟩ := hr hrem
  have hms' : ms = [y] := by rw [hms]; rfl
  rw [hms'] at hdt
  exact ⟨t, hfree, hdt, hlt, (hbrk hfloor).1⟩

/-! ## Properties of HmmAlloc and HmmRealloc -/

/-- C9 (amended): for a payload pointer `p` with header length `old` and
`new > old`, if `find_best_fit_block(new - old)` returns the block whose
payload begins exactly at `p + old + 24`, then `HmmRealloc(p, new)` returns
`p` and the header at `p - 24` afterwards holds `new + 24`. -/
theorem HmmRealloc_grow_in_place (s : Heap) (p new fuel stale : Nat) (hp : 24 < p)
    (hnew : s.length (psub p 24) < new) (hnew64 : new + 24 < 18446744073709551616)
    (hend : p + s.length (psub p 24) + 24 < 18446744073709551616)
    (hfind : (find_best_fit_block fuel s (new - s.length (psub p 24))).observe
      (fun r => [r.1]) = some [p + s.length (psub p 24) + 24]) :
    ∃ t, HmmRealloc fuel stale s p new = Except.ok (p, t) ∧
      t.length (p - 24) = new + 24 := by
  obtain ⟨⟨q, s1⟩, hq, hl⟩ := Run.observe_some hfind
  simp only [List.cons.injEq, and_true] at hl
  have hq1 : q = p + s.length (psub p 24) + 24 := hl
  have hpp : psub p 24 = p - 24 := psub_eq (by omega) (by omega)
  have hp0 : psub p 24 ≠ 0 := by rw [hpp]; omega
  have hnew0 : new ≠ 0 := by omega
  have hsub : psub new (s.length (psub p 24)) = new - s.length (psub p 24) :=
    psub_eq (by omega) (by omega)
  have hq0 : psub q 24 ≠ 0 := by
    rw [hq1, psub_eq (by omega) (by omega)]; omega
  have hadj : padd (padd p 24) (s.length (psub p 24)) = q := by
    rw [hq1, show padd p 24 = p + 24 from padd_eq (by omega), padd_eq (by omega)]
    omega
  have hhdr : padd new 24 = new + 24 := padd_eq hnew64
  refine ⟨{ s1 with length := set s1.length (psub p 24) (padd new 24) }, ?_, ?_⟩
  · simp only [HmmRealloc, hnew0, if_false, hp0, gt_iff_lt, hnew, if_true, hsub, hq, bind,
      Except.bind, hq0, hadj]
    rfl
  · show set s1.length (psub p 24) (padd new 24) (p - 24) = new + 24
    rw [hpp, set_eq, hhdr]

theorem HmmRealloc_grow_in_place_witness :
    ∃ t, HmmRealloc 100 0 followerHeap 4120 80 = Except.ok (4120, t) ∧
      t.length (4120 - 24) = 80 + 24 :=
  HmmRealloc_grow_in_place followerHeap 4120 80 100 0 (by decide) (by decide) (by decide)
    (by decide) (by decide)

/-- C10 (amended): in a well-formed state of an initialised allocator in
which the OS refuses to grow the segment by a page, `HmmAlloc(n)` returns; it
returns null exactly when it has to grow, that is when `programBreak` equals
the value of its local `initialProgramBreak` or when neither a free node nor
a run of at least two physically contiguous free nodes reaches the rounded
request; and whenever it returns null the state is the one before the
call. -/
theorem HmmAlloc_grow_refused (s : Heap) (ns : List Nat) (n fuel stale : Nat)
    (h : ListOK s ns) (hflag : s.initializationFlag ≠ 0)
    (hn : n + 8 ≤ 18446744073709551616) (hf : 2 * ns.length + 1 < fuel)
    (hrf : s.osLimit < s.osBreak + PAGE_SIZE) :
    ∃ p t, HmmAlloc fuel stale s n = Except.ok (p, t) ∧ (p = 0 → t = s) ∧
      (p = 0 ↔ s.programBreak = stale ∨
        ((∀ x ∈ ns, s.length x < max (roundUp8 n) 24) ∧
          ∀ pre R post, ns = pre ++ R ++ post → 2 ≤ R.length → Contig s R →
            span s R < max (roundUp8 n) 24)) := by
  have hround := round_request hn
  generalize hr : max (roundUp8 n) 24 = r at hround ⊢
  by_cases hst : s.programBreak = stale
  · exact ⟨0, s, HmmAlloc_refused_first hflag hst hrf, fun _ => rfl,
      ⟨fun _ => Or.inl hst, fun _ => rfl⟩⟩
  · obtain ⟨bf, fs, p, t, hbinv, hfinv, hno, hbf, hfs, hfind, hcase⟩ :=
      @find_best_fit_block_spec s ns r fuel h hf
    have hserved : ∀ b, b ∈ ns → p = b + 24 →
        HmmAlloc fuel stale s n = Except.ok (p, t) ∧ p ≠ 0 := by
      intro b hb hp
      have hb0 := h.dll.ne_zero b hb
      have hbb := h.bounded b hb
      refine ⟨?_, by omega⟩
      rw [HmmAlloc_search hflag hst hround, hfind, ok_bind]
      exact growAndRetry_done (by rw [hp, psub_eq (by omega) (by omega)]; omega) (by omega)
    rcases hcase with ⟨h0, hm, hp, ht⟩ | ⟨h1, _, hp, hout⟩ | ⟨hm, _, hp, hout⟩
    · refine ⟨0, s, ?_, fun _ => rfl, ⟨fun _ => Or.inr ⟨hbinv.2.1 h0, (hno hm).2⟩,
        fun _ => rfl⟩⟩
      rw [HmmAlloc_search hflag hst hround, hfind, ok_bind, hp, ht]
      exact growAndRetry_refused hrf (by omega)
    · obtain ⟨hrun, hp0⟩ := hserved _ hout.2.1 hp
      refine ⟨p, t, hrun, fun e => absurd e hp0, ⟨fun e => absurd e hp0, fun hor => ?_⟩⟩
      rcases hor with e | ⟨hall, _⟩
      · exact absurd e hst
      · have := hall _ hout.2.1
        have := hout.2.2.1
        omega
    · obtain ⟨ms, pre, R, post, hsplit, hR2, hhead, hcon, hspan, hreq, _⟩ := id hout
      have hmem : fs.bestFragmentedBlocks 0 ∈ ns := by
        rw [hsplit]
        have := List.mem_of_mem_head? hhead
        simp [this]
      obtain ⟨hrun, hp0⟩ := hserved _ hmem hp
      refine ⟨p, t, hrun, fun e => absurd e hp0, ⟨fun e => absurd e hp0, fun hor => ?_⟩⟩
      rcases hor with e | ⟨_, hall⟩
      · exact absurd e hst
      · have := hall pre R post hsplit hR2 hcon
        omega

theorem HmmAlloc_grow_refused_witness :
    ∃ p t, HmmAlloc 4 0 tightHeap 1000 = Except.ok (p, t) ∧ (p = 0 → t = tightHeap) ∧
      (p = 0 ↔ tightHeap.programBreak = 0 ∨
        ((∀ x ∈ [8192], tightHeap.length x < max (roundUp8 1000) 24) ∧
          ∀ pre R post, [8192] = pre ++ R ++ post → 2 ≤ R.length → Contig tightHeap R →
            span tightHeap R < max (roundUp8 1000) 24)) :=
  HmmAlloc_grow_refused tightHeap [8192] 1000 4 0
    ⟨by decide, by decide, by decide, by decide⟩ (by decide) (by decide) (by decide)
    (by decide)

/-- C16: scenario S1.  In a fresh process whose break is at `brk` and whose
OS grants the first page, `a = HmmAlloc(100)` returns `a = brk + 24`, leaves
104 in the header at `a - 24`, puts `programBreak` exactly `200 * 1024` bytes
above the initial break, and leaves a free list of exactly one node, at
`a + 104`, of length `200 * 1024 - 24 - 104 - 24 = 204648`. -/
theorem HmmAlloc_first_page (brk limit fuel stale : Nat) (hb : 0 < brk)
    (hroom : brk + 200 * 1024 ≤ limit) (hlim : limit < 18446744073709551616)
    (hf : 3 < fuel) :
    ∃ a t, HmmAlloc fuel stale (Heap.fresh brk limit) 100 = Except.ok (a, t) ∧
      a = brk + 24 ∧ t.length (a - 24) = 104 ∧ t.programBreak = brk + 200 * 1024 ∧
      DLL t [a + 104] ∧ t.length (a + 104) = 200 * 1024 - 24 - 104 - 24 ∧
      t.length (a + 104) = 204648 := by
  have hr : max (roundUp8 100) 24 = 104 := by decide
  obtain ⟨t, hrun, hd, hlen, hpb, _⟩ := @HmmAlloc_fresh_split brk limit 100 fuel stale hb
    (by omega) hlim (by decide) (by rw [hr]; decide) hf
  rw [hr] at hd hlen
  have e1 : brk + 24 - 24 = brk := by omega
  have e2 : brk + 24 + 104 = brk + 104 + 24 := by omega
  have hl1 : t.length brk = 104 := by
    rw [hlen, set_ne _ _ (by omega), set_eq]
  have hl2 : t.length (brk + 104 + 24) = 204648 := by
    rw [hlen, set_eq]
  refine ⟨brk + 24, t, hrun, rfl, by rw [e1]; exact hl1, by rw [hpb], by rw [e2]; exact hd,
    by rw [e2, hl2], by rw [e2]; exact hl2⟩

theorem HmmAlloc_first_page_witness :
    ∃ a t, HmmAlloc 4 0 (Heap.fresh 4096 100000000) 100 = Except.ok (a, t) ∧
      a = 4096 + 24 ∧ t.length (a - 24) = 104 ∧ t.programBreak = 4096 + 200 * 1024 ∧
      DLL t [a + 104] ∧ t.length (a + 104) = 200 * 1024 - 24 - 104 - 24 ∧
      t.length (a + 104) = 204648 :=
  HmmAlloc_first_page 4096 100000000 4 0 (by decide) (by decide) (by decide) (by decide)

/-- C17 (amended): scenario S5.  In a fresh process whose break is at `brk`
and whose OS grants the first page, `p = HmmAlloc(1000)` followed by
`q = HmmRealloc(p, 100)` gives `q = p = brk + 24` and 104 in the header at
`p - 24`; the tail carved off at `p + 104` is freed next to the rest of the
page, the reclaim of `HmmFree` takes both and gives one 128 KiB chunk back to
the OS, and the free list afterwards is exactly one node, whose header is at
`p + 104`. -/
theorem HmmRealloc_shrink_scenario (brk limit fuel stale stale2 : Nat) (hb : 0 < brk)
    (hroom : brk + 200 * 1024 ≤ limit) (hlim : limit < 18446744073709551616)
    (hf : 3 < fuel) :
    ∃ p s q t, HmmAlloc fuel stale (Heap.fresh brk limit) 1000 = Except.ok (p, s) ∧
      HmmRealloc fuel stale2 s p 100 = Except.ok (q, t) ∧ p = brk + 24 ∧ q = p ∧
      s.length (p - 24) = 1000 ∧ t.length (p - 24) = 104 ∧ DLL t [p + 104] ∧
      t.programBreak + 128 * 1024 = brk + 200 * 1024 := by
  have hr : max (roundUp8 1000) 24 = 1000 := by decide
  obtain ⟨s, hrun, hd, hlen, hpb, hob, hof, hol, hfl, hpay⟩ :=
    @HmmAlloc_fresh_split brk limit 1000 fuel stale hb (by omega) hlim (by decide)
      (by rw [hr]; decide) hf
  rw [hr] at hd hlen
  have hpp : psub (brk + 24) 24 = brk := by
    rw [psub_eq (by omega) (by omega)]; omega
  have hl0 : s.length brk = 1000 := by rw [hlen, set_ne _ _ (by omega), set_eq]
  have hl1 : s.length (brk + 1000 + 24) = 203752 := by rw [hlen, set_eq]
  have heq := @HmmRealloc_shrink_eq s (brk + 24) 100 fuel stale2 1000 104 (by omega)
    (by rw [hpp]; exact hl0) (by omega) (by decide) (by decide) (by decide) (by decide)
    (by decide)
  rw [hpp] at heq
  obtain ⟨s2, hs2⟩ : ∃ s2 : Heap, s2 = { s with length := set (set s.length brk 104) (brk + 24 + 104) (1000 - 104 - 24) } :=
    ⟨_, rfl⟩
  rw [← hs2] at heq
  have hd2 : DLL s2 [brk + 1000 + 24] := by rw [hs2]; exact hd.set_length _
  have hlen2 : s2.length = set (set s.length brk 104) (brk + 24 + 104) (1000 - 104 - 24) := by
    rw [hs2]
  have hof2 : s2.osFloor = brk := by rw [hs2]; exact hof
  have hob2 : s2.osBreak = brk + 204800 := by rw [hs2]; exact hob
  have hpb2 : s2.programBreak = brk + 204800 := by rw [hs2]; exact hpb
  have ha : s2.length (brk + 24 + 104) = 872 := by rw [hlen2, set_eq]
  have hb2 : s2.length (brk + 1000 + 24) = 203752 := by
    rw [hlen2, set_ne _ _ (by omega), set_ne _ _ (by omega), hl1]
  have h0 : s2.length brk = 104 := by rw [hlen2, set_ne _ _ (by omega), set_eq]
  have hbnd : Bounded s2 [brk + 24 + 104, brk + 1000 + 24] := by
    intro x hx
    simp only [List.mem_cons, List.mem_singleton, List.not_mem_nil, or_false] at hx
    rcases hx with rfl | rfl
    · rw [ha]; omega
    · rw [hb2]; omega
  have hins : [brk + 1000 + 24].orderedInsert (fun x y => x ≤ y) (brk + 24 + 104)
      = [brk + 24 + 104, brk + 1000 + 24] := by
    simp [List.orderedInsert]
  have hlast : lastRun s2 [brk + 24 + 104, brk + 1000 + 24]
      = [brk + 24 + 104, brk + 1000 + 24] := by
    have hadj : brk + 1000 + 24 = brk + 24 + 104 + 24 + s2.length (brk + 24 + 104) := by
      rw [ha]
    simp only [lastRun, List.foldl_cons, List.foldl_nil, runStep, List.getLast?_nil,
      List.getLast?_singleton]
    rw [if_pos hadj]
    rfl
  have hspan : span s2 [brk + 24 + 104, brk + 1000 + 24] = 204648 := by
    simp only [span, List.map_cons, List.map_nil, List.sum_cons, List.sum_nil, ha, hb2]
    decide
  obtain ⟨t, hfree, hdt, hlt, hpbt⟩ :=
    @HmmFree_whole_run s2 [brk + 1000 + 24] (brk + 24 + 104 + 24) (brk + 24 + 104) fuel
      (brk + 24 + 104) [brk + 1000 + 24] hd2
      (by unfold NODE; rw [psub_eq (by omega) (by omega)]; omega) (by omega)
      (by simp) hbnd (by show 1 + 1 < 10000; omega) (by simp; omega) (by rw [hof2]; exact hb)
      hins hlast (by rw [hspan]; decide) (by rw [hof2, hob2]; omega) (by rw [hspan]; decide)
  refine ⟨brk + 24, s, brk + 24, t, hrun, ?_, rfl, rfl, ?_, ?_, hdt, ?_⟩
  · rw [heq, hfree]; rfl
  · rw [show brk + 24 - 24 = brk by omega]; exact hl0
  · rw [show brk + 24 - 24 = brk by omega, hlt, set_ne _ _ (by omega)]; exact h0
  · rw [hpbt, hob2]; omega

theorem HmmRealloc_shrink_scenario_witness :
    ∃ p s q t, HmmAlloc 4 0 (Heap.fresh 4096 100000000) 1000 = Except.ok (p, s) ∧
      HmmRealloc 4 0 s p 100 = Except.ok (q, t) ∧ p = 4096 + 24 ∧ q = p ∧
      s.length (p - 24) = 1000 ∧ t.length (p - 24) = 104 ∧ DLL t [p + 104] ∧
      t.programBreak + 128 * 1024 = 4096 + 200 * 1024 :=
  HmmRealloc_shrink_scenario 4096 100000000 4 0 0 (by decide) (by decide) (by decide)
    (by decide)

/-! ## Header of an allocated block -/

theorem HmmAlloc_fresh_refused {brk limit n fuel stale : Nat} (hrf : limit < brk + 204800) :
    HmmAlloc fuel stale (Heap.fresh brk limit) n = Except.ok (0, started brk limit) := by
  have hP : PAGE_SIZE = 204800 := rfl
  have hinc0 : increase_program_break (Heap.fresh brk limit) 0 = (brk, Heap.fresh brk limit) :=
    rfl
  have hflag0 : (Heap.fresh brk limit).initializationFlag = 0 := rfl
  have hinc : increase_program_break (started brk limit) PAGE_SIZE = (0, started brk limit) :=
    increase_program_break_refused (by show limit < brk + PAGE_SIZE; omega)
  have hst : (started brk limit).programBreak = brk := rfl
  have hfold : ({ Heap.fresh brk limit with programBreak := brk, initializationFlag := (0 + 1) % 256 } : Heap) = started brk limit :=
    rfl
  simp only [HmmAlloc, hflag0, if_true, hinc0, hfold, hst, hinc]
  rfl

/-- The first call of `HmmAlloc` in a fresh process returns, and a non-null
result has a header of at least the rounded request and at most 24 bytes
more: the length 204776 of the page when the page is consumed whole, the
rounded request otherwise. -/
theorem HmmAlloc_fresh_spec {brk limit n fuel stale : Nat} (hb : 0 < brk)
    (hlim : limit < 18446744073709551616) (hn : n + 8 ≤ 18446744073709551616)
    (hshort : (max (roundUp8 n) 24 + 24) / 204800 + 2 ≤ 255)
    (hf : 2 * ((max (roundUp8 n) 24 + 24) / 204800 + 2) + 1 < fuel) :
    ∃ p t, HmmAlloc fuel stale (Heap.fresh brk limit) n = Except.ok (p, t) ∧
      (p ≠ 0 → 24 < p ∧ max (roundUp8 n) 24 ≤ t.length (p - 24) ∧
        t.length (p - 24) ≤ max (roundUp8 n) 24 + 24 ∧
        t.length (p - 24) =
          if max (roundUp8 n) 24 ≤ 204776 ∧ 204776 ≤ max (roundUp8 n) 24 + 24 then 204776
          else max (roundUp8 n) 24) := by
  have hP : PAGE_SIZE = 204800 := rfl
  have hround := round_request hn
  generalize hr : max (roundUp8 n) 24 = r at hround hshort hf ⊢
  by_cases hroom : brk + 204800 ≤ limit
  · have hok0 := started_ok hb hlim
    have hroom0 : (started brk limit).osBreak + PAGE_SIZE ≤ (started brk limit).osLimit := by
      show brk + PAGE_SIZE ≤ limit
      omega
    obtain ⟨s1, hs1, hok1, hlen1, hpb1, _⟩ :=
      @registerRegion_grown (started brk limit) [] fuel hok0 hroom0 (by simp) (by simp; omega)
    have hpb0 : (started brk limit).programBreak = brk := rfl
    rw [hpb0] at hs1 hok1 hlen1
    rw [List.nil_append] at hok1
    obtain ⟨p, t, hrun, _, _, hhd, _⟩ := @searchLoop_spec r fuel ((r + 24) / 204800 + 1) fuel s1
      [brk] hok1 (by omega) (by simp; omega) (by omega) (by simp; omega)
    refine ⟨p, t, ?_, fun hp0 => ?_⟩
    · rw [HmmAlloc_fresh_eq hroom hround, hs1, ok_bind]
      exact hrun
    · obtain ⟨g1, g2, g3, _, g5, g6⟩ := hhd hp0
      refine ⟨g1, g2, g3, ?_⟩
      by_cases hm : p - 24 ∈ [brk]
      · have e := g5 hm
        have hx' : p - 24 = brk := by simpa using hm
        rw [hx', hlen1, set_eq] at e
        rw [hx']; exact e
      · exact (g6 hm).2
  · exact ⟨0, _, HmmAlloc_fresh_refused (by omega), fun h => absurd rfl h⟩

/-- On a well-formed free list of at most 255 nodes `find_best_fit_block`
returns the not-found sentinel exactly when no node and no run of at least
two physically contiguous consecutive nodes reaches the request, and it then
leaves the state as it was. -/
theorem find_best_fit_block_sentinel {s : Heap} {ns : List Nat} {req fuel : Nat}
    (hok : ListOK s ns) (hf : 2 * ns.length + 1 < fuel) :
    ∃ p t, find_best_fit_block fuel s req = Except.ok (p, t) ∧ (p = 24 → t = s) ∧
      (p = 24 ↔ (∀ x ∈ ns, s.length x < req) ∧
        ∀ pre R post, ns = pre ++ R ++ post → 2 ≤ R.length → Contig s R → span s R < req) := by
  obtain ⟨bf, fs, p, t, hbinv, hfinv, hno, hbf, hfs, hfind, hcase⟩ :=
    @find_best_fit_block_spec s ns req fuel hok hf
  refine ⟨p, t, hfind, ?_⟩
  rcases hcase with ⟨h0, hm, hp, ht⟩ | ⟨h1, _, hp, hout⟩ | ⟨hm, _, hp, hout⟩
  · exact ⟨fun _ => ht, fun _ => ⟨hbinv.2.1 h0, (hno hm).2⟩, fun _ => hp⟩
  · have hmem := hout.2.1
    have hb0 := hok.dll.ne_zero _ hmem
    have hp24 : p ≠ 24 := by omega
    refine ⟨fun e => absurd e hp24, fun e => absurd e hp24, fun hall => ?_⟩
    have := hall.1 _ hmem
    have := hout.2.2.1
    omega
  · obtain ⟨ms, pre, R, post, hsplit, hR2, hhead, hcon, hspan, hreq, _⟩ := id hout
    have hmem : fs.bestFragmentedBlocks 0 ∈ ns := by
      rw [hsplit]
      have := List.mem_of_mem_head? hhead
      simp [this]
    have hb0 := hok.dll.ne_zero _ hmem
    have hp24 : p ≠ 24 := by omega
    refine ⟨fun e => absurd e hp24, fun e => absurd e hp24, fun hall => ?_⟩
    have := hall.2 pre R post hsplit hR2 hcon
    omega

/-- C1 (amended): in a well-formed state (the state of a fresh process, or a
state of the initialised allocator whose free list is doubly linked,
address-sorted, non-overlapping, inside the break, and short enough for the
8-bit counter even with the pages the call may add) and for a request
`n ≤ 2^64 - 8`, `HmmAlloc(n)` returns; when the result `p` is not null, the
length `L` in the header at `p - 24` is determined as follows, with
`r = max(round_up(n, 8), 24)` and `own` the length the block had as a free
node (its length before the call when it was a node of the free list, 204776
when it is a page obtained by the call, at or above the former break):
`L = own` when `r ≤ own ≤ r + 24`
(the block is consumed whole and keeps its own length), and `L = r`
otherwise.  In particular `r ≤ L ≤ r + 24`. -/
theorem HmmAlloc_header_bounds (s : Heap) (ns : List Nat) (n fuel stale : Nat)
    (h : WellFormed s ns) (hn : n + 8 ≤ 18446744073709551616)
    (hshort : ns.length + (max (roundUp8 n) 24 + 24) / 204800 + 2 ≤ 255)
    (hf : 2 * (ns.length + (max (roundUp8 n) 24 + 24) / 204800 + 2) + 1 < fuel) :
    ∃ p t, HmmAlloc fuel stale s n = Except.ok (p, t) ∧
      (p ≠ 0 → 24 < p ∧ max (roundUp8 n) 24 ≤ t.length (p - 24) ∧
        t.length (p - 24) ≤ max (roundUp8 n) 24 + 24 ∧
        (p - 24 ∈ ns → t.length (p - 24) =
          if max (roundUp8 n) 24 ≤ s.length (p - 24) ∧
              s.length (p - 24) ≤ max (roundUp8 n) 24 + 24 then s.length (p - 24)
          else max (roundUp8 n) 24) ∧
        (p - 24 ∉ ns → s.programBreak ≤ p - 24 ∧ t.length (p - 24) =
          if max (roundUp8 n) 24 ≤ 204776 ∧ 204776 ≤ max (roundUp8 n) 24 + 24 then 204776
          else max (roundUp8 n) 24)) := by
  rcases h with ⟨hflag, hok⟩ | ⟨brk, limit, hs, hns, hb, hlim⟩
  · obtain ⟨p, t, hrun, _, _, hhd, _⟩ :=
      @HmmAlloc_spec s ns n fuel stale hok hflag hn hshort hf
    refine ⟨p, t, hrun, fun hp0 => ?_⟩
    obtain ⟨g1, g2, g3, _, g5, g6⟩ := hhd hp0
    exact ⟨g1, g2, g3, g5, g6⟩
  · subst hs hns
    obtain ⟨p, t, hrun, hhd⟩ := @HmmAlloc_fresh_spec brk limit n fuel stale hb hlim hn
      (by simpa using hshort) (by simpa using hf)
    refine ⟨p, t, hrun, fun hp0 => ?_⟩
    obtain ⟨g1, g2, g3, g4⟩ := hhd hp0
    exact ⟨g1, g2, g3, fun hm => absurd hm (by simp), fun _ => ⟨Nat.zero_le _, g4⟩⟩

theorem HmmAlloc_header_bounds_witness :
    ∃ p t, HmmAlloc 8 0 pageHeap 204760 = Except.ok (p, t) ∧
      (p ≠ 0 → 24 < p ∧ max (roundUp8 204760) 24 ≤ t.length (p - 24) ∧
        t.length (p - 24) ≤ max (roundUp8 204760) 24 + 24 ∧
        (p - 24 ∈ [4096] → t.length (p - 24) =
          if max (roundUp8 204760) 24 ≤ pageHeap.length (p - 24) ∧
              pageHeap.length (p - 24) ≤ max (roundUp8 204760) 24 + 24
            then pageHeap.length (p - 24)
          else max (roundUp8 204760) 24) ∧
        (p - 24 ∉ [4096] → pageHeap.programBreak ≤ p - 24 ∧ t.length (p - 24) =
          if max (roundUp8 204760) 24 ≤ 204776 ∧ 204776 ≤ max (roundUp8 204760) 24 + 24
            then 204776
          else max (roundUp8 204760) 24)) :=
  HmmAlloc_header_bounds pageHeap [4096] 204760 8 0 (Or.inl ⟨by decide, pageHeap_ok⟩)
    (by decide) (by decide) (by decide)

/-- At the input of the witness of C1 the block is consumed whole: the call
returns 4120 and the header keeps the length 204776 of the free node, while
the rounded request is 204760. -/
theorem HmmAlloc_whole_page :
    ∃ p t, HmmAlloc 8 0 pageHeap 204760 = Except.ok (p, t) ∧ p = 4120 ∧
      t.length (p - 24) = 204776 ∧ max (roundUp8 204760) 24 = 204760 := by
  have hobs : (HmmAlloc 8 0 pageHeap 204760).observe (fun q =>
      [q.1, q.2.length (q.1 - 24)]) = some [4120, 204776] := by decide
  obtain ⟨⟨p, t⟩, hq, hl⟩ := Run.observe_some hobs
  simp only [List.cons.injEq, and_true] at hl
  exact ⟨p, t, hq, hl.1, hl.2, by decide⟩

/-! ## Properties of remove_freelist_node -/

/-- The head of a well-formed list is its first node, or `NULL` when the
list is empty. -/
theorem DLL.first_node {s : Heap} {ns : List Nat} (h : DLL s ns) : s.FreeListHead = ns.headD 0 := by
  cases ns with
  | nil => exact h.1
  | cons x xs => exact h.1.1

/-- C22: for a well-formed free list `ns` and a node `a` in it,
`remove_freelist_node` returns, and afterwards the free list is `ns` without
`a`, the other nodes in their previous order; when `a` was the head, the head
becomes the old second node (`NULL` when there is none), otherwise the head
is unchanged; no length field changes and the `prev` and `next` fields of
`a` itself are left as they were. -/
theorem remove_freelist_node_unlinks (s : Heap) (ns : List Nat) (a fuel : Nat)
    (h : DLL s ns) (ha : a ∈ ns) (hf : ns.length ≤ fuel) :
    ∃ t, remove_freelist_node fuel s a = Except.ok t ∧ DLL t (ns.erase a) ∧
      ns.erase a = ns.filter (fun x => x ≠ a) ∧
      (s.FreeListHead = a → t.FreeListHead = ns.tail.headD 0 ∧ ns.erase a = ns.tail) ∧
      (s.FreeListHead ≠ a → t.FreeListHead = s.FreeListHead) ∧
      t.length = s.length ∧ t.prev a = s.prev a ∧ t.next a = s.next a := by
  have hne : ns ≠ [] := List.ne_nil_of_mem ha
  obtain ⟨t, hrun, hdll, hlinks, hp, hn⟩ := @remove_freelist_node_spec s ns a fuel h hne hf
  refine ⟨t, hrun, hdll, ?_, ?_, ?_, hlinks.1, hp, hn⟩
  · rw [List.Nodup.erase_eq_filter h.2]
    congr 1
    funext x
    by_cases hx : x = a <;> simp [hx]
  · intro hhead
    cases ns with
    | nil => exact absurd rfl hne
    | cons x xs =>
      have hx : x = a := by rw [← hhead]; exact (h.first_node).symm
      subst hx
      have he : (x :: xs).erase x = xs := by simp
      rw [he] at hdll ⊢
      exact ⟨hdll.first_node, rfl⟩
  · intro hhead
    cases ns with
    | nil => exact absurd rfl hne
    | cons x xs =>
      have hx : s.FreeListHead = x := h.first_node
      have hxa : x ≠ a := by rw [← hx]; exact hhead
      have he : (x :: xs).erase a = x :: xs.erase a := by
        rw [List.erase_cons_tail]; simpa using hxa
      rw [he] at hdll
      rw [hx]
      exact hdll.first_node

theorem remove_freelist_node_unlinks_witness :
    ∃ t, remove_freelist_node 2 demoHeap 4096 = Except.ok t ∧ DLL t ([4096, 8192].erase 4096) ∧
      [4096, 8192].erase 4096 = [4096, 8192].filter (fun x => x ≠ 4096) ∧
      (demoHeap.FreeListHead = 4096 →
        t.FreeListHead = [4096, 8192].tail.headD 0 ∧ [4096, 8192].erase 4096 = [4096, 8192].tail) ∧
      (demoHeap.FreeListHead ≠ 4096 → t.FreeListHead = demoHeap.FreeListHead) ∧
      t.length = demoHeap.length ∧ t.prev 4096 = demoHeap.prev 4096 ∧
      t.next 4096 = demoHeap.next 4096 :=
  remove_freelist_node_unlinks demoHeap [4096, 8192] 4096 2 demoHeap_dll (by decide) (by decide)

/-! ## Properties of the reclaim calculation -/

/-- C21 (failing input): the free list of `pageHeap` is the single node 4096
of length 204776, which is its last contiguous run, of span 204776 > 128 KiB.
`calculate_decreases_in_program_break` returns `k = 1`, so the unused
remainder is `204776 - 131072 = 73704 > 24`; the node put back at 4096 has
length 232, which is `73704 mod 256` (the remainder is held in a `uint8_t`),
not 73704. -/
theorem calculate_decreases_truncates_remainder :
    ∃ k t, calculate_decreases_in_program_break 3 pageHeap = Except.ok (k, t) ∧
      DLL pageHeap [4096] ∧ lastRun pageHeap [4096] = [4096] ∧
      span pageHeap [4096] = 204776 ∧ 131072 < span pageHeap [4096] ∧ k = 1 ∧
      24 < span pageHeap [4096] - k * 131072 ∧ DLL t [4096] ∧ t.length 4096 = 232 ∧
      t.length 4096 ≠ span pageHeap [4096] - k * 131072 ∧ 232 = 73704 % 256 := by
  have hobs : (calculate_decreases_in_program_break 3 pageHeap).observe (fun q =>
      [q.1, q.2.FreeListHead, q.2.prev 4096, q.2.next 4096, q.2.length 4096])
      = some [1, 4096, 0, 0, 232] := by decide
  obtain ⟨⟨k, t⟩, hq, hl⟩ := Run.observe_some hobs
  simp only [List.cons.injEq, and_true] at hl
  obtain ⟨h1, h2, h3, h4, h5⟩ := hl
  subst h1
  exact ⟨1, t, hq, pageHeap_dll, by decide, by decide, by decide, rfl, by decide,
    ⟨⟨h2, by decide, h3, h4⟩, by decide⟩, h5, by rw [h5]; decide, by decide⟩

/-- C26: on a well-formed free list of fewer than 10000 nodes (the capacity
of the local array), `calculate_decreases_in_program_break` returns, and its
result `k` is 0 or 1: it is 1 exactly when the span of the last physically
contiguous run is strictly greater than 131072, whatever that span is. -/
theorem calculate_decreases_zero_or_one (s : Heap) (ns : List Nat) (fuel : Nat)
    (h : DLL s ns) (hb : Bounded s ns) (hcap : ns.length < ARRAY_CAP) (hf : ns.length < fuel) :
    ∃ k t, calculate_decreases_in_program_break fuel s = Except.ok (k, t) ∧
      (k = 0 ∨ k = 1) ∧ (k = 1 ↔ 131072 < span s (lastRun s ns)) ∧ k ≤ 1 := by
  obtain ⟨k, t, ms, hrun, _, _, hk, _⟩ := calculate_decreases_spec h hb hcap hf
  refine ⟨k, t, hrun, ?_, ?_, ?_⟩
  · rw [hk]; split_ifs
    · exact Or.inr rfl
    · exact Or.inl rfl
  · rw [hk]; split_ifs with hc
    · exact ⟨fun _ => hc, fun _ => rfl⟩
    · exact ⟨fun e => absurd e (by decide), fun e => absurd e hc⟩
  · rw [hk]; split_ifs <;> decide

theorem calculate_decreases_zero_or_one_witness :
    ∃ k t, calculate_decreases_in_program_break 2 pageHeap = Except.ok (k, t) ∧
      (k = 0 ∨ k = 1) ∧ (k = 1 ↔ 131072 < span pageHeap (lastRun pageHeap [4096])) ∧ k ≤ 1 :=
  calculate_decreases_zero_or_one pageHeap [4096] 2 pageHeap_dll (by decide) (by decide)
    (by decide)

/-! ## Requests at the limits of HmmAlloc and HmmRealloc -/

theorem Run.fault_some {α : Type} {r : Run α} {e : Fault} (h : r.fault = some e) :
    r = Except.error e := by
  cases r with
  | ok x => simp [Run.fault] at h
  | error e2 => simp only [Run.fault, Option.some.injEq] at h; rw [h]

/-- C23 (failing input): `HmmAlloc(2^64 - 1)` in a fresh process.  The
rounding `(n + 8 - 1) & ~7` is computed modulo `2^64` and yields 0, so the
size passed to `find_best_fit_block` is 0, smaller than the request; the call
succeeds and returns the pointer 4120 to a block whose header holds length
0. -/
theorem HmmAlloc_rounding_wraps :
    ∃ p t, Nat.land (psub (padd (if 18446744073709551615 < 24 then 24
          else 18446744073709551615) word_size) 1) (not64 (psub word_size 1)) = 0 ∧
      HmmAlloc 100 0 startHeap 18446744073709551615
        = (registerRegion 100 (grown (started 4096 100000000)) 4096 >>= fun s2 =>
            find_best_fit_block 100 s2 0 >>= fun q => growAndRetry 100 100 q.2 q.1 0) ∧
      HmmAlloc 100 0 startHeap 18446744073709551615 = Except.ok (p, t) ∧
      p = 4120 ∧ t.length (psub p 24) = 0 ∧
      t.length (psub p 24) < max 18446744073709551615 24 := by
  have hobs : (HmmAlloc 100 0 startHeap 18446744073709551615).observe (fun q =>
      [q.1, q.2.length (psub q.1 24)]) = some [4120, 0] := by decide
  obtain ⟨⟨p, t⟩, hq, hl⟩ := Run.observe_some hobs
  simp only [List.cons.injEq, and_true] at hl
  obtain ⟨h1, h2⟩ := hl
  exact ⟨p, t, by decide, HmmAlloc_fresh_eq (by decide) (by decide), hq, h1, h2,
    by rw [h2]; decide⟩

/-- C25 (failing input): in `limitedHeap` (room for two pages),
`p = HmmAlloc(40)` and then `HmmRealloc(p, 500000)`.  No free block offers
`500000 - 40` bytes, the first grow succeeds, the search-and-grow loop for
500000 bytes is refused its next grow and ends with a null pointer, and the
code goes on to `memcpy(NULL, p, 40)`: the call stops with a null
dereference instead of returning null. -/
theorem HmmRealloc_copies_to_null :
    ∃ p s f g t, nullCopyScenario = Except.ok (p, s, f, g, t) ∧
      HmmAlloc 100 0 limitedHeap 40 = Except.ok (p, s) ∧ p = 4120 ∧
      s.length (psub p 24) = 40 ∧ f = 24 ∧ g = 0 ∧
      memcpy t g p (s.length (psub p 24)) = Except.error Fault.nullDeref ∧
      HmmRealloc 100 0 s p 500000 = Except.error Fault.nullDeref := by
  have hobs : nullCopyScenario.observe (fun q =>
      [q.1, q.2.1.length (psub q.1 24), q.2.2.1, q.2.2.2.1]) = some [4120, 40, 24, 0] := by
    decide
  obtain ⟨⟨p, s, f, g, t⟩, hq, hl⟩ := Run.observe_some hobs
  simp only [List.cons.injEq, and_true] at hl
  obtain ⟨h1, h2, h3, h4⟩ := hl
  have halloc : HmmAlloc 100 0 limitedHeap 40 = Except.ok (p, s) := by
    unfold nullCopyScenario at hq
    obtain ⟨a, ha, hq⟩ := bind_ok_elim hq
    obtain ⟨_, _, hq⟩ := bind_ok_elim hq
    obtain ⟨_, _, hq⟩ := bind_ok_elim hq
    obtain ⟨_, _, hq⟩ := bind_ok_elim hq
    obtain ⟨_, _, hq⟩ := bind_ok_elim hq
    have e := pure_ok_inj hq
    simp only [Prod.mk.injEq] at e
    rw [ha, ← e.1, ← e.2.1]
  have hfault : (HmmAlloc 100 0 limitedHeap 40 >>= fun a =>
      HmmRealloc 100 0 a.2 a.1 500000).fault = some Fault.nullDeref := by decide
  rw [halloc, ok_bind] at hfault
  refine ⟨p, s, f, g, t, hq, halloc, h1, h2, h3, h4, ?_, Run.fault_some hfault⟩
  rw [h4, h2]
  rfl

/-! ## A run of more than 255 nodes -/

set_option maxRecDepth 100000 in
theorem wrapHeap_seg : Seg wrapHeap 0 4096 wrapNodes 0 := by decide

theorem wrapHeap_nodup : wrapNodes.Nodup :=
  List.Nodup.map (fun a b h => by
    have h : 4096 + 48 * a = 4096 + 48 * b := h
    omega) (List.nodup_range 258)

set_option maxRecDepth 100000 in
theorem wrapHeap_contig : Contig wrapHeap wrapNodes := by decide

set_option maxRecDepth 100000 in
theorem wrapHeap_below : ∀ x ∈ wrapNodes, x + 24 + wrapHeap.length x ≤ 16480 := by decide

set_option maxRecDepth 100000 in
theorem wrapHeap_small : ∀ x ∈ wrapNodes, wrapHeap.length x < 12300 := by decide

theorem wrapHeap_ascending : Ascending wrapNodes :=
  List.Pairwise.map _ (fun a b h => by
    show 4096 + 48 * a < 4096 + 48 * b
    omega) (List.pairwise_lt_range 258)

set_option maxRecDepth 100000 in
theorem find_best_fit_block_wrapHeap :
    (find_best_fit_block 1000 wrapHeap 12300).observe (fun r =>
      [r.1, r.2.length (psub r.1 24), r.2.FreeListHead, r.2.prev 4096, r.2.next 4096,
       r.2.prev 4144, r.2.next 4144, r.2.prev 28708, r.2.next 28708, r.2.length 28708])
      = some [16408, 12300, 4096, 0, 4144, 4096, 28708, 4144, 0, 12] := by decide

/-- C24 (failing input): the free list of `wrapHeap` is one physically
contiguous, address-sorted run of 258 nodes of length 24 that ends at 16480;
no single node offers the 12300 bytes requested.  The 8-bit `fragmentCount`
wraps to 0 at the 256th node, the array is refilled from index 0 with the
257th and 258th node while the accumulated size is kept, and the run is
recorded at the 258th node.  `find_best_fit_block` returns the block whose
header is the 257th node, 16384, although the removed nodes start at 4192
(only 4096 and 4144 stay on the list), and the block handed out ends at
`16384 + 24 + 12300 = 28708`, beyond the end 16480 of every node of the list;
the remainder node is placed at 28708. -/
theorem find_best_fit_block_overruns_run :
    ∃ p t, find_best_fit_block 1000 wrapHeap 12300 = Except.ok (p, t) ∧
      DLL wrapHeap wrapNodes ∧ Ascending wrapNodes ∧ Contig wrapHeap wrapNodes ∧
      wrapNodes.length = 258 ∧ (∀ x ∈ wrapNodes, wrapHeap.length x < 12300) ∧
      (∀ x ∈ wrapNodes, x + 24 + wrapHeap.length x ≤ 16480) ∧
      p = 16384 + 24 ∧ t.length (psub p 24) = 12300 ∧ DLL t [4096, 4144, 28708] ∧
      t.length 28708 = 12 ∧ 4192 ∈ wrapNodes ∧ 4192 ∉ [4096, 4144, 28708] ∧
      4192 < psub p 24 ∧ 16480 < psub p 24 + 24 + 12300 := by
  obtain ⟨⟨p, t⟩, hq, hl⟩ := Run.observe_some find_best_fit_block_wrapHeap
  simp only [List.cons.injEq, and_true] at hl
  obtain ⟨h1, h2, h3, h4, h5, h6, h7, h8, h9, h10⟩ := hl
  have hp : p = 16384 + 24 := h1
  subst hp
  exact ⟨_, t, hq, ⟨wrapHeap_seg, wrapHeap_nodup⟩, wrapHeap_ascending, wrapHeap_contig,
    by simp [wrapNodes], wrapHeap_small, wrapHeap_below, rfl, h2,
    ⟨⟨h3, by decide, h4, h5, by decide, h6, h7, by decide, h8, h9⟩, by decide⟩, h10,
    List.mem_map.2 ⟨2, by simp, rfl⟩, by decide, by decide, by decide⟩

/-! ## Termination of the fragment search -/

/-- The run-extension step of the fragment loop returns whenever the node
read has a predecessor or the counter is 0. -/
theorem fragmentExtend_ok (s : Heap) (cur : Nat) (st : FragScan)
    (h : st.fragmentCount ≠ 0 → s.prev cur ≠ 0) :
    ∃ st1, fragmentExtend s cur st = Except.ok st1 := by
  unfold fragmentExtend
  by_cases hc : st.fragmentCount = 0
  · rw [if_pos hc]; exact ⟨_, rfl⟩
  · rw [if_neg hc, if_neg (h hc)]
    split_ifs
    · exact ⟨_, rfl⟩
    · exact ⟨_, rfl⟩

/-- An iteration of the fragment loop that records a run leaves the cursor
where it is; the iteration after it reads the same node again as the start of
a new run and advances.  After these two iterations the loop is at the next
node. -/
theorem fragmentScan_record {s : Heap} {req cur f : Nat} {st st1 : FragScan} (hc0 : cur ≠ 0)
    (hext : fragmentExtend s cur st = Except.ok st1)
    (hrec : (st1.currentFreeSize ≥ req ∧ st1.fragmentCount > 1 ∧ st1.minFragmentSize = 0) ∨
      (st1.currentFreeSize ≥ req ∧ st1.currentFreeSize < st1.minFragmentSize
        ∧ st1.fragmentCount > 1)) :
    fragmentScan (f + 2) s req cur st
      = fragmentScan f s req (s.next cur) (restarted s cur st1) := by
  rw [← fragmentScan_stalled f s req cur st1 hc0]
  by_cases hA : st1.currentFreeSize ≥ req ∧ st1.fragmentCount > 1 ∧ st1.minFragmentSize = 0
  · simp only [fragmentScan, ne_eq, hc0, not_false_eq_true, if_true, hext, bind, Except.bind]
    rw [if_pos hA]
  · have hB := hrec.resolve_left hA
    simp only [fragmentScan, ne_eq, hc0, not_false_eq_true, if_true, hext, bind, Except.bind]
    rw [if_neg hA, if_pos hB]

/-- An iteration of the fragment loop that records nothing advances the
cursor. -/
theorem fragmentScan_advance {s : Heap} {req cur f : Nat} {st st1 : FragScan} (hc0 : cur ≠ 0)
    (hext : fragmentExtend s cur st = Except.ok st1)
    (hA : ¬ (st1.currentFreeSize ≥ req ∧ st1.fragmentCount > 1 ∧ st1.minFragmentSize = 0))
    (hB : ¬ (st1.currentFreeSize ≥ req ∧ st1.currentFreeSize < st1.minFragmentSize
        ∧ st1.fragmentCount > 1)) :
    fragmentScan (f + 1) s req cur st = fragmentScan f s req (s.next cur) st1 := by
  simp only [fragmentScan, ne_eq, hc0, not_false_eq_true, if_true, hext, bind, Except.bind]
  rw [if_neg hA, if_neg hB]

/-- The fragment loop returns on every doubly linked segment, of any length,
within two iterations per node. -/
theorem fragmentScan_returns {s : Heap} {req : Nat} : ∀ (rest : List Nat) (p cur fuel : Nat)
    (st : FragScan), Seg s p cur rest 0 → (p = 0 → st.fragmentCount = 0) →
    2 * rest.length < fuel → ∃ st', fragmentScan fuel s req cur st = Except.ok st'
  | [], p, cur, fuel, st, hseg, _, hf => by
    obtain ⟨f, rfl⟩ : ∃ f, fuel = f + 1 := ⟨fuel - 1, by omega⟩
    have hc : cur = 0 := hseg
    subst hc
    exact ⟨st, by simp [fragmentScan]; rfl⟩
  | c :: r, p, cur, fuel, st, hseg, hp, hf => by
    obtain ⟨f, rfl⟩ : ∃ f, fuel = f + 2 := ⟨fuel - 2, by simp at hf; omega⟩
    obtain ⟨hc, hc0, hpc, hr⟩ := hseg
    subst hc
    obtain ⟨st1, hext⟩ := fragmentExtend_ok s cur st (fun hn h0 => hn (hp (by rw [← hpc]; exact h0)))
    by_cases hrec : (st1.currentFreeSize ≥ req ∧ st1.fragmentCount > 1 ∧ st1.minFragmentSize = 0) ∨
        (st1.currentFreeSize ≥ req ∧ st1.currentFreeSize < st1.minFragmentSize
          ∧ st1.fragmentCount > 1)
    · rw [fragmentScan_record hc0 hext hrec]
      exact fragmentScan_returns r cur (s.next cur) f _ hr (fun h0 => absurd h0 hc0)
        (by simp at hf; omega)
    · rw [not_or] at hrec
      rw [fragmentScan_advance hc0 hext hrec.1 hrec.2]
      exact fragmentScan_returns r cur (s.next cur) (f + 1) _ hr (fun h0 => absurd h0 hc0)
        (by simp at hf; omega)

/-- C27: on a well-formed free list `ns` of any length the fragment loop of
`find_best_fit_block` returns within `2 * ns.length` iterations (one more
step reads the final `NULL`).  An iteration that records a run does not
advance the cursor, and together with the iteration that follows it amounts
to one advance to the next node; an iteration that records nothing advances
at once.  Hence every node is examined at most twice. -/
theorem fragmentScan_terminates (s : Heap) (ns : List Nat) (req fuel : Nat) (h : DLL s ns)
    (hf : 2 * ns.length < fuel) :
    (∃ fs, fragmentScan fuel s req s.FreeListHead
        { fragmentCount := 0, currentFreeSize := 0, minFragmentSize := 0,
          fragmentedBlocks := fun _ => 0, bestFragmentedBlocks := fun _ => 0 }
        = Except.ok fs) ∧
    (∀ (f cur : Nat) (st st1 : FragScan), cur ≠ 0 → fragmentExtend s cur st = Except.ok st1 →
      ((st1.currentFreeSize ≥ req ∧ st1.fragmentCount > 1 ∧ st1.minFragmentSize = 0) ∨
        (st1.currentFreeSize ≥ req ∧ st1.currentFreeSize < st1.minFragmentSize
          ∧ st1.fragmentCount > 1)) →
      fragmentScan (f + 2) s req cur st
        = fragmentScan (f + 1) s req cur
            { st1 with minFragmentSize := st1.currentFreeSize,
                       bestFragmentedBlocks := st1.fragmentedBlocks,
                       fragmentCount := 0, currentFreeSize := 0 } ∧
      fragmentScan (f + 1) s req cur
          { st1 with minFragmentSize := st1.currentFreeSize,
                     bestFragmentedBlocks := st1.fragmentedBlocks,
                     fragmentCount := 0, currentFreeSize := 0 }
        = fragmentScan f s req (s.next cur) (restarted s cur st1)) ∧
    (∀ (f cur : Nat) (st st1 : FragScan), cur ≠ 0 → fragmentExtend s cur st = Except.ok st1 →
      ¬ (st1.currentFreeSize ≥ req ∧ st1.fragmentCount > 1 ∧ st1.minFragmentSize = 0) →
      ¬ (st1.currentFreeSize ≥ req ∧ st1.currentFreeSize < st1.minFragmentSize
          ∧ st1.fragmentCount > 1) →
      fragmentScan (f + 1) s req cur st = fragmentScan f s req (s.next cur) st1) := by
  refine ⟨fragmentScan_returns ns 0 s.FreeListHead fuel _ h.1 (fun _ => rfl) hf, ?_, ?_⟩
  · intro f cur st st1 hc0 hext hrec
    refine ⟨?_, fragmentScan_stalled f s req cur st1 hc0⟩
    rw [fragmentScan_stalled f s req cur st1 hc0]
    exact fragmentScan_record hc0 hext hrec
  · intro f cur st st1 hc0 hext hA hB
    exact fragmentScan_advance hc0 hext hA hB

theorem fragmentScan_terminates_witness :
    (∃ fs, fragmentScan 7 runHeap 128 runHeap.FreeListHead
        { fragmentCount := 0, currentFreeSize := 0, minFragmentSize := 0,
          fragmentedBlocks := fun _ => 0, bestFragmentedBlocks := fun _ => 0 }
        = Except.ok fs) ∧
    (∀ (f cur : Nat) (st st1 : FragScan), cur ≠ 0 →
      fragmentExtend runHeap cur st = Except.ok st1 →
      ((st1.currentFreeSize ≥ 128 ∧ st1.fragmentCount > 1 ∧ st1.minFragmentSize = 0) ∨
        (st1.currentFreeSize ≥ 128 ∧ st1.currentFreeSize < st1.minFragmentSize
          ∧ st1.fragmentCount > 1)) →
      fragmentScan (f + 2) runHeap 128 cur st
        = fragmentScan (f + 1) runHeap 128 cur
            { st1 with minFragmentSize := st1.currentFreeSize,
                       bestFragmentedBlocks := st1.fragmentedBlocks,
                       fragmentCount := 0, currentFreeSize := 0 } ∧
      fragmentScan (f + 1) runHeap 128 cur
          { st1 with minFragmentSize := st1.currentFreeSize,
                     bestFragmentedBlocks := st1.fragmentedBlocks,
                     fragmentCount := 0, currentFreeSize := 0 }
        = fragmentScan f runHeap 128 (runHeap.next cur) (restarted runHeap cur st1)) ∧
    (∀ (f cur : Nat) (st st1 : FragScan), cur ≠ 0 →
      fragmentExtend runHeap cur st = Except.ok st1 →
      ¬ (st1.currentFreeSize ≥ 128 ∧ st1.fragmentCount > 1 ∧ st1.minFragmentSize = 0) →
      ¬ (st1.currentFreeSize ≥ 128 ∧ st1.currentFreeSize < st1.minFragmentSize
          ∧ st1.fragmentCount > 1) →
      fragmentScan (f + 1) runHeap 128 cur st
        = fragmentScan f runHeap 128 (runHeap.next cur) st1) :=
  fragmentScan_terminates runHeap [4096, 4144, 4192] 128 7 runHeap_ok.dll (by decide)

/-! ## Well-formedness of the links -/

/-- The pointer facts of a doubly linked segment that ends in `NULL`: the
`next` field of its last node is `NULL`, and `n.next.prev = n` for every node
`n` that has a successor. -/
theorem Seg.pointer_facts {s : Heap} : ∀ {xs : List Nat} {p a : Nat}, Seg s p a xs 0 →
    (∀ l, xs.getLast? = some l → s.next l = 0) ∧
    (∀ n ∈ xs, s.next n ≠ 0 → s.prev (s.next n) = n)
  | [], _, _, _ => ⟨fun l h => by simp at h, fun n h => by simp at h⟩
  | [x], _, _, h => by
    obtain ⟨_, _, _, h4⟩ := h
    have h4 : s.next x = 0 := h4
    refine ⟨fun l hl => ?_, fun n hn hne => ?_⟩
    · simp only [List.getLast?_singleton, Option.some.injEq] at hl
      rw [← hl]; exact h4
    · simp only [List.mem_singleton] at hn
      rw [hn] at hne
      exact absurd h4 hne
  | x :: y :: ys, _, _, h => by
    obtain ⟨_, _, _, h4⟩ := h
    obtain ⟨ih1, ih2⟩ := Seg.pointer_facts h4
    obtain ⟨e1, _, e3, _⟩ := h4
    refine ⟨fun l hl => ih1 l (by simpa using hl), fun n hn hne => ?_⟩
    rcases List.mem_cons.1 hn with rfl | hn
    · rw [e1]; exact e3
    · exact ih2 n hn hne

/-- What `DLL` says in terms of pointers: the `prev` field of the head is
`NULL`, the `next` field of the last node is `NULL`, and `n.next.prev = n`
for every node `n` that has a successor. -/
theorem DLL.links {s : Heap} {ns : List Nat} (h : DLL s ns) :
    (s.FreeListHead ≠ 0 → s.prev s.FreeListHead = 0) ∧
    (∀ l, ns.getLast? = some l → s.next l = 0) ∧
    (∀ n ∈ ns, s.next n ≠ 0 → s.prev (s.next n) = n) := by
  refine ⟨fun h0 => ?_, (Seg.pointer_facts h.1).1, (Seg.pointer_facts h.1).2⟩
  cases ns with
  | nil => exact absurd h.1 h0
  | cons x xs =>
    obtain ⟨⟨e1, _, e3, _⟩, _⟩ := h
    rw [e1]; exact e3

/-- The traversal loop of `insert_block_into_freelist`, started at a node that
has a predecessor, passes to `insert_node_between` only nodes that have a
predecessor. -/
theorem insertWalkTarget_spec {s : Heap} {blockPtr inner c : Nat} : ∀ (rest : List Nat)
    (p cur fuel : Nat), Seg s p cur rest 0 → p ≠ 0 →
    insertWalkTarget fuel s cur blockPtr = some c →
    c ∈ rest ∧ s.prev c ≠ 0 ∧
      insertWalk fuel inner s cur blockPtr = insert_node_between s c blockPtr
  | [], p, cur, fuel, hseg, _, ht => by
    have hc : cur = 0 := hseg
    subst hc
    cases fuel with
    | zero => simp [insertWalkTarget] at ht
    | succ f => simp [insertWalkTarget] at ht
  | x :: r, p, cur, fuel, hseg, hp, ht => by
    obtain ⟨hc, hc0, hpc, hr⟩ := hseg
    subst hc
    cases fuel with
    | zero => simp [insertWalkTarget] at ht
    | succ f =>
      simp only [insertWalkTarget, ne_eq, hc0, not_false_eq_true, if_true] at ht
      by_cases hlt : psub blockPtr NODE < cur
      · rw [if_pos hlt] at ht
        have e : cur = c := Option.some.inj ht
        subst e
        refine ⟨List.mem_cons_self _ _, by rw [hpc]; exact hp, ?_⟩
        simp only [insertWalk, ne_eq, hc0, not_false_eq_true, if_true]
        rw [if_pos hlt]
      · rw [if_neg hlt] at ht
        obtain ⟨h1, h2, h3⟩ := insertWalkTarget_spec r cur (s.next cur) f hr hc0 ht
        refine ⟨List.mem_cons_of_mem _ h1, h2, ?_⟩
        simp only [insertWalk, ne_eq, hc0, not_false_eq_true, if_true]
        rw [if_neg hlt]
        exact h3

/-- C28: for a well-formed doubly linked free list `ns` (`DLL`: `head.prev`
is `NULL`, the last node's `next` is `NULL`, `n.next.prev = n` for every node
with a successor, as the last part spells out for every state),
`insert_block_into_freelist` of a block that is not in the list and
`remove_freelist_node` of a node of the list return and leave a well-formed
doubly linked list; and whenever `insert_block_into_freelist` calls
`insert_node_between`, the target node is a node of the list whose `prev` is
not `NULL`. -/
theorem freelist_links_preserved (s : Heap) (ns : List Nat) (blockPtr a fuel : Nat)
    (h : DLL s ns) (hf : ns.length < fuel) :
    (psub blockPtr NODE ≠ 0 → psub blockPtr NODE ∉ ns →
      ∃ t, insert_block_into_freelist fuel s blockPtr = Except.ok t ∧
        DLL t (ns.orderedInsert (fun x y => x ≤ y) (psub blockPtr NODE))) ∧
    (a ∈ ns → ∃ t, remove_freelist_node fuel s a = Except.ok t ∧ DLL t (ns.erase a)) ∧
    (∀ c, insertTarget fuel s blockPtr = some c →
      c ∈ ns ∧ s.prev c ≠ 0 ∧
        insert_block_into_freelist fuel s blockPtr = insert_node_between s c blockPtr) ∧
    (∀ (u : Heap) (us : List Nat), DLL u us →
      (u.FreeListHead ≠ 0 → u.prev u.FreeListHead = 0) ∧
      (∀ l, us.getLast? = some l → u.next l = 0) ∧
      (∀ n ∈ us, u.next n ≠ 0 → u.prev (u.next n) = n)) := by
  refine ⟨fun h0 hn => ?_, fun ha => ?_, fun c hc => ?_, fun u us hu => hu.links⟩
  · obtain ⟨t, h1, h2, _⟩ := insert_block_into_freelist_spec h rfl h0 hn hf
    exact ⟨t, h1, h2⟩
  · obtain ⟨t, h1, h2, _⟩ := @remove_freelist_node_spec s ns a fuel h (List.ne_nil_of_mem ha)
      (Nat.le_of_lt hf)
    exact ⟨t, h1, h2⟩
  · unfold insertTarget at hc
    by_cases hA : s.FreeListHead = 0 ∨ psub blockPtr NODE < s.FreeListHead
    · rw [if_pos hA] at hc; exact absurd hc (by simp)
    · rw [if_neg hA] at hc
      by_cases hB : s.next s.FreeListHead = 0
      · rw [if_pos hB] at hc; exact absurd hc (by simp)
      · rw [if_neg hB] at hc
        cases ns with
        | nil => exact absurd h.1 (fun e => hA (Or.inl e))
        | cons x xs =>
          obtain ⟨⟨e1, e2, _, e4⟩, _⟩ := h
          rw [e1] at hc hB
          obtain ⟨h1, h2, h3⟩ := @insertWalkTarget_spec s blockPtr fuel c xs x (s.next x) fuel
            e4 e2 hc
          refine ⟨List.mem_cons_of_mem _ h1, h2, ?_⟩
          unfold insert_block_into_freelist
          rw [if_neg hA, e1, if_neg hB]
          exact h3

theorem freelist_links_preserved_witness :
    (psub 6024 NODE ≠ 0 → psub 6024 NODE ∉ [4096, 8192] →
      ∃ t, insert_block_into_freelist 3 demoHeap 6024 = Except.ok t ∧
        DLL t ([4096, 8192].orderedInsert (fun x y => x ≤ y) (psub 6024 NODE))) ∧
    (8192 ∈ [4096, 8192] →
      ∃ t, remove_freelist_node 3 demoHeap 8192 = Except.ok t ∧ DLL t ([4096, 8192].erase 8192)) ∧
    (∀ c, insertTarget 3 demoHeap 6024 = some c →
      c ∈ [4096, 8192] ∧ demoHeap.prev c ≠ 0 ∧
        insert_block_into_freelist 3 demoHeap 6024 = insert_node_between demoHeap c 6024) ∧
    (∀ (u : Heap) (us : List Nat), DLL u us →
      (u.FreeListHead ≠ 0 → u.prev u.FreeListHead = 0) ∧
      (∀ l, us.getLast? = some l → u.next l = 0) ∧
      (∀ n ∈ us, u.next n ≠ 0 → u.prev (u.next n) = n)) :=
  freelist_links_preserved demoHeap [4096, 8192] 6024 8192 3 demoHeap_dll (by decide)

theorem insertTarget_demoHeap : insertTarget 3 demoHeap 6024 = some 8192 := by decide

end HMM
